import Mathlib

/-!
Verification of the FSM core of `ncr` (`src/include/ncr/ncr_automata.hpp`).

This file is a shallow embedding of the automata engine: symbols and
alphabets, the genome encoding of automata, the validator, the mutator,
the genome string serialization, the synthesizer (`fsm_translate`,
`init_transition_table`, `fsm_init`), the executor (`fsm_reset`,
`fsm_run`), and the partition-refinement step of the minimizer.

Modelling conventions:
- machine integers (`size_t`, `unsigned`) are `Nat`; the one place where
  `size_t` wrap-around matters (`x - 1` with `x = 0`) is modelled
  explicitly with `szsub` (subtraction modulo `2^64`);
- C++ pointers are arena indices (`Nat`); a possibly-null pointer is an
  `Option Nat`; a vector of pointers to heap objects is a
  `List (Option _)` whose `none` entries are freed/null slots;
- bit-flag enums are `Nat` bit masks combined with `|||`;
- reading a `std::vector` out of bounds is undefined behaviour in C++;
  the embedding uses `getD`/`List.set` (which default / do nothing out of
  range) and every theorem below only exercises in-bounds executions
  unless explicitly stated;
- `std::mt19937_64` is an abstract stream of raw draws (`Rng`);
  `uniform_int_distribution{a,b}` is modelled as `a + raw % (b + 1 - a)`
  and `uniform_real_distribution{0,1}` as a rational in `[0, 1)`; proofs
  about the mutator quantify over every possible stream.
-/

namespace NcrAutomata

set_option maxRecDepth 4000

/-- `struct symbol`: a symbol of an alphabet with id, human-readable glyph and
blank indicator. -/
structure symbol where
  id : Nat
  glyph : Char
  is_blank : Bool
deriving DecidableEq

instance : Inhabited symbol := ⟨⟨0, '?', false⟩⟩

/-- `basic_string_t = std::vector<const symbol*>`; a possibly-null pointer to a
symbol is an `Option symbol`. -/
abbrev basic_string_t := List (Option symbol)

/-- `copy_str`: clears the destination, then copies source symbols, stopping at
the first null pointer. -/
def copy_str (src : basic_string_t) : basic_string_t :=
  src.takeWhile (fun s => s.isSome)

/-- `struct basic_alphabet`: counts plus the symbol array (input symbols first,
then blanks). -/
structure basic_alphabet where
  n_symbols : Nat
  n_input_symbols : Nat
  n_blank_symbols : Nat
  symbols : List symbol
deriving DecidableEq

/-- The binary alphabet `{'0','1'}` (`binary_alphabet` in the source). -/
def binary_alphabet : basic_alphabet :=
  { n_symbols := 2
    n_input_symbols := 2
    n_blank_symbols := 0
    symbols := [⟨0, '0', false⟩, ⟨1, '1', false⟩] }

/-- `str_to_symbols`: for each character of the string, push a pointer to every
alphabet symbol whose glyph matches (ill-formed glyphs are silently skipped). -/
def str_to_symbols (str : List Char) (alphabet : basic_alphabet) : basic_string_t :=
  str.foldl (fun acc c => acc ++ (alphabet.symbols.filter (fun s => s.glyph = c)).map some) []

/-- `symbols_to_str`: concatenate the glyphs of a word (the C++ version
dereferences each pointer; a null entry would be undefined behaviour and is
modelled by the default symbol). -/
def symbols_to_str (word : basic_string_t) : List Char :=
  word.map (fun o => (o.getD default).glyph)

/-- The digit-extraction loop of `nth_string`: with `l` symbols still to
produce, take `k = n / n_symbols^(l-1)` as the next (most significant) digit
and continue with `n - k * n_symbols^(l-1)`.  `std::pow` on these arguments is
modelled as the exact integer power. -/
def nth_string_aux (alphabet : basic_alphabet) : Nat → Nat → basic_string_t
  | 0, _ => []
  | l + 1, n =>
    let k := n / alphabet.n_symbols ^ l
    some (alphabet.symbols.getD k default) ::
      nth_string_aux alphabet l (n - k * alphabet.n_symbols ^ l)

/-- `nth_string(alphabet, length, n)`: the n-th string of a given length over
the full alphabet, most significant digit first. -/
def nth_string (alphabet : basic_alphabet) (length n : Nat) : basic_string_t :=
  nth_string_aux alphabet length n

/-- The positional base-`b` digits of `n`, most significant first, padded to a
fixed width: digit `i` (from the left, width `l`) is
`n / b^(l-1-i)` of the running remainder. -/
def msb_digits (b : Nat) : Nat → Nat → List Nat
  | 0, _ => []
  | l + 1, n => (n / b ^ l) :: msb_digits b l (n % b ^ l)

/-- The value of a most-significant-first digit list in base `b`. -/
def digits_val (b : Nat) (ds : List Nat) : Nat :=
  ds.foldl (fun acc d => acc * b + d) 0

/-! ## Genome data model -/

/-- `automaton_state_flags::IS_START` (bit 0). -/
def IS_START : Nat := 1
/-- `automaton_state_flags::IS_FINAL` (bit 1). -/
def IS_FINAL : Nat := 2

/-- `struct state_gene`: id, cosmetic label, flag bit set. -/
structure state_gene where
  id : Nat
  label : Char
  flag : Nat
deriving DecidableEq

instance : Inhabited state_gene := ⟨⟨0, '0', 0⟩⟩

/-- `is_start` on a state gene: the IS_START bit is set. -/
def gene_is_start (s : state_gene) : Bool := s.flag &&& IS_START != 0

/-- `is_final` on a state gene: the IS_FINAL bit is set. -/
def gene_is_final (s : state_gene) : Bool := s.flag &&& IS_FINAL != 0

/-- `struct transition_gene`: `(state_from, symbol_read, state_to,
symbol_write)`, all indices. -/
structure transition_gene where
  state_from : Nat
  symbol_read : Nat
  state_to : Nat
  symbol_write : Nat
deriving DecidableEq

instance : Inhabited transition_gene := ⟨⟨0, 0, 0, 0⟩⟩

/-- `struct fsm_genome`: ordered state genes plus ordered transition genes. -/
structure fsm_genome where
  states : List state_gene
  transitions : List transition_gene
deriving DecidableEq

/-! ## Validator -/

def VF_IS_DFA : Nat := 0
def VF_IS_NFA : Nat := 1
def VF_MISSING_STATES : Nat := 2
def VF_MISSING_TRANSITIONS : Nat := 4
def VF_MULTIPLE_STARTING_STATES : Nat := 8
def VF_MISSING_STARTING_STATE : Nat := 16
def VF_NO_FINAL_STATES : Nat := 32
def VF_TRANSITION_SOURCE_UNKNOWN : Nat := 64
def VF_TRANSITION_TARGET_UNKNOWN : Nat := 128
def VF_DUPLICATE_TRANSITION : Nat := 256
def VF_TRANSITION_SYMBOL_IS_UNKNOWN : Nat := 512

/-- `DFA_ALLOW_EMPTY_FINAL_STATE_SET` (default configuration). -/
def DFA_ALLOW_EMPTY_FINAL_STATE_SET : Bool := true

/-- The pairwise duplicate-transition scan of `validate_genome` (`i < j` over
all pairs, tuple equality). -/
def has_duplicate_transition : List transition_gene → Bool
  | [] => false
  | t :: rest => rest.contains t || has_duplicate_transition rest

/-- `ts_counter[offset + symbol_read]++` of `validate_genome`; an out-of-range
index would be undefined behaviour in C++ and leaves the counter unchanged in
the model. -/
def bump_counter (cnt : List Nat) (i : Nat) : List Nat :=
  cnt.set i (cnt.getD i 0 + 1)

/-- The `counts` vector of `validate_genome`: size `n_states *
n_input_symbols`, incremented once per transition at flat offset
`state_from * n_input_symbols + symbol_read`. -/
def ts_counter (alphabet : basic_alphabet) (genome : fsm_genome) : List Nat :=
  genome.transitions.foldl
    (fun cnt t => bump_counter cnt (t.state_from * alphabet.n_input_symbols + t.symbol_read))
    (List.replicate (genome.states.length * alphabet.n_input_symbols) 0)

/-- The opening section of `validate_genome`: missing states/transitions plus
the count of starting and accepting genes and the resulting start/final flags
(the `NO_FINAL_STATES` branch is compiled out under the default
`DFA_ALLOW_EMPTY_FINAL_STATE_SET`). -/
def vg_base (genome : fsm_genome) : Nat :=
  let r := VF_IS_DFA
  let r := if genome.states.length = 0 then r ||| VF_MISSING_STATES else r
  let r := if genome.transitions.length = 0 then r ||| VF_MISSING_TRANSITIONS else r
  let n := (genome.states.filter gene_is_start).length
  let m := (genome.states.filter gene_is_final).length
  let r := if n = 0 then r ||| VF_MISSING_STARTING_STATE
           else if n > 1 then r ||| VF_MULTIPLE_STARTING_STATES else r
  if !DFA_ALLOW_EMPTY_FINAL_STATE_SET then
    (if m = 0 then r ||| VF_NO_FINAL_STATES else r)
  else r

/-- The endpoint-range loop of `validate_genome`: flag transitions whose
`state_from`/`state_to` is at or above the state count. -/
def vg_endpoints (genome : fsm_genome) (r : Nat) : Nat :=
  genome.transitions.foldl (fun r t =>
    let r := if t.state_from ≥ genome.states.length then r ||| VF_TRANSITION_SOURCE_UNKNOWN else r
    if t.state_to ≥ genome.states.length then r ||| VF_TRANSITION_TARGET_UNKNOWN else r) r

/-- The duplicate/determinism block of `validate_genome`; it runs only when
both the transition list and the state list are non-empty. -/
def vg_dupnfa (alphabet : basic_alphabet) (genome : fsm_genome) (r : Nat) : Nat :=
  if 0 < genome.transitions.length ∧ 0 < genome.states.length then
    let r := if has_duplicate_transition genome.transitions then r ||| VF_DUPLICATE_TRANSITION else r
    if (ts_counter alphabet genome).any (fun c => c > 1) then r ||| VF_IS_NFA else r
  else r

/-- The per-transition symbol check of `validate_genome`: `symbol_read` or
`symbol_write` at or above `n_input_symbols` is flagged unknown. -/
def vg_symbols (alphabet : basic_alphabet) (genome : fsm_genome) (r : Nat) : Nat :=
  genome.transitions.foldl (fun r t =>
    let r := if t.symbol_read ≥ alphabet.n_input_symbols then r ||| VF_TRANSITION_SYMBOL_IS_UNKNOWN else r
    if t.symbol_write ≥ alphabet.n_input_symbols then r ||| VF_TRANSITION_SYMBOL_IS_UNKNOWN else r) r

/-- `validate_genome(alphabet, genome)`: well-formedness flags of a genome,
bit mask over the `VF_*` constants, baseline `IS_DFA = 0`; the four stages in
source order. -/
def validate_genome (alphabet : basic_alphabet) (genome : fsm_genome) : Nat :=
  vg_symbols alphabet genome (vg_dupnfa alphabet genome (vg_endpoints genome (vg_base genome)))

/-- The number of transitions of a genome whose flat counter offset
`state_from * n_input_symbols + symbol_read` equals `q`; slot `q` of the
`counts` vector of `validate_genome` holds exactly this number. -/
def flat_read_count (alphabet : basic_alphabet) (genome : fsm_genome) (q : Nat) : Nat :=
  (genome.transitions.filter
    (fun t => t.state_from * alphabet.n_input_symbols + t.symbol_read = q)).length

/-- The `counts[state][input_symbol]` entry as the specification phrases it
(claim C6): one increment per transition whose `symbol_read` is an input
symbol, tabulated at `[state_from][symbol_read]`.  This definition follows
the specification's words, to be compared against `validate_genome`. -/
def spec_nfa_count (alphabet : basic_alphabet) (genome : fsm_genome) (s c : Nat) : Nat :=
  (genome.transitions.filter
    (fun t => t.symbol_read < alphabet.n_input_symbols
      && t.state_from = s && t.symbol_read = c)).length

/-- The specification's IS_NFA condition (claim C6): some entry of the
specification's `counts[state][input_symbol]` table exceeds 1. -/
def spec_is_nfa (alphabet : basic_alphabet) (genome : fsm_genome) : Prop :=
  ∃ s < genome.states.length, ∃ c < alphabet.n_input_symbols,
    1 < spec_nfa_count alphabet genome s c

instance (alphabet : basic_alphabet) (genome : fsm_genome) :
    Decidable (spec_is_nfa alphabet genome) := by
  unfold spec_is_nfa; infer_instance

/-- The genome used to separate `validate_genome` from the specification's
description of its NFA check: two states; one transition with an
out-of-alphabet `symbol_read` that aliases the counter slot of
`(state 1, symbol 0)`, and one transition actually at `(state 1, symbol 0)`. -/
def c6_genome : fsm_genome :=
  { states := [⟨0, '0', 0⟩, ⟨1, '1', 0⟩]
    transitions := [⟨0, 2, 0, 0⟩, ⟨1, 0, 0, 0⟩] }

/-- A genome with one state and two distinct transitions sharing
`(state_from, symbol_read) = (0, 0)`. -/
def c6_dup_genome : fsm_genome :=
  { states := [⟨0, '0', 0⟩]
    transitions := [⟨0, 0, 0, 0⟩, ⟨0, 0, 0, 1⟩] }

/-- A genome with an empty state list but duplicate (tuple-equal)
transitions. -/
def c10_genome : fsm_genome :=
  { states := []
    transitions := [⟨0, 0, 0, 0⟩, ⟨0, 0, 0, 0⟩] }

/-! ## Genome string serialization -/

/-- The decimal digits of `n`, least significant first (`[]` for 0); the digit
extraction underlying `std::to_string` / `operator<<` on unsigned values. -/
def natDigitsLE : Nat → List Nat
  | 0 => []
  | n + 1 => ((n + 1) % 10) :: natDigitsLE ((n + 1) / 10)
decreasing_by exact Nat.div_lt_self (Nat.succ_pos n) (by omega)

/-- The decimal rendering of an unsigned value as a character list
(`std::to_string(n)` / stream `operator<<`). -/
def natToStr (n : Nat) : List Char :=
  if n = 0 then ['0'] else (natDigitsLE n).reverse.map Nat.digitChar

/-- `std::to_string(n)[0]`: the first (most significant) decimal digit
character of `n` — the label-generation scheme of decode and of new states. -/
def natLabel (n : Nat) : Char := (natToStr n).headD '0'

/-- The decimal value parsed from a digit token (stream `operator>>` into an
unsigned integer). -/
def parseNat (cs : List Char) : Nat :=
  cs.foldl (fun a c => a * 10 + (c.toNat - 48)) 0

/-- The whitespace set `" \n\t\r"` of `rtrim` (also the separator set of
stream extraction). -/
def isWsChar (c : Char) : Bool := c = ' ' || c = '\n' || c = '\t' || c = '\r'

/-- `rtrim`: remove trailing whitespace. -/
def rtrim (s : List Char) : List Char := (s.reverse.dropWhile isWsChar).reverse

/-- Stream extraction of whitespace-separated tokens (`iss >> ...`): skip
whitespace, then read a maximal non-whitespace run, repeatedly. -/
def splitWsAux : List Char → List Char → List (List Char)
  | [], acc => if acc = [] then [] else [acc.reverse]
  | c :: rest, acc =>
      if isWsChar c then
        (if acc = [] then splitWsAux rest [] else acc.reverse :: splitWsAux rest [])
      else splitWsAux rest (c :: acc)

/-- The sequence of whitespace-separated tokens of a string. -/
def splitWs (cs : List Char) : List (List Char) := splitWsAux cs []

/-- The sequence of numbers `genome_to_str` writes: the state count, one flag
per state, the transition count, then the four fields of each transition. -/
def genome_tokens (g : fsm_genome) : List Nat :=
  g.states.length :: g.states.map (fun s => s.flag)
    ++ g.transitions.length :: (g.transitions.map
      (fun t => [t.state_from, t.symbol_read, t.state_to, t.symbol_write])).flatten

/-- The stream output of `genome_to_str` before trimming: every number in
decimal followed by a space (`strs << v << " "`). -/
def render_tokens (ts : List Nat) : List Char :=
  (ts.map (fun t => natToStr t ++ [' '])).flatten

/-- `genome_to_str(genome)`: ids and labels are not written; the flag of each
state and the four fields of each transition are emitted in decimal, space
separated, and the trailing whitespace is trimmed. -/
def genome_to_str (g : fsm_genome) : List Char :=
  rtrim (render_tokens (genome_tokens g))

/-- One `iss >> value` step on the token stream.  When the stream is
exhausted, C++ leaves the (uninitialized) variable unchanged — an
indeterminate value modelled as 0; the round trip never exercises this
case. -/
def read_token : List (List Char) → Nat × List (List Char)
  | [] => (0, [])
  | t :: r => (parseNat t, r)

/-- The state-decoding loop of `genome_from_str`: read `k` flags, building
states whose `id` is the position `i` and whose label is the first decimal
digit of the position. -/
def parse_flags : Nat → Nat → List (List Char) → List state_gene × List (List Char)
  | 0, _, toks => ([], toks)
  | k + 1, i, toks =>
      let p := read_token toks
      let rest := parse_flags k (i + 1) p.2
      ({ id := i, label := natLabel i, flag := p.1 } :: rest.1, rest.2)

/-- The transition-decoding loop of `genome_from_str`: read `k` quadruples
`from read to write`. -/
def parse_trans : Nat → List (List Char) → List transition_gene × List (List Char)
  | 0, toks => ([], toks)
  | k + 1, toks =>
      let p1 := read_token toks
      let p2 := read_token p1.2
      let p3 := read_token p2.2
      let p4 := read_token p3.2
      let rest := parse_trans k p4.2
      ({ state_from := p1.1, symbol_read := p2.1, state_to := p3.1,
         symbol_write := p4.1 } :: rest.1, rest.2)

/-- `genome_from_str(encoded)`: tokenize, read the state count and one flag
per state (id = position, label = first digit of the position), then the
transition count and the transition quadruples. -/
def genome_from_str (s : List Char) : fsm_genome :=
  let toks := splitWs s
  let pn := read_token toks
  let ps := parse_flags pn.1 0 pn.2
  let pm := read_token ps.2
  let pt := parse_trans pm.1 pm.2
  { states := ps.1, transitions := pt.1 }

/-- `to_tuple(lhs) < to_tuple(rhs)`: lexicographic comparison on
`(state_from, symbol_read, state_to, symbol_write)`, the order used by
`sort`. -/
def tg_lt (x y : transition_gene) : Bool :=
  x.state_from < y.state_from ||
  (x.state_from = y.state_from && (x.symbol_read < y.symbol_read ||
    (x.symbol_read = y.symbol_read && (x.state_to < y.state_to ||
      (x.state_to = y.state_to && x.symbol_write < y.symbol_write)))))

/-! ## Random number generation and the mutator -/

/-- An abstract `std::mt19937_64`: an arbitrary stream of raw draws plus the
current position.  The mutator theorems quantify over every stream. -/
structure Rng where
  stream : Nat → Nat
  pos : Nat

/-- Advance the generator by one raw draw. -/
def rng_next (r : Rng) : Nat × Rng := (r.stream r.pos, { r with pos := r.pos + 1 })

/-- `unif_random(rng)`: one draw of
`std::uniform_real_distribution<double>(0,1)` — a value in `[0, 1)`,
modelled as a rational with denominator `2^53`. -/
def unif_random (r : Rng) : Rat × Rng :=
  let p := rng_next r
  (((p.1 % 2 ^ 53 : Nat) : Rat) / ((2 ^ 53 : Nat) : Rat), p.2)

/-- `choice(a, b, rng)`: one draw of `std::uniform_int_distribution{a,b}` —
a value in `[a, b]`, modelled as `a + raw % (b + 1 - a)`. -/
def choice (a b : Nat) (r : Rng) : Nat × Rng :=
  let p := rng_next r
  (a + p.1 % (b + 1 - a), p.2)

/-- Unsigned 64-bit (`size_t`) subtraction with wrap-around modulo `2^64`,
as used in expressions such as `n - 1` passed to `choice`. -/
def szsub (x y : Nat) : Nat := ((2 ^ 64 + x) - y) % 2 ^ 64

/-- `~IS_START` as a C++ `unsigned` (32-bit) mask, used by
`flag &= ~IS_START`. -/
def NOT_IS_START : Nat := 2 ^ 32 - 2

/-- `struct mutation_rates`: independent per-operator probabilities. -/
structure mutation_rates where
  delete_state : Rat
  create_state : Rat
  modify_state_start : Rat
  modify_state_accepting : Rat
  drop_transition : Rat
  spawn_transition : Rat
  modify_transition_source : Rat
  modify_transition_target : Rat
  modify_transition_symbol : Rat
  modify_transition_emission : Rat
deriving DecidableEq

/-- The running data of the states pass of `mutate_states`: the new state
list, the removed original ids, the old→new id map, the recorded start-state
indices, the accepting count, the survivor counter, and the generator. -/
structure MStatesAcc where
  target_states : List state_gene
  removed_states : List Nat
  state_id_map : List (Nat × Nat)
  start_ids : List Nat
  n_accepting_states : Nat
  state_counter : Nat
  rng : Rng

/-- `state_id_map.count(k)/operator[]`: look up the new id of original state
`k`. -/
def lookup_id (m : List (Nat × Nat)) (k : Nat) : Option Nat :=
  (m.find? (fun p => p.1 = k)).map (fun p => p.2)

/-- One iteration of the states pass of `mutate_states`: draw deletion
(recording the removed original index), else toggle `IS_START` and
`IS_FINAL` independently, record start index and accepting count, append the
survivor (with `id` = its position) and extend the id map. -/
def mutate_states_step (mr : mutation_rates) (acc : MStatesAcc) (ig : Nat × state_gene) :
    MStatesAcc :=
  let origin_i := ig.1
  let g := ig.2
  let st : state_gene := { id := acc.target_states.length, label := g.label, flag := g.flag }
  let d1 := unif_random acc.rng
  if d1.1 < mr.delete_state then
    { acc with removed_states := acc.removed_states ++ [origin_i], rng := d1.2 }
  else
    let d2 := unif_random d1.2
    let st := if d2.1 < mr.modify_state_start then { st with flag := st.flag ^^^ IS_START } else st
    let d3 := unif_random d2.2
    let st := if d3.1 < mr.modify_state_accepting then { st with flag := st.flag ^^^ IS_FINAL } else st
    let start_ids := if st.flag &&& IS_START != 0 then acc.start_ids ++ [acc.state_counter]
                     else acc.start_ids
    let n_acc := if st.flag &&& IS_FINAL != 0 then acc.n_accepting_states + 1
                 else acc.n_accepting_states
    let ts := acc.target_states ++ [st]
    { target_states := ts
      removed_states := acc.removed_states
      state_id_map := acc.state_id_map ++ [(origin_i, ts.length - 1)]
      start_ids := start_ids
      n_accepting_states := n_acc
      state_counter := acc.state_counter + 1
      rng := d3.2 }

/-- The possible-creation block of `mutate_states`: when there is room below
`max_nstates` and there are no states at all (no draw, short-circuit) or the
creation draw fires, append a brand-new state with auto label, apply the same
two flag toggles, and update the tallies. -/
def mutate_states_create (mr : mutation_rates) (max_nstates : Nat) (acc : MStatesAcc) :
    MStatesAcc :=
  if acc.target_states.length < max_nstates then
    let c := if acc.target_states.length = 0 then (true, acc.rng)
             else
               let d := unif_random acc.rng
               (d.1 < mr.create_state, d.2)
    if c.1 then
      let state_id := acc.target_states.length
      let st : state_gene := { id := state_id, label := natLabel state_id, flag := 0 }
      let d1 := unif_random c.2
      let st := if d1.1 < mr.modify_state_start then { st with flag := st.flag ^^^ IS_START }
                else st
      let d2 := unif_random d1.2
      let st := if d2.1 < mr.modify_state_accepting then { st with flag := st.flag ^^^ IS_FINAL }
                else st
      let start_ids := if st.flag &&& IS_START != 0 then acc.start_ids ++ [acc.state_counter]
                       else acc.start_ids
      let n_acc := if st.flag &&& IS_FINAL != 0 then acc.n_accepting_states + 1
                   else acc.n_accepting_states
      { acc with target_states := acc.target_states ++ [st], start_ids := start_ids,
                 n_accepting_states := n_acc, rng := d2.2 }
    else { acc with rng := c.2 }
  else acc

/-- One iteration of the transition-remap loop of `mutate_states`: skip
(`none`) any transition whose endpoint is a removed original id or is missing
from the id map (the latter with an error log), else rewrite both endpoints
through the map. -/
def remap_one (removed : List Nat) (idmap : List (Nat × Nat)) (t : transition_gene) :
    Option transition_gene :=
  if removed.contains t.state_from || removed.contains t.state_to then none
  else if (lookup_id idmap t.state_from).isNone then none
  else if (lookup_id idmap t.state_to).isNone then none
  else
    some { state_from := (lookup_id idmap t.state_from).getD 0,
           symbol_read := t.symbol_read,
           state_to := (lookup_id idmap t.state_to).getD 0,
           symbol_write := t.symbol_write }

/-- The transition-remap pass of `mutate_states`: the kept, rewritten
transitions in order. -/
def remap_transitions (genome : fsm_genome) (removed : List Nat) (idmap : List (Nat × Nat)) :
    List transition_gene :=
  genome.transitions.filterMap (remap_one removed idmap)

/-- The start-state normalization of `mutate_states`: no recorded start →
toggle `IS_START` on one uniformly-drawn state; more than one → draw a winner
from `start_ids` and clear `IS_START` on every other recorded index. -/
def normalize_start (states : List state_gene) (start_ids : List Nat) (rng : Rng) :
    List state_gene × Rng :=
  if start_ids.length = 0 then
    let d := choice 0 (szsub states.length 1) rng
    let s := states.getD d.1 default
    (states.set d.1 { s with flag := s.flag ^^^ IS_START }, d.2)
  else if start_ids.length > 1 then
    let d := choice 0 (szsub start_ids.length 1) rng
    let winner := start_ids.getD d.1 0
    (start_ids.foldl (fun ts i =>
        if i = winner then ts
        else
          let s := ts.getD i default
          ts.set i { s with flag := s.flag &&& NOT_IS_START }) states, d.2)
  else (states, rng)

/-- The final-state normalization of `mutate_states`; compiled out under the
default `DFA_ALLOW_EMPTY_FINAL_STATE_SET`. -/
def normalize_final (states : List state_gene) (n_accepting : Nat) (rng : Rng) :
    List state_gene × Rng :=
  if !DFA_ALLOW_EMPTY_FINAL_STATE_SET then
    if n_accepting < 1 then
      let d := choice 0 (szsub states.length 1) rng
      let s := states.getD d.1 default
      (states.set d.1 { s with flag := s.flag ^^^ IS_FINAL }, d.2)
    else (states, rng)
  else (states, rng)

/-- `mutate_states(genome, mr, target, target_transitions, rng, max_nstates)`:
the states pass, the possible creation, the transition remap, and the
start/final normalizations.  Returns the new states, the remapped (not yet
mutated) transitions, and the advanced generator. -/
def mutate_states (genome : fsm_genome) (mr : mutation_rates) (rng : Rng)
    (max_nstates : Nat) : List state_gene × List transition_gene × Rng :=
  let acc0 : MStatesAcc :=
    { target_states := [], removed_states := [], state_id_map := [], start_ids := [],
      n_accepting_states := 0, state_counter := 0, rng := rng }
  let acc1 := genome.states.enum.foldl (mutate_states_step mr) acc0
  let acc2 := mutate_states_create mr max_nstates acc1
  let tts := remap_transitions genome acc2.removed_states acc2.state_id_map
  let ns := normalize_start acc2.target_states acc2.start_ids acc2.rng
  let nf := normalize_final ns.1 acc2.n_accepting_states ns.2
  (nf.1, tts, nf.2)

/-- One iteration of `mutate_transitions`: drop the transition with
probability `drop_transition`, else mutate each of the four fields
independently — endpoints redrawn uniformly from `[0, nstates)`, symbols
redrawn uniformly over the input-symbol ids — in the X-macro order
`state_from, state_to, symbol_read, symbol_write`. -/
def mutate_transitions_step (mr : mutation_rates) (alphabet : basic_alphabet)
    (nstates : Nat) (acc : List transition_gene × Rng) (t : transition_gene) :
    List transition_gene × Rng :=
  let d := unif_random acc.2
  if d.1 < mr.drop_transition then (acc.1, d.2)
  else
    let u1 := unif_random d.2
    let c1 := if u1.1 < mr.modify_transition_source then choice 0 (szsub nstates 1) u1.2
              else (t.state_from, u1.2)
    let u2 := unif_random c1.2
    let c2 := if u2.1 < mr.modify_transition_target then choice 0 (szsub nstates 1) u2.2
              else (t.state_to, u2.2)
    let u3 := unif_random c2.2
    let c3 := if u3.1 < mr.modify_transition_symbol then
                choice 0 (szsub alphabet.n_input_symbols 1) u3.2
              else (t.symbol_read, u3.2)
    let u4 := unif_random c3.2
    let c4 := if u4.1 < mr.modify_transition_emission then
                choice 0 (szsub alphabet.n_input_symbols 1) u4.2
              else (t.symbol_write, u4.2)
    (acc.1 ++ [{ state_from := c1.1, symbol_read := c3.1,
                 state_to := c2.1, symbol_write := c4.1 }], c4.2)

/-- The spawn block of `mutate_transitions`: with probability
`spawn_transition`, draw all four fields uniformly (same X-macro order) and
append the new transition unless a tuple-equal one already exists. -/
def mutate_transitions_spawn (mr : mutation_rates) (alphabet : basic_alphabet)
    (nstates : Nat) (acc : List transition_gene × Rng) : List transition_gene × Rng :=
  let d := unif_random acc.2
  if d.1 < mr.spawn_transition then
    let c1 := choice 0 (szsub nstates 1) d.2
    let c2 := choice 0 (szsub nstates 1) c1.2
    let c3 := choice 0 (szsub alphabet.n_input_symbols 1) c2.2
    let c4 := choice 0 (szsub alphabet.n_input_symbols 1) c3.2
    let t : transition_gene :=
      { state_from := c1.1, symbol_read := c3.1, state_to := c2.1, symbol_write := c4.1 }
    if t ∈ acc.1 then (acc.1, c4.2) else (acc.1 ++ [t], c4.2)
  else (acc.1, d.2)

/-- `mutate_transitions(origin, mr, alphabet, nstates, target, rng)`. -/
def mutate_transitions (origin : List transition_gene) (mr : mutation_rates)
    (alphabet : basic_alphabet) (nstates : Nat) (rng : Rng) :
    List transition_gene × Rng :=
  mutate_transitions_spawn mr alphabet nstates
    (origin.foldl (mutate_transitions_step mr alphabet nstates) ([], rng))

/-- `genome_rewrite_labels`: set every label to the first decimal digit of the
state's position. -/
def genome_rewrite_labels (g : fsm_genome) : fsm_genome :=
  { g with states := g.states.enum.map (fun p => { p.2 with label := natLabel p.1 }) }

/-- `sort(genome)`: sort the transitions by the lexicographic tuple order
(`std::sort` with `to_tuple(lhs) < to_tuple(rhs)`); states are not sorted. -/
def genome_sort (g : fsm_genome) : fsm_genome :=
  { g with transitions := g.transitions.mergeSort (fun x y => !tg_lt y x) }

/-- `mutate_genome(genome, mr, alphabet, rng, max_nstates)`: mutate the
states, then the transitions, rewrite the labels from the new ids and sort
the result canonically. -/
def mutate_genome (genome : fsm_genome) (mr : mutation_rates)
    (alphabet : basic_alphabet) (rng : Rng) (max_nstates : Nat) : fsm_genome :=
  let ms := mutate_states genome mr rng max_nstates
  let mt := mutate_transitions ms.2.1 mr alphabet ms.1.length ms.2.2
  genome_sort (genome_rewrite_labels { states := ms.1, transitions := mt.1 })

/-- The local accumulator of `mutate_states` after the survivor scan and the
creation block (the `acc2` of its let-chain), named so that facts about the
passes can be stated once. -/
def mstates_acc2 (genome : fsm_genome) (mr : mutation_rates) (rng : Rng)
    (max_nstates : Nat) : MStatesAcc :=
  mutate_states_create mr max_nstates
    (genome.states.enum.foldl (mutate_states_step mr)
      { target_states := [], removed_states := [], state_id_map := [], start_ids := [],
        n_accepting_states := 0, state_counter := 0, rng := rng })

/-- The bookkeeping invariant of the states pass: `start_ids` records exactly
the indices of the states currently flagged START, without duplicates, all in
range. -/
def states_start_inv (ts : List state_gene) (sids : List Nat) : Prop :=
  (∀ j (hj : j < ts.length), (gene_is_start ts[j] = true ↔ j ∈ sids)) ∧
  sids.Nodup ∧ (∀ j ∈ sids, j < ts.length)

/-- The full invariant of the states pass of `mutate_states`: the survivor
counter equals the number of new states, `start_ids` is faithful, and every
id-map value is a valid new index. -/
def phase1_inv (acc : MStatesAcc) : Prop :=
  acc.state_counter = acc.target_states.length ∧
  states_start_inv acc.target_states acc.start_ids ∧
  (∀ p ∈ acc.state_id_map, p.2 < acc.target_states.length)

/-- What survives the creation block: `start_ids` faithfulness and the id-map
bound (the survivor counter may now lag the state count by one). -/
def post_create_inv (acc : MStatesAcc) : Prop :=
  states_start_inv acc.target_states acc.start_ids ∧
  (∀ p ∈ acc.state_id_map, p.2 < acc.target_states.length)

/-- An all-zeros draw stream. -/
def zero_rng : Rng := ⟨fun _ => 0, 0⟩

/-- An alphabet with no symbols at all (`n_input_symbols = 0`). -/
def empty_alphabet : basic_alphabet := ⟨0, 0, 0, []⟩

/-- Mutation rates that always spawn a transition and never do anything
else. -/
def spawn_only_rates : mutation_rates := ⟨0, 0, 0, 0, 0, 1, 0, 0, 0, 0⟩

/-- The empty genome. -/
def empty_genome : fsm_genome := ⟨[], []⟩

/-! ## Realized states, transitions and the machine -/

/-- `struct state`: a realized state in the machine's arena; the adjacency
lists hold arena indices of transitions (pointers in C++). -/
structure state where
  id : Nat
  gene_id : Nat
  label : Char
  flag : Nat
  transitions_outgoing : List Nat
  transitions_incoming : List Nat
deriving DecidableEq

instance : Inhabited state := ⟨⟨0, 0, '0', 0, [], []⟩⟩

/-- `is_start` on a realized state. -/
def state.is_start (s : state) : Bool := s.flag &&& IS_START != 0

/-- `is_final` on a realized state. -/
def state.is_final (s : state) : Bool := s.flag &&& IS_FINAL != 0

/-- `struct transition`: a realized transition; `from_`/`to_` are
possibly-null pointers to states, modelled as arena indices. -/
structure transition where
  id : Nat
  from_ : Option Nat
  to_ : Option Nat
  read : Nat
  write : Nat
deriving DecidableEq

instance : Inhabited transition := ⟨⟨0, none, none, 0, 0⟩⟩

/-- `get_state_by_gene_id`: first state whose `gene_id` matches, as an arena
index (`nullptr` = `none`). -/
def get_state_by_gene_id (states : List state) (gid : Nat) : Option Nat :=
  states.findIdx? (fun s => s.gene_id = gid)

/-- One step of the transition-instantiation loop of `fsm_translate`:
resolve the endpoints of transition gene number `i`, then register the new
transition in its endpoints' outgoing/incoming lists. -/
def translate_trans_step (acc : List state × List transition) (ig : Nat × transition_gene) :
    List state × List transition :=
  let states := acc.1
  let i := ig.1
  let tg := ig.2
  let fromIdx := get_state_by_gene_id states tg.state_from
  let toIdx := get_state_by_gene_id states tg.state_to
  let t : transition :=
    { id := i, from_ := fromIdx, to_ := toIdx, read := tg.symbol_read, write := tg.symbol_write }
  let states := match fromIdx with
    | some si =>
        let s := states.getD si default
        if s.transitions_outgoing.contains i then states
        else states.set si { s with transitions_outgoing := s.transitions_outgoing ++ [i] }
    | none => states
  let states := match toIdx with
    | some si =>
        let s := states.getD si default
        if s.transitions_incoming.contains i then states
        else states.set si { s with transitions_incoming := s.transitions_incoming ++ [i] }
    | none => states
  (states, acc.2 ++ [t])

/-- `fsm_translate(genome)`: instantiate one realized state per state gene
(`id` = position, `gene_id` = original id), classify starts/accepting, then
instantiate each transition, resolving endpoints by `gene_id` lookup.
Returns `(states, starts, accepting, transitions)`; the start/accepting lists
hold arena indices (pointers in C++). -/
def fsm_translate (genome : fsm_genome) :
    List state × List Nat × List Nat × List transition :=
  let states := (List.range genome.states.length).map (fun i =>
    let g := genome.states.getD i default
    ({ id := i, gene_id := g.id, label := g.label, flag := g.flag,
       transitions_outgoing := [], transitions_incoming := [] } : state))
  let starts := (List.range genome.states.length).filter
    (fun i => (states.getD i default).is_start)
  let accepting := (List.range genome.states.length).filter
    (fun i => (states.getD i default).is_final)
  let st := genome.transitions.enum.foldl translate_trans_step (states, [])
  (st.1, starts, accepting, st.2)

/-- `init_transition_table(states, transitions, n_symbols, table)`: a dense
`n_states × n_symbols` table of possibly-null transition pointers; each
transition is placed at `[from->id][read]`.  A transition with a null
`from` pointer would be undefined behaviour in C++ (skipped here); an
out-of-range `id`/`read` write is likewise undefined behaviour (dropped by
`List.set`). -/
def init_transition_table (states : List state) (transitions : List transition)
    (n_symbols : Nat) : List (List (Option Nat)) :=
  let table := List.replicate states.length (List.replicate n_symbols (none : Option Nat))
  transitions.enum.foldl (fun tbl it =>
    match it.2.from_ with
    | some si =>
        let fid := (states.getD si default).id
        tbl.set fid ((tbl.getD fid []).set it.2.read (some it.1))
    | none => tbl) table

/-- `struct finite_state_machine`: lifecycle flag, current-state pointer,
borrowed alphabet, owned genome, the two owned arenas (freed slots are
`none`), derived start/accepting lists, and the dense transition table. -/
structure finite_state_machine where
  initialized : Bool
  current_state : Option Nat
  alphabet : basic_alphabet
  genome : fsm_genome
  states : List (Option state)
  transitions : List (Option transition)
  starting_states : List Nat
  accepting_states : List Nat
  transition_table : List (List (Option Nat))
deriving DecidableEq

/-- Dereference a state pointer (arena index) of a machine; dereferencing a
null/freed slot is undefined behaviour in C++ and yields the default state in
the model. -/
def deref_state (fsm : finite_state_machine) (i : Nat) : state :=
  (fsm.states.getD i none).getD default

/-- Dereference a transition pointer (arena index) of a machine. -/
def deref_transition (fsm : finite_state_machine) (i : Nat) : transition :=
  (fsm.transitions.getD i none).getD default

/-- `fsm_init`: translate the genome into the arenas, derive the
start/accepting lists, build the transition table over the full alphabet, and
set `initialized = true`. -/
def fsm_init (fsm : finite_state_machine) : finite_state_machine :=
  let r := fsm_translate fsm.genome
  { fsm with
    states := r.1.map some
    transitions := r.2.2.2.map some
    starting_states := r.2.1
    accepting_states := r.2.2.1
    transition_table := init_transition_table r.1 r.2.2.2 fsm.alphabet.n_symbols
    initialized := true }

/-- `fsm_free`: on an un-initialized machine, report an error and return with
the machine unchanged; otherwise delete every owned state and transition
(slots become null), clear the transition table and reset `initialized`. -/
def fsm_free (fsm : finite_state_machine) : finite_state_machine :=
  if !fsm.initialized then fsm
  else
    { fsm with
      states := List.replicate fsm.states.length none
      transitions := List.replicate fsm.transitions.length none
      transition_table := []
      initialized := false }

/-- `get_initial_state` on realized states: the first state flagged START in
arena order (dereferencing a freed slot would be undefined behaviour; a `none`
slot is treated as the default, non-start state). -/
def get_initial_state (states : List (Option state)) : Option Nat :=
  states.findIdx? (fun os => (os.getD default).is_start)

/-- `fsm_reset`: point `current_state` at the first START state. -/
def fsm_reset (fsm : finite_state_machine) : finite_state_machine :=
  { fsm with current_state := get_initial_state fsm.states }

/-! ## Executor -/

def FSM_OK : Nat := 0
def ERROR_NOT_INITIALIZED : Nat := 2
def ERROR_CURRENT_STATE_NOT_SET : Nat := 4
def ERROR_NOT_IN_STARTING_STATE : Nat := 8
def ERROR_NO_VIABLE_TRANSITION : Nat := 16
def ERROR_NOT_IN_FINAL_STATE : Nat := 32
def ERROR_INVALID_WORD : Nat := 64

/-- `struct fsm_run_log`: trace (arena transition indices), input/accepted/
output words with their string renderings and lengths. -/
structure fsm_run_log where
  trace : List Nat
  input : basic_string_t
  input_string : List Char
  input_length : Nat
  accepted : basic_string_t
  accepted_string : List Char
  accepted_length : Nat
  output : basic_string_t
  output_string : List Char
  output_length : Nat
deriving DecidableEq

/-- An empty run log (caller-owned storage before any run). -/
def empty_log : fsm_run_log :=
  { trace := [], input := [], input_string := [], input_length := 0,
    accepted := [], accepted_string := [], accepted_length := 0,
    output := [], output_string := [], output_length := 0 }

/-- `reset_run_log`: clear every field of the log. -/
def reset_run_log (_log : fsm_run_log) : fsm_run_log := empty_log

/-- The symbol-consuming loop of `fsm_run`: a null symbol aborts with
`ERROR_INVALID_WORD`; an absent table entry aborts with
`ERROR_NO_VIABLE_TRANSITION`; otherwise the symbol is appended to
`accepted`/`trace`/`output` and the machine advances. -/
def fsm_run_loop (fsm : finite_state_machine) (log : fsm_run_log) :
    basic_string_t → Nat × finite_state_machine × fsm_run_log
  | [] => (FSM_OK, fsm, log)
  | none :: _ => (ERROR_INVALID_WORD, fsm, log)
  | some sym :: rest =>
    let cur := deref_state fsm (fsm.current_state.getD 0)
    match (fsm.transition_table.getD cur.id []).getD sym.id none with
    | some ti =>
      let t := deref_transition fsm ti
      let log := { log with
        accepted := log.accepted ++ [some sym]
        trace := log.trace ++ [ti]
        output := log.output ++ [some (fsm.alphabet.symbols.getD t.write default)] }
      fsm_run_loop { fsm with current_state := t.to_ } log rest
    | none => (ERROR_NO_VIABLE_TRANSITION, fsm, log)

/-- `fsm_run(fsm, input, log)`: reset the log, check the three preconditions,
copy the input into the log, consume the input through the transition table,
then OR in `ERROR_NOT_IN_FINAL_STATE` if the machine did not stop in a final
state, and populate the string renderings.  Returns the run flags, the updated
machine and the updated log. -/
def fsm_run (fsm : finite_state_machine) (input : basic_string_t) (log : fsm_run_log) :
    Nat × finite_state_machine × fsm_run_log :=
  let log := reset_run_log log
  if !fsm.initialized then (ERROR_NOT_INITIALIZED, fsm, log)
  else
    match fsm.current_state with
    | none => (ERROR_CURRENT_STATE_NOT_SET, fsm, log)
    | some ci =>
      if !(deref_state fsm ci).is_start then (ERROR_NOT_IN_STARTING_STATE, fsm, log)
      else
        let log := { log with input := copy_str input }
        let r := fsm_run_loop fsm log input
        let result := r.1
        let fsm := r.2.1
        let log := r.2.2
        let result := if !(deref_state fsm (fsm.current_state.getD 0)).is_final
                      then result ||| ERROR_NOT_IN_FINAL_STATE else result
        let log := { log with
          input_string := symbols_to_str input
          input_length := input.length
          accepted_string := symbols_to_str log.accepted
          accepted_length := log.accepted.length
          output_string := symbols_to_str log.output
          output_length := log.output.length }
        (result, fsm, log)

/-! ## The concrete machine of claim C1 -/

/-- The genome of the test machine: `s0` START (not final), `s1` FINAL,
transitions `t(s0,'1') -> s1` writing `'1'` and `t(s1,'1') -> s1` writing
`'1'`. -/
def c1_genome : fsm_genome :=
  { states := [⟨0, '0', IS_START⟩, ⟨1, '1', IS_FINAL⟩]
    transitions := [⟨0, 1, 1, 1⟩, ⟨1, 1, 1, 1⟩] }

/-- A fresh, un-initialized machine over the binary alphabet holding
`c1_genome`. -/
def c1_fsm0 : finite_state_machine :=
  { initialized := false, current_state := none, alphabet := binary_alphabet,
    genome := c1_genome, states := [], transitions := [],
    starting_states := [], accepting_states := [], transition_table := [] }

/-- The machine of claim C1 after `fsm_init` and `fsm_reset`. -/
def c1_fsm : finite_state_machine := fsm_reset (fsm_init c1_fsm0)

/-! ## Minimizer: partitions and equivalence sets -/

/-- `DFA_TRANSITION_UNDEFINED`: marker for a missing successor. -/
def DFA_TRANSITION_UNDEFINED : Int := -1

/-- `DFA_STATE_NOT_PROCESSED`: marker for a state not yet assigned to a
subset of the next partition. -/
def DFA_STATE_NOT_PROCESSED : Int := -1

/-- `struct partition`: the subsets (lists of state indices) and, for each
state index, the index of the subset it belongs to. -/
structure partition where
  subsets : List (List Nat)
  subset_map : List Int
deriving DecidableEq

/-- `get_index_of(states, needle)`: position of a state pointer in the
pointer vector.  With pointers modelled as positions into the vector itself,
a non-null pointer is found exactly when it is in range. -/
def get_index_of (states : List state) (needle : Option Nat) : Option Nat :=
  match needle with
  | some i => if i < states.length then some i else none
  | none => none

/-- `init_successor_map(alphabet, states, transitions, successor_map)`: an
`n_states × n_symbols` table of successor state indices, initialized to
`DFA_TRANSITION_UNDEFINED`; every transition whose endpoints both resolve
writes its target index at `[index_from][read]` (an out-of-range `read`
would be an out-of-bounds vector write in C++, a no-op here). -/
def init_successor_map (alphabet : basic_alphabet) (states : List state)
    (transitions : List transition) : List (List Int) :=
  transitions.foldl (fun succ t =>
    match get_index_of states t.from_, get_index_of states t.to_ with
    | some fi, some ti => succ.set fi ((succ.getD fi []).set t.read (ti : Int))
    | _, _ => succ)
    (List.replicate states.length (List.replicate alphabet.n_symbols DFA_TRANSITION_UNDEFINED))

/-- `are_distinguishable(alphabet, successor_map, p, i, j)`: some symbol
leads `i` and `j` to successors of which exactly one is undefined, or to
successors lying in different subsets of `p` (the C++ reads
`subset_map[p_i]` unchecked; an out-of-range read would be undefined
behaviour, modelled by the `getD` default). -/
def are_distinguishable (alphabet : basic_alphabet) (successor_map : List (List Int))
    (p : partition) (i j : Nat) : Bool :=
  (List.range alphabet.n_symbols).any (fun k =>
    let p_i := (successor_map.getD i []).getD k DFA_TRANSITION_UNDEFINED
    let p_j := (successor_map.getD j []).getD k DFA_TRANSITION_UNDEFINED
    if p_i = DFA_TRANSITION_UNDEFINED ∧ p_j = DFA_TRANSITION_UNDEFINED then false
    else if p_i = DFA_TRANSITION_UNDEFINED ∨ p_j = DFA_TRANSITION_UNDEFINED then true
    else p.subset_map.getD p_i.toNat 0 != p.subset_map.getD p_j.toNat 0)

/-- `are_equal_partitions(left, right)`: equal `subset_map` sizes and equal
entries at every index. -/
def are_equal_partitions (left right : partition) : Bool :=
  if left.subset_map.length ≠ right.subset_map.length then false
  else (List.range left.subset_map.length).all
    (fun i => left.subset_map.getD i 0 == right.subset_map.getD i 0)

/-- The inner pair loop of one refinement iteration: against the fixed
`q_i`, every later not-yet-processed `q_j` of the same current subset joins
`q_i`'s new subset when the two are not distinguishable. -/
def refine_pairs (dist : Nat → Nat → Bool) (q_i : Nat) (rest : List Nat)
    (st : List (List Nat) × List Int) : List (List Nat) × List Int :=
  rest.foldl (fun st q_j =>
    if 0 ≤ st.2.getD q_j DFA_STATE_NOT_PROCESSED then st
    else if dist q_i q_j then st
    else
      let subs := (st.2.getD q_i DFA_STATE_NOT_PROCESSED).toNat
      (st.1.set subs (st.1.getD subs [] ++ [q_j]), st.2.set q_j (subs : Int))) st

/-- The scan over one size-two-or-larger current subset: give each element a
new singleton subset if it has none yet, then run the pair loop against the
elements after it. -/
def refine_scan (dist : Nat → Nat → Bool) :
    List Nat → List (List Nat) × List Int → List (List Nat) × List Int
  | [], st => st
  | q_i :: rest, st =>
    let st := if st.2.getD q_i DFA_STATE_NOT_PROCESSED < 0
              then (st.1 ++ [[q_i]], st.2.set q_i (st.1.length : Int))
              else st
    refine_scan dist rest (refine_pairs dist q_i rest st)

/-- The treatment of one current subset inside the loop body: skip it when
empty, carry it through when singleton, otherwise scan and group it. -/
def refine_dispatch (dist : Nat → Nat → Bool) (st : List (List Nat) × List Int)
    (elems : List Nat) : List (List Nat) × List Int :=
  if elems.length = 0 then st
  else if elems.length = 1 then
    (st.1 ++ [[elems.headD 0]], st.2.set (elems.headD 0) (st.1.length : Int))
  else refine_scan dist elems st

/-- One whole iteration of the refinement do-while body: reset the next
partition to no subsets and an all-`DFA_STATE_NOT_PROCESSED` map, then
process each current subset in order.  The distinguishability oracle gets
the current partition, as `are_distinguishable` reads its `subset_map`. -/
def refine_step (dist : partition → Nat → Nat → Bool) (n_states : Nat)
    (cur : partition) : partition :=
  let st := cur.subsets.foldl (refine_dispatch (dist cur))
    ([], List.replicate n_states DFA_STATE_NOT_PROCESSED)
  { subsets := st.1, subset_map := st.2 }

/-- One iteration of the initial-partition loop of
`dfa_compute_equivalence_sets`: state `j` goes into subset `1` when final,
else into subset `0`, and the map records it. -/
def dfa_initial_step (states : List state) (p : partition) (j : Nat) : partition :=
  let s : Nat := if (states.getD j default).is_final then 1 else 0
  { subsets := p.subsets.set s (p.subsets.getD s [] ++ [j]),
    subset_map := p.subset_map.set j (s : Int) }

/-- The initial partition of `dfa_compute_equivalence_sets`: subset `1`
holds the final states, subset `0` all others, in state order. -/
def dfa_initial_partition (states : List state) : partition :=
  (List.range states.length).foldl (dfa_initial_step states)
    { subsets := [[], []], subset_map := List.replicate states.length 0 }

/-- The iterates of the refinement loop: the partition held in `current`
after `k` executions of the loop body. -/
def refine_iter (dist : partition → Nat → Nat → Bool) (n_states : Nat)
    (p0 : partition) : Nat → partition
  | 0 => p0
  | k + 1 => refine_step dist n_states (refine_iter dist n_states p0 k)

/-- The distinguishability oracle actually used by
`dfa_compute_equivalence_sets`. -/
def dfa_dist (alphabet : basic_alphabet) (states : List state)
    (transitions : List transition) : partition → Nat → Nat → Bool :=
  fun cur i j => are_distinguishable alphabet
    (init_successor_map alphabet states transitions) cur i j

/-- The structural invariant of a partition under construction (and of every
produced partition): the map covers `n` states; every subset is nonempty,
duplicate-free, and its members are in range and mapped back to it; and
every state is either unprocessed or a member of some subset. -/
def stInv (n : Nat) (st : List (List Nat) × List Int) : Prop :=
  st.2.length = n ∧
  (∀ s, s < st.1.length → st.1.getD s [] ≠ [] ∧ (st.1.getD s []).Nodup ∧
    ∀ q ∈ st.1.getD s [], q < n ∧ st.2.getD q DFA_STATE_NOT_PROCESSED = (s : Int)) ∧
  (∀ q, q < n → st.2.getD q DFA_STATE_NOT_PROCESSED = DFA_STATE_NOT_PROCESSED ∨
    ∃ s, s < st.1.length ∧ q ∈ st.1.getD s [])

/-- A well-formed produced partition. -/
def okPart (n : Nat) (p : partition) : Prop := stInv n (p.subsets, p.subset_map)

/-- The number of nonempty subsets of a list of subsets. -/
def countNE (L : List (List Nat)) : Nat := L.countP (fun e => !e.isEmpty)

/-- The relative postcondition of processing elements of the subset `e_all`
starting from state `st0`: the invariant holds, subsets of `st0` are
untouched, new subsets draw their members from `e_all`, and the map is
unchanged outside `e_all`. -/
def scanPost (n : Nat) (e_all : List Nat) (st0 st : List (List Nat) × List Int) : Prop :=
  stInv n st ∧
  st0.1.length ≤ st.1.length ∧
  (∀ s, s < st0.1.length → st.1.getD s [] = st0.1.getD s []) ∧
  (∀ s, st0.1.length ≤ s → s < st.1.length → ∀ q ∈ st.1.getD s [], q ∈ e_all) ∧
  (∀ q, q < n → q ∉ e_all →
    st.2.getD q DFA_STATE_NOT_PROCESSED = st0.2.getD q DFA_STATE_NOT_PROCESSED)

/-! ## Bit-mask helper lemmas -/

theorem land_lor_distrib_right (a b m : Nat) : (a ||| b) &&& m = (a &&& m) ||| (b &&& m) := by
  apply Nat.eq_of_testBit_eq
  intro i
  simp only [Nat.testBit_land, Nat.testBit_lor, Bool.and_or_distrib_right]

theorem lor_and_mask_zero {c m : Nat} (r : Nat) (h : c &&& m = 0) :
    (r ||| c) &&& m = r &&& m := by
  rw [land_lor_distrib_right, h, Nat.or_zero]

theorem lor_one_and_one (r : Nat) : (r ||| 1) &&& 1 = 1 := by
  rw [land_lor_distrib_right]
  rcases Nat.mod_two_eq_zero_or_one r with h | h <;>
    simp [Nat.and_one_is_mod, h]

theorem foldl_and_mask {α : Type} (m : Nat) (f : Nat → α → Nat)
    (hf : ∀ r a, (f r a) &&& m = r &&& m) :
    ∀ (l : List α) (r : Nat), (l.foldl f r) &&& m = r &&& m := by
  intro l
  induction l with
  | nil => intro r; rfl
  | cons a l ih => intro r; rw [List.foldl_cons, ih, hf]

/-! ## Validator lemmas (claims C6, C10) -/

theorem vg_base_and_eq_zero (g : fsm_genome) (m : Nat)
    (h2 : VF_MISSING_STATES &&& m = 0) (h4 : VF_MISSING_TRANSITIONS &&& m = 0)
    (h8 : VF_MULTIPLE_STARTING_STATES &&& m = 0) (h16 : VF_MISSING_STARTING_STATE &&& m = 0) :
    vg_base g &&& m = 0 := by
  unfold vg_base
  simp only [DFA_ALLOW_EMPTY_FINAL_STATE_SET, Bool.not_true, Bool.false_eq_true, if_false]
  split_ifs <;>
    simp only [lor_and_mask_zero _ h2, lor_and_mask_zero _ h4, lor_and_mask_zero _ h8,
      lor_and_mask_zero _ h16, VF_IS_DFA, Nat.zero_and]

theorem vg_endpoints_and_mask (g : fsm_genome) (r m : Nat)
    (h64 : VF_TRANSITION_SOURCE_UNKNOWN &&& m = 0)
    (h128 : VF_TRANSITION_TARGET_UNKNOWN &&& m = 0) :
    vg_endpoints g r &&& m = r &&& m := by
  unfold vg_endpoints
  apply foldl_and_mask
  intro r t
  split_ifs <;>
    simp only [lor_and_mask_zero _ h64, lor_and_mask_zero _ h128]

theorem vg_symbols_and_mask (a : basic_alphabet) (g : fsm_genome) (r m : Nat)
    (h512 : VF_TRANSITION_SYMBOL_IS_UNKNOWN &&& m = 0) :
    vg_symbols a g r &&& m = r &&& m := by
  unfold vg_symbols
  apply foldl_and_mask
  intro r t
  split_ifs <;>
    simp only [lor_and_mask_zero _ h512]

theorem vg_dupnfa_of_guard_false (a : basic_alphabet) (g : fsm_genome) (r : Nat)
    (h : ¬(0 < g.transitions.length ∧ 0 < g.states.length)) :
    vg_dupnfa a g r = r := by
  unfold vg_dupnfa
  rw [if_neg h]

/-- C1: on the two-state machine over `{'0','1'}` (start `s0`, final `s1`,
`1`-loops into `s1`), after init and reset: input `"1"` runs OK and ends in
`s1`; input `"0"` returns exactly `ERROR_NO_VIABLE_TRANSITION |||
ERROR_NOT_IN_FINAL_STATE`; the empty input returns exactly
`ERROR_NOT_IN_FINAL_STATE`. -/
theorem c1_fsm_run_results :
    (fsm_run c1_fsm (str_to_symbols ['1'] binary_alphabet) empty_log).1 = FSM_OK ∧
    (fsm_run c1_fsm (str_to_symbols ['1'] binary_alphabet) empty_log).2.1.current_state = some 1 ∧
    (fsm_run c1_fsm (str_to_symbols ['0'] binary_alphabet) empty_log).1 =
      (ERROR_NO_VIABLE_TRANSITION ||| ERROR_NOT_IN_FINAL_STATE) ∧
    (fsm_run c1_fsm (str_to_symbols [] binary_alphabet) empty_log).1 =
      ERROR_NOT_IN_FINAL_STATE := by
  decide

/-! ## Counter-table lemmas -/

theorem bump_counter_length (cnt : List Nat) (i : Nat) :
    (bump_counter cnt i).length = cnt.length := by
  simp [bump_counter]

theorem bump_counter_getD (cnt : List Nat) (i q : Nat) (hq : q < cnt.length) :
    (bump_counter cnt i).getD q 0 = cnt.getD q 0 + (if i = q then 1 else 0) := by
  unfold bump_counter
  by_cases h : i = q
  · subst h
    rw [if_pos rfl, List.getD_eq_getElem?_getD, List.getElem?_set_self hq, Option.getD_some]
  · rw [if_neg h, List.getD_eq_getElem?_getD, List.getElem?_set_ne h,
      ← List.getD_eq_getElem?_getD]
    omega

theorem tsfold_length (alphabet : basic_alphabet) :
    ∀ (l : List transition_gene) (cnt : List Nat),
      (l.foldl (fun cnt t =>
        bump_counter cnt (t.state_from * alphabet.n_input_symbols + t.symbol_read)) cnt).length
      = cnt.length := by
  intro l
  induction l with
  | nil => intro cnt; rfl
  | cons t l ih => intro cnt; rw [List.foldl_cons, ih, bump_counter_length]

theorem tsfold_getD (alphabet : basic_alphabet) :
    ∀ (l : List transition_gene) (cnt : List Nat) (q : Nat), q < cnt.length →
      ((l.foldl (fun cnt t =>
          bump_counter cnt (t.state_from * alphabet.n_input_symbols + t.symbol_read)) cnt).getD q 0)
        = cnt.getD q 0 +
          (l.filter
            (fun t => t.state_from * alphabet.n_input_symbols + t.symbol_read = q)).length := by
  intro l
  induction l with
  | nil => intro cnt q hq; simp
  | cons t l ih =>
    intro cnt q hq
    rw [List.foldl_cons, ih _ q (by rw [bump_counter_length]; exact hq),
      bump_counter_getD _ _ _ hq, List.filter_cons]
    by_cases h : t.state_from * alphabet.n_input_symbols + t.symbol_read = q
    · rw [if_pos h, if_pos (decide_eq_true h), List.length_cons]
      omega
    · rw [if_neg h, if_neg (by simp [h])]
      omega

theorem ts_counter_length (a : basic_alphabet) (g : fsm_genome) :
    (ts_counter a g).length = g.states.length * a.n_input_symbols := by
  unfold ts_counter
  rw [tsfold_length, List.length_replicate]

theorem ts_counter_getD (a : basic_alphabet) (g : fsm_genome) (q : Nat)
    (hq : q < g.states.length * a.n_input_symbols) :
    (ts_counter a g).getD q 0 = flat_read_count a g q := by
  unfold ts_counter flat_read_count
  rw [tsfold_getD _ _ _ _ (by simpa using hq), List.getD_eq_getElem?_getD,
    List.getElem?_replicate, if_pos hq]
  simp

theorem ts_counter_any_iff (a : basic_alphabet) (g : fsm_genome) :
    ((ts_counter a g).any (fun c => c > 1) = true) ↔
      ∃ q < g.states.length * a.n_input_symbols, 1 < flat_read_count a g q := by
  rw [List.any_eq_true]
  constructor
  · rintro ⟨c, hmem, hgt⟩
    obtain ⟨i, hi, rfl⟩ := List.getElem_of_mem hmem
    have hlen : i < g.states.length * a.n_input_symbols := by
      rwa [ts_counter_length] at hi
    refine ⟨i, hlen, ?_⟩
    have hg := ts_counter_getD a g i hlen
    rw [List.getD_eq_getElem?_getD, List.getElem?_eq_getElem hi, Option.getD_some] at hg
    rw [← hg]
    exact of_decide_eq_true hgt
  · rintro ⟨q, hq, hgt⟩
    have hlen : q < (ts_counter a g).length := by rwa [ts_counter_length]
    refine ⟨(ts_counter a g)[q], List.getElem_mem hlen, ?_⟩
    have hg := ts_counter_getD a g q hq
    rw [List.getD_eq_getElem?_getD, List.getElem?_eq_getElem hlen, Option.getD_some] at hg
    rw [hg]
    exact decide_eq_true hgt

/-- The IS_NFA bit of `validate_genome`: set exactly when both lists are
non-empty and some slot of the flat `counts` vector exceeds 1. -/
theorem validate_genome_nfa_bit (a : basic_alphabet) (g : fsm_genome) :
    validate_genome a g &&& VF_IS_NFA =
      if 0 < g.transitions.length ∧ 0 < g.states.length ∧
          (ts_counter a g).any (fun c => c > 1) = true then 1 else 0 := by
  have hr0m : vg_endpoints g (vg_base g) &&& VF_IS_NFA = 0 := by
    rw [vg_endpoints_and_mask _ _ _ (by decide) (by decide),
      vg_base_and_eq_zero _ _ (by decide) (by decide) (by decide) (by decide)]
  have hr1m : (if has_duplicate_transition g.transitions then
      vg_endpoints g (vg_base g) ||| VF_DUPLICATE_TRANSITION else
      vg_endpoints g (vg_base g)) &&& VF_IS_NFA = 0 := by
    split_ifs
    · rw [lor_and_mask_zero _ (by decide)]; exact hr0m
    · exact hr0m
  unfold validate_genome
  rw [vg_symbols_and_mask _ _ _ _ (by decide)]
  unfold vg_dupnfa
  by_cases hg : 0 < g.transitions.length ∧ 0 < g.states.length
  · rw [if_pos hg]
    show (if ((ts_counter a g).any fun c => c > 1) = true then
        (if has_duplicate_transition g.transitions then
          vg_endpoints g (vg_base g) ||| VF_DUPLICATE_TRANSITION else
          vg_endpoints g (vg_base g)) ||| VF_IS_NFA
      else (if has_duplicate_transition g.transitions then
          vg_endpoints g (vg_base g) ||| VF_DUPLICATE_TRANSITION else
          vg_endpoints g (vg_base g))) &&& VF_IS_NFA = _
    by_cases hany : ((ts_counter a g).any fun c => c > 1) = true
    · have hcond : 0 < g.transitions.length ∧ 0 < g.states.length ∧
          ((ts_counter a g).any fun c => c > 1) = true := ⟨hg.1, hg.2, hany⟩
      rw [if_pos hany, if_pos hcond]
      exact lor_one_and_one _
    · have hncond : ¬(0 < g.transitions.length ∧ 0 < g.states.length ∧
          ((ts_counter a g).any fun c => c > 1) = true) := fun hc => hany hc.2.2
      rw [if_neg hany]
      conv_rhs => rw [if_neg hncond]
      exact hr1m
  · have hncond : ¬(0 < g.transitions.length ∧ 0 < g.states.length ∧
        ((ts_counter a g).any fun c => c > 1) = true) := fun hc => hg ⟨hc.1, hc.2.1⟩
    rw [if_neg hg]
    conv_rhs => rw [if_neg hncond]
    exact hr0m

theorem length_filter_ge_two {α : Type} (p : α → Bool) :
    ∀ (l : List α) (i j : Nat), i < j → ∀ (hi : i < l.length) (hj : j < l.length),
      p l[i] = true → p l[j] = true → 2 ≤ (l.filter p).length := by
  intro l
  induction l with
  | nil => intro i j _ hi; simp at hi
  | cons a tl ih =>
    intro i j hij hi hj hpi hpj
    match i, j with
    | 0, j + 1 =>
      simp only [List.getElem_cons_zero] at hpi
      simp only [List.getElem_cons_succ] at hpj
      have hjl : j < tl.length := by simpa using hj
      have hmem : tl[j] ∈ tl.filter p :=
        List.mem_filter.mpr ⟨List.getElem_mem hjl, hpj⟩
      have hpos : 0 < (tl.filter p).length :=
        List.length_pos.mpr (List.ne_nil_of_mem hmem)
      rw [List.filter_cons, if_pos hpi, List.length_cons]
      omega
    | i + 1, j + 1 =>
      simp only [List.getElem_cons_succ] at hpi hpj
      have h2 : 2 ≤ (tl.filter p).length :=
        ih i j (by omega) (by simpa using hi) (by simpa using hj) hpi hpj
      rw [List.filter_cons]
      split_ifs
      · rw [List.length_cons]; omega
      · exact h2

/-- C6 (amended): `validate_genome` increments the flat `counts` slot
`state_from * n_input_symbols + symbol_read` once for every transition
(regardless of whether `symbol_read` is an input symbol), and sets `IS_NFA`
exactly when both gene lists are non-empty and some in-range slot exceeds 1;
in particular two transitions sharing an in-range `(state_from, symbol_read)`
pair in a genome with states set `IS_NFA`. -/
theorem c6_validate_nfa_characterization (a : basic_alphabet) (g : fsm_genome) :
    (validate_genome a g &&& VF_IS_NFA ≠ 0 ↔
      (0 < g.transitions.length ∧ 0 < g.states.length ∧
        ∃ q < g.states.length * a.n_input_symbols, 1 < flat_read_count a g q)) ∧
    (∀ i j : Nat, i < j → j < g.transitions.length → 0 < g.states.length →
      (g.transitions.getD i default).state_from = (g.transitions.getD j default).state_from →
      (g.transitions.getD i default).symbol_read = (g.transitions.getD j default).symbol_read →
      (g.transitions.getD i default).state_from < g.states.length →
      (g.transitions.getD i default).symbol_read < a.n_input_symbols →
      validate_genome a g &&& VF_IS_NFA ≠ 0) := by
  have hmain : validate_genome a g &&& VF_IS_NFA ≠ 0 ↔
      (0 < g.transitions.length ∧ 0 < g.states.length ∧
        ∃ q < g.states.length * a.n_input_symbols, 1 < flat_read_count a g q) := by
    rw [validate_genome_nfa_bit]
    by_cases hcond : 0 < g.transitions.length ∧ 0 < g.states.length ∧
        (ts_counter a g).any (fun c => c > 1) = true
    · rw [if_pos hcond]
      simp only [ne_eq, one_ne_zero, not_false_iff, true_iff]
      exact ⟨hcond.1, hcond.2.1, (ts_counter_any_iff a g).mp hcond.2.2⟩
    · rw [if_neg hcond]
      simp only [ne_eq, not_true, false_iff]
      rintro ⟨h1, h2, hex⟩
      exact hcond ⟨h1, h2, (ts_counter_any_iff a g).mpr hex⟩
  refine ⟨hmain, ?_⟩
  intro i j hij hj hs heqf heqr hsf hsr
  have hi : i < g.transitions.length := lt_trans hij hj
  rw [hmain]
  refine ⟨by omega, hs, ?_⟩
  have hdi : g.transitions.getD i default = g.transitions[i] := by
    rw [List.getD_eq_getElem?_getD, List.getElem?_eq_getElem hi, Option.getD_some]
  have hdj : g.transitions.getD j default = g.transitions[j] := by
    rw [List.getD_eq_getElem?_getD, List.getElem?_eq_getElem hj, Option.getD_some]
  rw [hdi] at heqf heqr hsf hsr
  rw [hdj] at heqf heqr
  refine ⟨g.transitions[i].state_from * a.n_input_symbols + g.transitions[i].symbol_read, ?_, ?_⟩
  · calc g.transitions[i].state_from * a.n_input_symbols + g.transitions[i].symbol_read
        < g.transitions[i].state_from * a.n_input_symbols + a.n_input_symbols := by omega
      _ = (g.transitions[i].state_from + 1) * a.n_input_symbols := by ring
      _ ≤ g.states.length * a.n_input_symbols := Nat.mul_le_mul_right _ (by omega)
  · unfold flat_read_count
    exact length_filter_ge_two _ g.transitions i j hij hi hj
      (by simp) (by rw [← heqf, ← heqr]; simp)

/-- C6 (counterexample): on `c6_genome` the code sets `IS_NFA` — the
transition with out-of-alphabet `symbol_read = 2` aliases the counter slot of
`(state 1, symbol 0)` — while the specification's
`counts[state][input_symbol]` table (one increment per transition whose
`symbol_read` is an input symbol) has no entry above 1, so "sets IS_NFA
exactly when some count exceeds 1" fails as stated. -/
theorem c6_spec_table_counterexample :
    validate_genome binary_alphabet c6_genome &&& VF_IS_NFA ≠ 0 ∧
    ¬ spec_is_nfa binary_alphabet c6_genome := by
  decide

/-- C6 witness: a genuine duplicate `(state_from, symbol_read)` pair sets
`IS_NFA`. -/
theorem c6_validate_nfa_characterization_witness :
    validate_genome binary_alphabet c6_dup_genome &&& VF_IS_NFA ≠ 0 :=
  (c6_validate_nfa_characterization binary_alphabet c6_dup_genome).2 0 1
    (by decide) (by decide) (by decide) (by decide) (by decide) (by decide) (by decide)

/-- C10: when the state list (or the transition list) is empty, the
duplicate-transition and determinism checks of `validate_genome` do not run:
neither `DUPLICATE_TRANSITION` nor `IS_NFA` is ever set, even when the
transition list contains tuple-equal duplicates. -/
theorem c10_validate_empty_states_no_dup_nfa (a : basic_alphabet) (g : fsm_genome)
    (h : g.states = [] ∨ g.transitions = []) :
    validate_genome a g &&& VF_DUPLICATE_TRANSITION = 0 ∧
    validate_genome a g &&& VF_IS_NFA = 0 := by
  have hguard : ¬(0 < g.transitions.length ∧ 0 < g.states.length) := by
    rcases h with h | h <;> simp [h]
  constructor <;>
  · unfold validate_genome
    rw [vg_symbols_and_mask _ _ _ _ (by decide), vg_dupnfa_of_guard_false _ _ _ hguard,
      vg_endpoints_and_mask _ _ _ (by decide) (by decide),
      vg_base_and_eq_zero _ _ (by decide) (by decide) (by decide) (by decide)]

/-- C10 witness: the empty-states genome with duplicate transitions. -/
theorem c10_validate_empty_states_no_dup_nfa_witness :
    (c10_genome.states = [] ∨ c10_genome.transitions = []) ∧
    validate_genome binary_alphabet c10_genome &&& VF_DUPLICATE_TRANSITION = 0 ∧
    validate_genome binary_alphabet c10_genome &&& VF_IS_NFA = 0 :=
  ⟨Or.inl rfl, c10_validate_empty_states_no_dup_nfa binary_alphabet c10_genome (Or.inl rfl)⟩

/-! ## nth_string lemmas (claim C7) -/

theorem nth_string_eq_map_msb (a : basic_alphabet) :
    ∀ (len n : Nat), nth_string a len n =
      (msb_digits a.n_symbols len n).map (fun k => some (a.symbols.getD k default)) := by
  intro len
  induction len with
  | zero => intro n; rfl
  | succ l ih =>
    intro n
    show some _ :: nth_string_aux a l _ = _
    rw [msb_digits, List.map_cons]
    have hmod : n - n / a.n_symbols ^ l * a.n_symbols ^ l = n % a.n_symbols ^ l := by
      generalize a.n_symbols ^ l = p
      have h := Nat.div_add_mod n p
      rw [Nat.mul_comm] at h
      omega
    rw [show nth_string_aux a l (n - n / a.n_symbols ^ l * a.n_symbols ^ l) =
        nth_string a l (n % a.n_symbols ^ l) from by rw [nth_string, hmod], ih]

theorem msb_digits_length (b : Nat) : ∀ (l n : Nat), (msb_digits b l n).length = l := by
  intro l
  induction l with
  | zero => intro n; rfl
  | succ l ih => intro n; rw [msb_digits, List.length_cons, ih]

theorem msb_digits_lt (b : Nat) : ∀ (l n : Nat), n < b ^ l →
    ∀ k ∈ msb_digits b l n, k < b := by
  intro l
  induction l with
  | zero => intro n _ k hk; simp [msb_digits] at hk
  | succ l ih =>
    intro n hn k hk
    have hb : 0 < b ^ l := by
      rcases Nat.eq_zero_or_pos (b ^ l) with h | h
      · rw [Nat.pow_succ, h, Nat.zero_mul] at hn; omega
      · exact h
    rw [msb_digits, List.mem_cons] at hk
    rcases hk with rfl | hk
    · rw [Nat.div_lt_iff_lt_mul hb, Nat.mul_comm, ← Nat.pow_succ]
      exact hn
    · exact ih _ (Nat.mod_lt _ hb) k hk

theorem digits_val_foldl (b : Nat) :
    ∀ (ds : List Nat) (acc : Nat),
      ds.foldl (fun a d => a * b + d) acc = acc * b ^ ds.length + digits_val b ds := by
  intro ds
  induction ds with
  | nil => intro acc; simp [digits_val]
  | cons d rest ih =>
    intro acc
    rw [List.foldl_cons, ih (acc * b + d),
      show digits_val b (d :: rest) = List.foldl (fun a d => a * b + d) (0 * b + d) rest from rfl,
      ih (0 * b + d), List.length_cons]
    ring

theorem digits_val_cons (b d : Nat) (rest : List Nat) :
    digits_val b (d :: rest) = d * b ^ rest.length + digits_val b rest := by
  show List.foldl (fun a d => a * b + d) (0 * b + d) rest = _
  rw [digits_val_foldl]
  ring

theorem digits_val_msb (b : Nat) : ∀ (l n : Nat), n < b ^ l →
    digits_val b (msb_digits b l n) = n := by
  intro l
  induction l with
  | zero =>
    intro n hn
    rw [Nat.pow_zero] at hn
    interval_cases n
    rfl
  | succ l ih =>
    intro n hn
    have hb : 0 < b ^ l := by
      rcases Nat.eq_zero_or_pos (b ^ l) with h | h
      · rw [Nat.pow_succ, h, Nat.zero_mul] at hn; omega
      · exact h
    rw [msb_digits, digits_val_cons, msb_digits_length, ih _ (Nat.mod_lt _ hb)]
    have h := Nat.div_add_mod n (b ^ l)
    rw [Nat.mul_comm] at h
    omega

theorem digits_val_lt_and_msb (b : Nat) :
    ∀ ds : List Nat, (∀ d ∈ ds, d < b) →
      digits_val b ds < b ^ ds.length ∧
      msb_digits b ds.length (digits_val b ds) = ds := by
  intro ds
  induction ds with
  | nil => intro _; exact ⟨by simp [digits_val], rfl⟩
  | cons d rest ih =>
    intro hd
    have hdb : d < b := hd d (List.mem_cons_self _ _)
    have hbpos : 0 < b ^ rest.length := Nat.pos_pow_of_pos _ (by omega)
    obtain ⟨hlt, hmsb⟩ := ih (fun x hx => hd x (List.mem_cons_of_mem _ hx))
    have hval : digits_val b (d :: rest) = d * b ^ rest.length + digits_val b rest :=
      digits_val_cons b d rest
    constructor
    · rw [hval, List.length_cons, Nat.pow_succ]
      calc d * b ^ rest.length + digits_val b rest
          < d * b ^ rest.length + b ^ rest.length := by omega
        _ = (d + 1) * b ^ rest.length := by ring
        _ ≤ b * b ^ rest.length := Nat.mul_le_mul_right _ (by omega)
        _ = b ^ rest.length * b := Nat.mul_comm _ _
    · rw [List.length_cons, msb_digits, hval]
      have hdiv : (d * b ^ rest.length + digits_val b rest) / b ^ rest.length = d := by
        rw [Nat.mul_comm d, Nat.mul_add_div hbpos, Nat.div_eq_of_lt hlt]
        omega
      have hmod : (d * b ^ rest.length + digits_val b rest) % b ^ rest.length
          = digits_val b rest := by
        rw [Nat.mul_comm d, Nat.mul_add_mod, Nat.mod_eq_of_lt hlt]
      rw [hdiv, hmod, hmsb]

theorem list_map_inj_of_bound {α : Type} {f : Nat → α} {L : Nat}
    (hinj : ∀ x y, x < L → y < L → f x = f y → x = y) :
    ∀ xs ys : List Nat, (∀ k ∈ xs, k < L) → (∀ k ∈ ys, k < L) →
      xs.map f = ys.map f → xs = ys := by
  intro xs
  induction xs with
  | nil => intro ys _ _ h; cases ys <;> simp_all
  | cons x xs ih =>
    intro ys hxs hys h
    cases ys with
    | nil => simp at h
    | cons y ys =>
      rw [List.map_cons, List.map_cons, List.cons.injEq] at h
      have hx : x = y := hinj x y (hxs x (List.mem_cons_self _ _))
        (hys y (List.mem_cons_self _ _)) h.1
      rw [hx, ih ys (fun k hk => hxs k (List.mem_cons_of_mem _ hk))
        (fun k hk => hys k (List.mem_cons_of_mem _ hk)) h.2]

theorem symbols_getD_inj (a : basic_alphabet) (hlen : a.symbols.length = a.n_symbols)
    (hnodup : a.symbols.Nodup) :
    ∀ x y, x < a.n_symbols → y < a.n_symbols →
      some (a.symbols.getD x default) = some (a.symbols.getD y default) → x = y := by
  intro x y hx hy h
  have hx' : x < a.symbols.length := by omega
  have hy' : y < a.symbols.length := by omega
  rw [Option.some_inj, List.getD_eq_getElem?_getD, List.getElem?_eq_getElem hx',
    List.getD_eq_getElem?_getD, List.getElem?_eq_getElem hy', Option.getD_some,
    Option.getD_some] at h
  exact (List.Nodup.getElem_inj_iff hnodup).mp h

/-- C7: for every alphabet whose symbol array is faithful (length matches
`n_symbols`, no duplicate symbols) and every length, `nth_string` computes the
positional base-`n_symbols` digits of `n`, most significant first, and is a
bijection between `[0, n_symbols ^ length)` and the symbol sequences of that
length; in particular over the binary alphabet with length 3 it yields
`"000"` for 0, `"111"` for 7, and all 8 outputs are pairwise distinct. -/
theorem c7_nth_string_bijection (a : basic_alphabet) (len : Nat)
    (hlen : a.symbols.length = a.n_symbols) (hnodup : a.symbols.Nodup) :
    (∀ n, nth_string a len n =
        (msb_digits a.n_symbols len n).map (fun k => some (a.symbols.getD k default))) ∧
    (∀ m n, m < a.n_symbols ^ len → n < a.n_symbols ^ len →
        nth_string a len m = nth_string a len n → m = n) ∧
    (∀ w : List Nat, w.length = len → (∀ k ∈ w, k < a.n_symbols) →
        ∃ n < a.n_symbols ^ len,
          nth_string a len n = w.map (fun k => some (a.symbols.getD k default))) ∧
    (nth_string binary_alphabet 3 0 = str_to_symbols ['0', '0', '0'] binary_alphabet ∧
     nth_string binary_alphabet 3 7 = str_to_symbols ['1', '1', '1'] binary_alphabet ∧
     ((List.range 8).map (nth_string binary_alphabet 3)).Nodup) := by
  refine ⟨nth_string_eq_map_msb a len, ?_, ?_, by decide, by decide, by decide⟩
  · intro m n hm hn h
    rw [nth_string_eq_map_msb, nth_string_eq_map_msb] at h
    have hdig := list_map_inj_of_bound (symbols_getD_inj a hlen hnodup)
      (msb_digits a.n_symbols len m) (msb_digits a.n_symbols len n)
      (msb_digits_lt _ _ _ hm) (msb_digits_lt _ _ _ hn) h
    rw [← digits_val_msb a.n_symbols len m hm, ← digits_val_msb a.n_symbols len n hn, hdig]
  · intro w hw hwb
    obtain ⟨hlt, hmsb⟩ := digits_val_lt_and_msb a.n_symbols w hwb
    refine ⟨digits_val a.n_symbols w, by rwa [hw] at hlt, ?_⟩
    rw [nth_string_eq_map_msb, ← hw, hmsb]

/-- C7 witness: the bijection theorem applied to the binary alphabet at
length 2, separating inputs 1 and 2 and producing `"10"` for 2. -/
theorem c7_nth_string_bijection_witness :
    binary_alphabet.symbols.length = binary_alphabet.n_symbols ∧
    binary_alphabet.symbols.Nodup ∧
    (nth_string binary_alphabet 2 1 = nth_string binary_alphabet 2 2 → (1 : Nat) = 2) ∧
    ∃ n < binary_alphabet.n_symbols ^ 2,
      nth_string binary_alphabet 2 n =
        [1, 0].map (fun k => some (binary_alphabet.symbols.getD k default)) :=
  ⟨rfl, by decide,
   (c7_nth_string_bijection binary_alphabet 2 rfl (by decide)).2.1 1 2 (by decide) (by decide),
   (c7_nth_string_bijection binary_alphabet 2 rfl (by decide)).2.2.1 [1, 0] rfl (by decide)⟩

/-! ## Serialization lemmas (claim C3) -/

theorem natDigitsLE_lt : ∀ n : Nat, ∀ d ∈ natDigitsLE n, d < 10 := by
  intro n
  induction n using Nat.strong_induction_on with
  | _ n ih =>
    match n with
    | 0 => intro d hd; simp [natDigitsLE] at hd
    | m + 1 =>
      intro d hd
      rw [natDigitsLE, List.mem_cons] at hd
      rcases hd with rfl | hd
      · exact Nat.mod_lt _ (by omega)
      · exact ih ((m + 1) / 10) (Nat.div_lt_self (Nat.succ_pos m) (by omega)) d hd

theorem natDigitsLE_val : ∀ n : Nat, digits_val 10 (natDigitsLE n).reverse = n := by
  intro n
  induction n using Nat.strong_induction_on with
  | _ n ih =>
    match n with
    | 0 => rw [natDigitsLE]; rfl
    | m + 1 =>
      rw [natDigitsLE, List.reverse_cons]
      have happ : ∀ (xs : List Nat) (d : Nat),
          digits_val 10 (xs ++ [d]) = digits_val 10 xs * 10 + d := by
        intro xs d
        rw [digits_val, List.foldl_append, List.foldl_cons, List.foldl_nil, digits_val]
      rw [happ, ih ((m + 1) / 10) (Nat.div_lt_self (Nat.succ_pos m) (by omega))]
      omega

theorem digitChar_toNat_sub (d : Nat) (hd : d < 10) : (Nat.digitChar d).toNat - 48 = d := by
  interval_cases d <;> rfl

theorem digitChar_not_ws (d : Nat) (hd : d < 10) : isWsChar (Nat.digitChar d) = false := by
  interval_cases d <;> rfl

theorem natToStr_ne_nil (n : Nat) : natToStr n ≠ [] := by
  unfold natToStr
  split_ifs with h
  · simp
  · intro hcon
    have : natDigitsLE n ≠ [] := by
      match n, h with
      | m + 1, _ => rw [natDigitsLE]; simp
    simp_all

theorem natToStr_no_ws (n : Nat) : ∀ c ∈ natToStr n, isWsChar c = false := by
  unfold natToStr
  split_ifs with h
  · intro c hc
    rw [List.mem_singleton] at hc
    subst hc; rfl
  · intro c hc
    rw [List.mem_map] at hc
    obtain ⟨d, hd, rfl⟩ := hc
    rw [List.mem_reverse] at hd
    exact digitChar_not_ws d (natDigitsLE_lt n d hd)

theorem foldl_congr_mem {α β : Type} (f g : α → β → α) :
    ∀ (l : List β) (a : α), (∀ x ∈ l, ∀ acc, f acc x = g acc x) →
      l.foldl f a = l.foldl g a := by
  intro l
  induction l with
  | nil => intro a _; rfl
  | cons x l ih =>
    intro a h
    rw [List.foldl_cons, List.foldl_cons, h x (List.mem_cons_self _ _),
      ih _ (fun y hy acc => h y (List.mem_cons_of_mem _ hy) acc)]

theorem parse_natToStr (n : Nat) : parseNat (natToStr n) = n := by
  unfold natToStr
  split_ifs with h
  · subst h; rfl
  · unfold parseNat
    calc (List.map Nat.digitChar (natDigitsLE n).reverse).foldl
          (fun a c => a * 10 + (c.toNat - 48)) 0
        = ((natDigitsLE n).reverse).foldl
            (fun a d => a * 10 + ((Nat.digitChar d).toNat - 48)) 0 :=
          List.foldl_map _ _ _ _
      _ = ((natDigitsLE n).reverse).foldl (fun a d => a * 10 + d) 0 := by
          apply foldl_congr_mem
          intro d hd acc
          rw [List.mem_reverse] at hd
          rw [digitChar_toNat_sub d (natDigitsLE_lt n d hd)]
      _ = n := natDigitsLE_val n

theorem splitWsAux_nil (acc : List Char) :
    splitWsAux [] acc = if acc = [] then [] else [acc.reverse] := rfl

theorem splitWsAux_cons (c : Char) (rest acc : List Char) :
    splitWsAux (c :: rest) acc =
      if isWsChar c then
        (if acc = [] then splitWsAux rest [] else acc.reverse :: splitWsAux rest [])
      else splitWsAux rest (c :: acc) := rfl

theorem splitWsAux_ws_only :
    ∀ (s : List Char), (∀ c ∈ s, isWsChar c = true) →
      ∀ acc, splitWsAux s acc = splitWsAux [] acc := by
  intro s
  induction s with
  | nil => intro _ _; rfl
  | cons c rest ih =>
    intro h acc
    rw [splitWsAux_cons, if_pos (h c (List.mem_cons_self _ _))]
    have hrest := ih (fun x hx => h x (List.mem_cons_of_mem _ hx))
    by_cases hacc : acc = []
    · subst hacc
      rw [if_pos rfl, hrest []]
    · rw [if_neg hacc, hrest []]
      simp [splitWsAux_nil, hacc]

theorem splitWsAux_append_ws :
    ∀ (s suffix : List Char), (∀ c ∈ suffix, isWsChar c = true) →
      ∀ acc, splitWsAux (s ++ suffix) acc = splitWsAux s acc := by
  intro s
  induction s with
  | nil =>
    intro suffix h acc
    rw [List.nil_append]
    exact splitWsAux_ws_only suffix h acc
  | cons c rest ih =>
    intro suffix h acc
    rw [List.cons_append, splitWsAux_cons, splitWsAux_cons]
    split_ifs <;> rw [ih suffix h]

theorem rtrim_decomposition (s : List Char) :
    (∀ c ∈ (s.reverse.takeWhile isWsChar).reverse, isWsChar c = true) ∧
    s = rtrim s ++ (s.reverse.takeWhile isWsChar).reverse := by
  constructor
  · intro c hc
    rw [List.mem_reverse] at hc
    exact List.mem_takeWhile_imp hc
  · rw [rtrim, ← List.reverse_append, List.takeWhile_append_dropWhile, List.reverse_reverse]

theorem splitWs_rtrim (s : List Char) : splitWs (rtrim s) = splitWs s := by
  obtain ⟨hws, heq⟩ := rtrim_decomposition s
  unfold splitWs
  conv_rhs => rw [heq]
  rw [splitWsAux_append_ws _ _ hws]

theorem splitWsAux_token :
    ∀ (tk : List Char), tk ≠ [] → (∀ c ∈ tk, isWsChar c = false) →
      ∀ (rest : List Char) (acc : List Char),
        splitWsAux (tk ++ rest) acc = splitWsAux rest (tk.reverse ++ acc) := by
  intro tk
  induction tk with
  | nil => intro h; exact absurd rfl h
  | cons c tk ih =>
    intro _ hno rest acc
    rw [List.cons_append, splitWsAux_cons,
      if_neg (by rw [hno c (List.mem_cons_self _ _)]; simp)]
    by_cases htk : tk = []
    · subst htk
      simp
    · rw [ih htk (fun x hx => hno x (List.mem_cons_of_mem _ hx)) rest (c :: acc)]
      rw [List.reverse_cons, List.append_assoc]
      rfl

theorem splitWs_render (ts : List Nat) : splitWs (render_tokens ts) = ts.map natToStr := by
  unfold splitWs
  induction ts with
  | nil => rfl
  | cons t ts ih =>
    have ih2 : splitWsAux ((ts.map (fun t => natToStr t ++ [' '])).flatten) []
        = ts.map natToStr := ih
    rw [render_tokens, List.map_cons, List.flatten_cons, List.append_assoc,
      List.singleton_append,
      splitWsAux_token (natToStr t) (natToStr_ne_nil t) (natToStr_no_ws t),
      List.append_nil, splitWsAux_cons,
      if_pos (show isWsChar ' ' = true from rfl),
      if_neg (show ¬(natToStr t).reverse = [] from by simp [natToStr_ne_nil t]),
      List.reverse_reverse, ih2, List.map_cons]

theorem splitWs_genome_to_str (g : fsm_genome) :
    splitWs (genome_to_str g) = (genome_tokens g).map natToStr := by
  rw [genome_to_str, splitWs_rtrim, splitWs_render]

theorem read_token_cons (t : List Char) (r : List (List Char)) :
    read_token (t :: r) = (parseNat t, r) := rfl

theorem parse_flags_cons (k i : Nat) (toks : List (List Char)) :
    parse_flags (k + 1) i toks =
      (({ id := i, label := natLabel i, flag := (read_token toks).1 } : state_gene)
        :: (parse_flags k (i + 1) (read_token toks).2).1,
       (parse_flags k (i + 1) (read_token toks).2).2) := rfl

theorem parse_flags_spec :
    ∀ (flags : List Nat) (i : Nat) (rest : List (List Char)),
      (parse_flags flags.length i (flags.map natToStr ++ rest)).1.map (fun s => s.id)
          = List.range' i flags.length ∧
      (parse_flags flags.length i (flags.map natToStr ++ rest)).1.map (fun s => s.flag)
          = flags ∧
      (parse_flags flags.length i (flags.map natToStr ++ rest)).2 = rest := by
  intro flags
  induction flags with
  | nil => intro i rest; exact ⟨rfl, rfl, rfl⟩
  | cons f fs ih =>
    intro i rest
    rw [List.map_cons, List.cons_append, List.length_cons]
    obtain ⟨h1, h2, h3⟩ := ih (i + 1) rest
    rw [parse_flags_cons, read_token_cons]
    refine ⟨?_, ?_, ?_⟩
    · rw [List.map_cons, List.range'_succ, h1]
    · rw [List.map_cons, parse_natToStr, h2]
    · exact h3

theorem parse_trans_cons (k : Nat) (toks : List (List Char)) :
    parse_trans (k + 1) toks =
      (({ state_from := (read_token toks).1,
          symbol_read := (read_token (read_token toks).2).1,
          state_to := (read_token (read_token (read_token toks).2).2).1,
          symbol_write := (read_token (read_token (read_token (read_token toks).2).2).2).1 }
          : transition_gene)
        :: (parse_trans k
            (read_token (read_token (read_token (read_token toks).2).2).2).2).1,
       (parse_trans k
            (read_token (read_token (read_token (read_token toks).2).2).2).2).2) := rfl

theorem parse_trans_spec :
    ∀ (ts : List transition_gene) (rest : List (List Char)),
      parse_trans ts.length
        ((ts.map (fun t => [natToStr t.state_from, natToStr t.symbol_read,
          natToStr t.state_to, natToStr t.symbol_write])).flatten ++ rest) = (ts, rest) := by
  intro ts
  induction ts with
  | nil => intro rest; rfl
  | cons t ts ih =>
    intro rest
    rw [List.map_cons, List.flatten_cons, List.length_cons]
    rw [show ([natToStr t.state_from, natToStr t.symbol_read, natToStr t.state_to,
        natToStr t.symbol_write] ++ (ts.map (fun t => [natToStr t.state_from,
          natToStr t.symbol_read, natToStr t.state_to, natToStr t.symbol_write])).flatten) ++ rest
      = natToStr t.state_from :: natToStr t.symbol_read :: natToStr t.state_to ::
        natToStr t.symbol_write :: ((ts.map (fun t => [natToStr t.state_from,
          natToStr t.symbol_read, natToStr t.state_to, natToStr t.symbol_write])).flatten ++ rest)
      from by simp]
    rw [parse_trans_cons]
    simp only [read_token_cons]
    rw [parse_natToStr, parse_natToStr, parse_natToStr, parse_natToStr, ih rest]

/-- C3: for a genome whose state ids equal their positions (and canonically
sorted transitions), decode after encode restores the state ids, the state
flags and the transition list exactly (labels are regenerated from the
position and excluded). -/
theorem c3_genome_round_trip (g : fsm_genome)
    (hid : ∀ (k : Nat) (hk : k < g.states.length), (g.states.get ⟨k, hk⟩).id = k)
    (_hsorted : List.Pairwise (fun x y => tg_lt y x = false) g.transitions) :
    (genome_from_str (genome_to_str g)).states.map (fun s => s.id)
        = g.states.map (fun s => s.id) ∧
    (genome_from_str (genome_to_str g)).states.map (fun s => s.flag)
        = g.states.map (fun s => s.flag) ∧
    (genome_from_str (genome_to_str g)).transitions = g.transitions := by
  have htoks : splitWs (genome_to_str g) =
      natToStr g.states.length :: (g.states.map (fun s => s.flag)).map natToStr
        ++ natToStr g.transitions.length :: ((g.transitions.map
          (fun t => [natToStr t.state_from, natToStr t.symbol_read,
            natToStr t.state_to, natToStr t.symbol_write])).flatten) := by
    rw [splitWs_genome_to_str, genome_tokens]
    simp only [List.map_cons, List.map_append, List.map_flatten, List.map_map]
    rfl
  have h0 : read_token (splitWs (genome_to_str g)) =
      (g.states.length, (g.states.map (fun s => s.flag)).map natToStr
        ++ natToStr g.transitions.length :: ((g.transitions.map
          (fun t => [natToStr t.state_from, natToStr t.symbol_read,
            natToStr t.state_to, natToStr t.symbol_write])).flatten)) := by
    rw [htoks, List.cons_append, read_token_cons, parse_natToStr]
  have hP : parse_flags (read_token (splitWs (genome_to_str g))).1 0
        (read_token (splitWs (genome_to_str g))).2 =
      parse_flags (g.states.map (fun s => s.flag)).length 0
        ((g.states.map (fun s => s.flag)).map natToStr
          ++ natToStr g.transitions.length :: ((g.transitions.map
            (fun t => [natToStr t.state_from, natToStr t.symbol_read,
              natToStr t.state_to, natToStr t.symbol_write])).flatten)) := by
    rw [h0]
    show parse_flags g.states.length 0 _ = _
    rw [List.length_map]
  obtain ⟨hids, hflags, hrest⟩ := parse_flags_spec (g.states.map (fun s => s.flag)) 0
    (natToStr g.transitions.length :: (g.transitions.map
      (fun t => [natToStr t.state_from, natToStr t.symbol_read,
        natToStr t.state_to, natToStr t.symbol_write])).flatten)
  have hkey : genome_from_str (genome_to_str g) =
      { states := (parse_flags (read_token (splitWs (genome_to_str g))).1 0
          (read_token (splitWs (genome_to_str g))).2).1,
        transitions := (parse_trans
          (read_token (parse_flags (read_token (splitWs (genome_to_str g))).1 0
            (read_token (splitWs (genome_to_str g))).2).2).1
          (read_token (parse_flags (read_token (splitWs (genome_to_str g))).1 0
            (read_token (splitWs (genome_to_str g))).2).2).2).1 } := rfl
  refine ⟨?_, ?_, ?_⟩
  · rw [hkey]
    show ((parse_flags (read_token (splitWs (genome_to_str g))).1 0
      (read_token (splitWs (genome_to_str g))).2).1).map (fun s => s.id) = _
    rw [hP, hids, List.length_map]
    apply List.ext_getElem
    · rw [List.length_range', List.length_map]
    · intro k h1 h2
      rw [List.getElem_range', List.getElem_map]
      rw [List.length_map] at h2
      have h3 : g.states[k].id = k := by
        have := hid k h2
        simpa using this
      omega
  · rw [hkey]
    show ((parse_flags (read_token (splitWs (genome_to_str g))).1 0
      (read_token (splitWs (genome_to_str g))).2).1).map (fun s => s.flag) = _
    rw [hP, hflags]
  · rw [hkey]
    show (parse_trans
        (read_token (parse_flags (read_token (splitWs (genome_to_str g))).1 0
          (read_token (splitWs (genome_to_str g))).2).2).1
        (read_token (parse_flags (read_token (splitWs (genome_to_str g))).1 0
          (read_token (splitWs (genome_to_str g))).2).2).2).1 = _
    rw [hP, hrest, read_token_cons, parse_natToStr]
    show (parse_trans g.transitions.length _).1 = _
    have hts := parse_trans_spec g.transitions []
    rw [List.append_nil] at hts
    rw [hts]

/-- C3 witness: the round trip on the concrete two-state machine genome
(ids equal positions, transitions canonically sorted). -/
theorem c3_genome_round_trip_witness :
    (genome_from_str (genome_to_str c1_genome)).states.map (fun s => s.id)
        = c1_genome.states.map (fun s => s.id) ∧
    (genome_from_str (genome_to_str c1_genome)).states.map (fun s => s.flag)
        = c1_genome.states.map (fun s => s.flag) ∧
    (genome_from_str (genome_to_str c1_genome)).transitions = c1_genome.transitions :=
  c3_genome_round_trip c1_genome (by decide) (by decide)

/-! ## Executor log and lifecycle lemmas (claims C5, C8) -/

theorem copy_str_of_no_null (input : basic_string_t)
    (h : ∀ s ∈ input, s.isSome = true) : copy_str input = input := by
  unfold copy_str
  induction input with
  | nil => rfl
  | cons s rest ih =>
    rw [List.takeWhile_cons, if_pos (h s (List.mem_cons_self _ _)),
      ih (fun x hx => h x (List.mem_cons_of_mem _ hx))]

theorem fsm_run_loop_input :
    ∀ (input : basic_string_t) (fsm : finite_state_machine) (log : fsm_run_log),
      ((fsm_run_loop fsm log input).2.2).input = log.input := by
  intro input
  induction input with
  | nil => intro fsm log; rfl
  | cons s rest ih =>
    intro fsm log
    match s with
    | none => rfl
    | some sym =>
      rw [fsm_run_loop]
      split


      · exact ih _ _
      · rfl

/-- C5 (counterexample): `fsm_run` returns before the input is copied when a
precondition fails — on an un-initialized machine the call fails with
`ERROR_NOT_INITIALIZED` and `log.input` stays empty although the input is
non-empty; and with a null symbol inside the input, `copy_str` stops early,
so `log.input` is a strict prefix of the input. -/
theorem c5_log_input_counterexample :
    ((fsm_run c1_fsm0 (str_to_symbols ['1'] binary_alphabet) empty_log).1
        = ERROR_NOT_INITIALIZED ∧
     (fsm_run c1_fsm0 (str_to_symbols ['1'] binary_alphabet) empty_log).2.2.input = [] ∧
     str_to_symbols ['1'] binary_alphabet ≠ []) ∧
    ((fsm_run c1_fsm [some ⟨1, '1', false⟩, none, some ⟨1, '1', false⟩] empty_log).1
        = ERROR_INVALID_WORD ∧
     (fsm_run c1_fsm [some ⟨1, '1', false⟩, none, some ⟨1, '1', false⟩] empty_log).2.2.input
        = [some ⟨1, '1', false⟩] ∧
     [some (⟨1, '1', false⟩ : symbol), none, some ⟨1, '1', false⟩]
        ≠ [some ⟨1, '1', false⟩]) := by
  decide

/-- C5 (amended): `fsm_run` resets the log first; the input is copied into
`log.input` only after the three precondition checks pass, and the copy stops
at the first null symbol — hence whenever the preconditions pass and the
input contains no null symbol, `log.input` equals the complete input, even
when the run fails early on a missing transition. -/
theorem c5_log_input_amended (fsm : finite_state_machine) (input : basic_string_t)
    (log : fsm_run_log) (h1 : fsm.initialized = true)
    (ci : Nat) (h2 : fsm.current_state = some ci)
    (h3 : (deref_state fsm ci).is_start = true)
    (h4 : ∀ s ∈ input, s.isSome = true) :
    (fsm_run fsm input log).2.2.input = input := by
  unfold fsm_run
  rw [h1, h2]
  simp only [Bool.not_true, Bool.false_eq_true, if_false, h3, if_neg]
  show (fsm_run_loop fsm { reset_run_log log with input := copy_str input } input).2.2.input
      = input
  rw [fsm_run_loop_input]
  exact copy_str_of_no_null input h4

/-- C5 witness: a run that fails with a missing transition still records the
full input in `log.input`. -/
theorem c5_log_input_amended_witness :
    (fsm_run c1_fsm (str_to_symbols ['0'] binary_alphabet) empty_log).2.2.input
      = str_to_symbols ['0'] binary_alphabet :=
  c5_log_input_amended c1_fsm (str_to_symbols ['0'] binary_alphabet) empty_log
    (by decide) 0 (by decide) (by decide) (by decide)

/-- C8: lifecycle misuse is non-destructive — `fsm_free` on an un-initialized
machine returns it unchanged, `fsm_run` on an un-initialized machine returns
`ERROR_NOT_INITIALIZED` with the machine unchanged; on an initialized
machine, `fsm_free` nulls every owned state and transition slot, clears the
transition table and resets `initialized`. -/
theorem c8_lifecycle_misuse (fsm : finite_state_machine) (input : basic_string_t)
    (log : fsm_run_log) :
    (fsm.initialized = false → fsm_free fsm = fsm) ∧
    (fsm.initialized = false →
      (fsm_run fsm input log).1 = ERROR_NOT_INITIALIZED ∧
      (fsm_run fsm input log).2.1 = fsm) ∧
    (fsm.initialized = true →
      (fsm_free fsm).states = List.replicate fsm.states.length none ∧
      (fsm_free fsm).transitions = List.replicate fsm.transitions.length none ∧
      (fsm_free fsm).transition_table = [] ∧
      (fsm_free fsm).initialized = false ∧
      (fsm_free fsm).genome = fsm.genome ∧
      (fsm_free fsm).current_state = fsm.current_state) := by
  refine ⟨?_, ?_, ?_⟩
  · intro h
    unfold fsm_free
    rw [h]
    rfl
  · intro h
    unfold fsm_run
    rw [h]
    exact ⟨rfl, rfl⟩
  · intro h
    unfold fsm_free
    rw [h]
    exact ⟨rfl, rfl, rfl, rfl, rfl, rfl⟩

/-- C8 witness: both sides of the lifecycle on the concrete machine. -/
theorem c8_lifecycle_misuse_witness :
    fsm_free c1_fsm0 = c1_fsm0 ∧
    (fsm_run c1_fsm0 [] empty_log).1 = ERROR_NOT_INITIALIZED ∧
    (fsm_free c1_fsm).initialized = false ∧
    (fsm_free c1_fsm).transition_table = [] :=
  ⟨(c8_lifecycle_misuse c1_fsm0 [] empty_log).1 rfl,
   ((c8_lifecycle_misuse c1_fsm0 [] empty_log).2.1 rfl).1,
   ((c8_lifecycle_misuse c1_fsm [] empty_log).2.2 rfl).2.2.2.1,
   ((c8_lifecycle_misuse c1_fsm [] empty_log).2.2 rfl).2.2.1⟩

/-! ## Mutator lemmas (claims C2, C9) -/

theorem getD_of_lt {α : Type} {d : α} (l : List α) (j : Nat) (hj : j < l.length) :
    l.getD j d = l[j] := by
  rw [List.getD_eq_getElem?_getD, List.getElem?_eq_getElem hj, Option.getD_some]

theorem foldl_pres {α β : Type} (P : α → Prop) (f : α → β → α)
    (h : ∀ acc b, P acc → P (f acc b)) :
    ∀ (l : List β) (acc : α), P acc → P (l.foldl f acc) := by
  intro l
  induction l with
  | nil => intro acc hp; exact hp
  | cons b l ih => intro acc hp; exact ih _ (h acc b hp)

theorem szsub_one (x : Nat) (h1 : 1 ≤ x) (h64 : x ≤ 2 ^ 64) : szsub x 1 = x - 1 := by
  unfold szsub
  omega

theorem choice_fst (a b : Nat) (r : Rng) :
    (choice a b r).1 = a + r.stream r.pos % (b + 1 - a) := rfl

theorem choice_zero_lt (x : Nat) (r : Rng) (h1 : 1 ≤ x) (h64 : x ≤ 2 ^ 64) :
    (choice 0 (szsub x 1) r).1 < x := by
  rw [choice_fst, szsub_one x h1 h64]
  have hx : x - 1 + 1 - 0 = x := by omega
  rw [hx]
  have := Nat.mod_lt (r.stream r.pos) (show 0 < x by omega)
  omega

theorem ite_lt {c : Prop} [Decidable c] {a b n : Nat} (ha : a < n) (hb : b < n) :
    (if c then a else b) < n := by
  split_ifs <;> assumption

theorem gene_is_start_flag (s : state_gene) : gene_is_start s = (s.flag &&& 1 != 0) := rfl

theorem start_bit_xor_start (f : Nat) :
    ((f ^^^ IS_START) &&& 1 != 0) = !(f &&& 1 != 0) := by
  simp only [IS_START, Nat.and_one_is_mod, Nat.xor_mod_two_eq]
  rcases Nat.mod_two_eq_zero_or_one f with h | h <;>
    simp [Nat.add_mod, h]

theorem start_bit_xor_final (f : Nat) : (f ^^^ IS_FINAL) &&& 1 = f &&& 1 := by
  simp only [IS_FINAL, Nat.and_one_is_mod, Nat.xor_mod_two_eq]
  omega

theorem start_bit_clear (f : Nat) : (f &&& NOT_IS_START) &&& 1 = 0 := by
  rw [Nat.and_assoc, show NOT_IS_START &&& 1 = 0 from by decide, Nat.and_zero]

theorem countP_eq_one_of_unique (p : state_gene → Bool) :
    ∀ (ts : List state_gene) (w : Nat), w < ts.length →
      (∀ j, j < ts.length → (p (ts.getD j default) = true ↔ j = w)) →
      ts.countP p = 1 := by
  intro ts
  induction ts with
  | nil => intro w hw; simp at hw
  | cons t rest ih =>
    intro w hw hu
    match w with
    | 0 =>
      have hpt : p t = true := (hu 0 (by simp)).mpr rfl
      have hz : rest.countP p = 0 := by
        rw [List.countP_eq_zero]
        intro a ha
        obtain ⟨j, hj, rfl⟩ := List.getElem_of_mem ha
        have := hu (j + 1) (by simpa using Nat.succ_lt_succ hj)
        rw [show ((t :: rest).getD (j + 1) default) = rest.getD j default from rfl,
          getD_of_lt rest j hj] at this
        intro hp
        exact Nat.succ_ne_zero j (this.mp hp)
      rw [List.countP_cons, hz, if_pos hpt]
    | w + 1 =>
      have hpt : ¬p t = true := by
        intro hp
        exact Nat.succ_ne_zero w ((hu 0 (by simp)).mp hp).symm
      have hrest : rest.countP p = 1 := by
        apply ih w (by simpa using hw)
        intro j hj
        have := hu (j + 1) (by simpa using Nat.succ_lt_succ hj)
        rw [show ((t :: rest).getD (j + 1) default) = rest.getD j default from rfl] at this
        constructor
        · intro hp; exact Nat.succ_injective (this.mp hp)
        · intro hjw; exact this.mpr (by omega)
      rw [List.countP_cons, hrest, if_neg hpt]

theorem phase1_append (acc : MStatesAcc) (h : phase1_inv acc) (st : state_gene)
    (origin_i : Nat) (na : Nat) (r : Rng) :
    phase1_inv
      { target_states := acc.target_states ++ [st]
        removed_states := acc.removed_states
        state_id_map := acc.state_id_map ++ [(origin_i, (acc.target_states ++ [st]).length - 1)]
        start_ids := if st.flag &&& IS_START != 0 then acc.start_ids ++ [acc.state_counter]
                     else acc.start_ids
        n_accepting_states := na
        state_counter := acc.state_counter + 1
        rng := r } := by
  obtain ⟨hcnt, ⟨hiff, hnodup, hbound⟩, hmap⟩ := h
  refine ⟨?_, ⟨?_, ?_, ?_⟩, ?_⟩
  · simp only [List.length_append, List.length_singleton]
    omega
  · intro j hj
    simp only [List.length_append, List.length_singleton] at hj
    by_cases hjl : j < acc.target_states.length
    · rw [List.getElem_append_left hjl, hiff j hjl]
      by_cases hb : (st.flag &&& IS_START != 0) = true
      · rw [if_pos hb]
        simp only [List.mem_append, List.mem_singleton]
        constructor
        · exact fun hm => Or.inl hm
        · rintro (hm | hm)
          · exact hm
          · omega
      · rw [if_neg hb]
    · have hje : j = acc.target_states.length := by omega
      subst hje
      rw [List.getElem_concat_length _ _ _ rfl]
      by_cases hb : (st.flag &&& IS_START != 0) = true
      · rw [if_pos hb, gene_is_start_flag]
        simp only [List.mem_append, List.mem_singleton, IS_START] at hb ⊢
        exact ⟨fun _ => Or.inr hcnt.symm, fun _ => hb⟩
      · rw [if_neg hb, gene_is_start_flag]
        simp only [IS_START] at hb
        constructor
        · intro hx; exact absurd hx hb
        · intro hm; exact absurd (hbound _ hm) (by omega)
  · by_cases hb : (st.flag &&& IS_START != 0) = true
    · rw [if_pos hb]
      have hnott : acc.state_counter ∉ acc.start_ids := by
        intro hm
        have := hbound _ hm
        omega
      simp [List.nodup_append, hnodup, hnott]
    · rw [if_neg hb]
      exact hnodup
  · intro j hjmem
    simp only [List.length_append, List.length_singleton]
    by_cases hb : (st.flag &&& IS_START != 0) = true
    · rw [if_pos hb] at hjmem
      simp only [List.mem_append, List.mem_singleton] at hjmem
      rcases hjmem with hm | hm
      · have := hbound _ hm; omega
      · omega
    · rw [if_neg hb] at hjmem
      have := hbound _ hjmem; omega
  · intro pq hpq
    simp only [List.mem_append, List.mem_singleton] at hpq
    simp only [List.length_append, List.length_singleton]
    rcases hpq with hm | hm
    · have := hmap _ hm; omega
    · subst hm
      simp only [List.length_append, List.length_singleton]
      omega

theorem mutate_states_step_inv (mr : mutation_rates) (acc : MStatesAcc)
    (ig : Nat × state_gene) (h : phase1_inv acc) :
    phase1_inv (mutate_states_step mr acc ig) := by
  obtain ⟨hcnt, hssi, hmap⟩ := h
  unfold mutate_states_step
  by_cases hdel : (unif_random acc.rng).1 < mr.delete_state
  · rw [if_pos hdel]
    exact ⟨hcnt, hssi, hmap⟩
  · rw [if_neg hdel]
    exact phase1_append acc ⟨hcnt, hssi, hmap⟩ _ _ _ _

theorem phase1_fold (mr : mutation_rates) (l : List (Nat × state_gene)) (acc : MStatesAcc)
    (h : phase1_inv acc) : phase1_inv (l.foldl (mutate_states_step mr) acc) :=
  foldl_pres phase1_inv (mutate_states_step mr)
    (fun acc ig hp => mutate_states_step_inv mr acc ig hp) l acc h

theorem phase1_init : phase1_inv
    { target_states := [], removed_states := [], state_id_map := [], start_ids := [],
      n_accepting_states := 0, state_counter := 0, rng := rng } := by
  refine ⟨rfl, ⟨?_, List.nodup_nil, ?_⟩, ?_⟩
  · intro j hj; simp at hj
  · intro j hj; simp at hj
  · intro p hp; simp at hp

theorem post_create_append (acc : MStatesAcc) (h : phase1_inv acc) (st : state_gene)
    (na : Nat) (r : Rng) :
    post_create_inv
      { acc with
        target_states := acc.target_states ++ [st]
        start_ids := if st.flag &&& IS_START != 0 then acc.start_ids ++ [acc.state_counter]
                     else acc.start_ids
        n_accepting_states := na
        rng := r } := by
  obtain ⟨hcnt, ⟨hiff, hnodup, hbound⟩, hmap⟩ := h
  refine ⟨⟨?_, ?_, ?_⟩, ?_⟩
  · intro j hj
    simp only [List.length_append, List.length_singleton] at hj
    by_cases hjl : j < acc.target_states.length
    · rw [List.getElem_append_left hjl, hiff j hjl]
      by_cases hb : (st.flag &&& IS_START != 0) = true
      · rw [if_pos hb]
        simp only [List.mem_append, List.mem_singleton]
        constructor
        · exact fun hm => Or.inl hm
        · rintro (hm | hm)
          · exact hm
          · omega
      · rw [if_neg hb]
    · have hje : j = acc.target_states.length := by omega
      subst hje
      rw [List.getElem_concat_length _ _ _ rfl]
      by_cases hb : (st.flag &&& IS_START != 0) = true
      · rw [if_pos hb, gene_is_start_flag]
        simp only [List.mem_append, List.mem_singleton, IS_START] at hb ⊢
        exact ⟨fun _ => Or.inr hcnt.symm, fun _ => hb⟩
      · rw [if_neg hb, gene_is_start_flag]
        simp only [IS_START] at hb
        constructor
        · intro hx; exact absurd hx hb
        · intro hm; exact absurd (hbound _ hm) (by omega)
  · by_cases hb : (st.flag &&& IS_START != 0) = true
    · rw [if_pos hb]
      have hnott : acc.state_counter ∉ acc.start_ids := by
        intro hm
        have := hbound _ hm
        omega
      simp [List.nodup_append, hnodup, hnott]
    · rw [if_neg hb]
      exact hnodup
  · intro j hjmem
    simp only [List.length_append, List.length_singleton]
    by_cases hb : (st.flag &&& IS_START != 0) = true
    · rw [if_pos hb] at hjmem
      simp only [List.mem_append, List.mem_singleton] at hjmem
      rcases hjmem with hm | hm
      · have := hbound _ hm; omega
      · omega
    · rw [if_neg hb] at hjmem
      have := hbound _ hjmem; omega
  · intro pq hpq
    simp only [List.length_append, List.length_singleton]
    have := hmap _ hpq
    omega

theorem mutate_states_create_inv (mr : mutation_rates) (max_nstates : Nat)
    (acc : MStatesAcc) (h : phase1_inv acc) :
    post_create_inv (mutate_states_create mr max_nstates acc) := by
  unfold mutate_states_create
  by_cases hroom : acc.target_states.length < max_nstates
  · rw [if_pos hroom]
    by_cases hc : (if acc.target_states.length = 0 then (true, acc.rng)
        else ((unif_random acc.rng).1 < mr.create_state, (unif_random acc.rng).2)).1 = true
    · rw [if_pos hc]
      exact post_create_append acc h _ _ _
    · rw [if_neg hc]
      exact ⟨h.2.1, h.2.2⟩
  · rw [if_neg hroom]
    exact ⟨h.2.1, h.2.2⟩

theorem getD_set_self {α : Type} {d : α} (l : List α) (i : Nat) (a : α) (hi : i < l.length) :
    (l.set i a).getD i d = a := by
  rw [List.getD_eq_getElem?_getD, List.getElem?_set_self hi, Option.getD_some]

theorem getD_set_ne {α : Type} {d : α} (l : List α) (i j : Nat) (a : α) (hij : i ≠ j) :
    (l.set i a).getD j d = l.getD j d := by
  rw [List.getD_eq_getElem?_getD, List.getElem?_set_ne hij, ← List.getD_eq_getElem?_getD]

theorem nodup_bounded_length (l : List Nat) (n : Nat) (hnd : l.Nodup)
    (hb : ∀ x ∈ l, x < n) : l.length ≤ n := by
  have hcard : l.toFinset.card = l.length := List.toFinset_card_of_nodup hnd
  have hsub : l.toFinset ⊆ Finset.range n := by
    intro x hx
    exact Finset.mem_range.mpr (hb x (List.mem_toFinset.mp hx))
  have := Finset.card_le_card hsub
  rw [hcard, Finset.card_range] at this
  exact this

theorem mutate_states_step_len (mr : mutation_rates) (acc : MStatesAcc)
    (ig : Nat × state_gene) :
    acc.target_states.length ≤ (mutate_states_step mr acc ig).target_states.length ∧
    (mutate_states_step mr acc ig).target_states.length ≤ acc.target_states.length + 1 := by
  unfold mutate_states_step
  by_cases hdel : (unif_random acc.rng).1 < mr.delete_state
  · rw [if_pos hdel]
    exact ⟨Nat.le_refl _, Nat.le_succ _⟩
  · rw [if_neg hdel]
    simp

theorem fold_step_len (mr : mutation_rates) :
    ∀ (l : List (Nat × state_gene)) (acc : MStatesAcc),
      (l.foldl (mutate_states_step mr) acc).target_states.length
        ≤ acc.target_states.length + l.length := by
  intro l
  induction l with
  | nil => intro acc; simp
  | cons ig l ih =>
    intro acc
    rw [List.foldl_cons]
    have h1 := ih (mutate_states_step mr acc ig)
    have h2 := (mutate_states_step_len mr acc ig).2
    simp only [List.length_cons]
    omega

theorem create_len_bounds (mr : mutation_rates) (max_nstates : Nat) (acc : MStatesAcc) :
    acc.target_states.length ≤ (mutate_states_create mr max_nstates acc).target_states.length ∧
    (mutate_states_create mr max_nstates acc).target_states.length
      ≤ acc.target_states.length + 1 := by
  unfold mutate_states_create
  by_cases hroom : acc.target_states.length < max_nstates
  · rw [if_pos hroom]
    by_cases hc : (if acc.target_states.length = 0 then (true, acc.rng)
        else ((unif_random acc.rng).1 < mr.create_state, (unif_random acc.rng).2)).1 = true
    · rw [if_pos hc]
      simp
    · rw [if_neg hc]
      exact ⟨Nat.le_refl _, Nat.le_succ _⟩
  · rw [if_neg hroom]
    exact ⟨Nat.le_refl _, Nat.le_succ _⟩

theorem create_len_pos (mr : mutation_rates) (max_nstates : Nat) (acc : MStatesAcc)
    (hmax : 1 ≤ max_nstates) :
    1 ≤ (mutate_states_create mr max_nstates acc).target_states.length := by
  by_cases hz : acc.target_states.length = 0
  · unfold mutate_states_create
    rw [if_pos (by omega), if_pos (by rw [if_pos hz])]
    simp
  · have := (create_len_bounds mr max_nstates acc).1
    omega

theorem clear_fold_len (winner : Nat) :
    ∀ (sids : List Nat) (ts : List state_gene),
      (sids.foldl (fun ts i =>
        if i = winner then ts
        else
          let s := ts.getD i default
          ts.set i { s with flag := s.flag &&& NOT_IS_START }) ts).length = ts.length := by
  intro sids
  induction sids with
  | nil => intro ts; rfl
  | cons i rest ih =>
    intro ts
    rw [List.foldl_cons, ih]
    by_cases hi : i = winner
    · rw [if_pos hi]
    · rw [if_neg hi]
      simp

theorem clear_fold_getD (winner : Nat) :
    ∀ (sids : List Nat) (ts : List state_gene), sids.Nodup →
      ∀ j, j < ts.length →
        (sids.foldl (fun ts i =>
          if i = winner then ts
          else
            let s := ts.getD i default
            ts.set i { s with flag := s.flag &&& NOT_IS_START }) ts).getD j default
        = if j ∈ sids ∧ j ≠ winner then
            { ts.getD j default with flag := (ts.getD j default).flag &&& NOT_IS_START }
          else ts.getD j default := by
  intro sids
  induction sids with
  | nil =>
    intro ts _ j _
    rw [List.foldl_nil, if_neg (by simp)]
  | cons i rest ih =>
    intro ts hnd j hj
    have hnd2 := hnd
    rw [List.nodup_cons] at hnd2
    obtain ⟨hnotin, hndrest⟩ := hnd2
    rw [List.foldl_cons]
    by_cases hi : i = winner
    · rw [if_pos hi]
      rw [ih ts hndrest j hj]
      by_cases hjr : j ∈ rest ∧ j ≠ winner
      · rw [if_pos hjr, if_pos ⟨List.mem_cons_of_mem _ hjr.1, hjr.2⟩]
      · rw [if_neg hjr]
        rw [if_neg (by
          rintro ⟨hm, hw⟩
          rcases List.mem_cons.mp hm with rfl | hm
          · exact hw hi
          · exact hjr ⟨hm, hw⟩)]
    · rw [if_neg hi]
      have hts1len : j < (ts.set i { ts.getD i default with
          flag := (ts.getD i default).flag &&& NOT_IS_START }).length := by
        simpa using hj
      rw [ih _ hndrest j hts1len]
      by_cases hji : j = i
      · subst hji
        rw [if_neg (fun hc => hnotin hc.1)]
        rw [getD_set_self _ _ _ hj]
        rw [if_pos ⟨List.mem_cons_self _ _, hi⟩]
      · rw [getD_set_ne _ _ _ _ (fun he => hji he.symm)]
        by_cases hjr : j ∈ rest ∧ j ≠ winner
        · rw [if_pos hjr, if_pos ⟨List.mem_cons_of_mem _ hjr.1, hjr.2⟩]
        · rw [if_neg hjr]
          rw [if_neg (by
            rintro ⟨hm, hw⟩
            rcases List.mem_cons.mp hm with rfl | hm
            · exact hji rfl
            · exact hjr ⟨hm, hw⟩)]

theorem normalize_start_count (ts : List state_gene) (sids : List Nat) (rng : Rng)
    (hinv : states_start_inv ts sids) (hlen : 1 ≤ ts.length) (hlen64 : ts.length ≤ 2 ^ 64) :
    ((normalize_start ts sids rng).1).countP gene_is_start = 1 := by
  obtain ⟨hiff, hnodup, hbound⟩ := hinv
  have hiffD : ∀ j, j < ts.length →
      (gene_is_start (ts.getD j default) = true ↔ j ∈ sids) := by
    intro j hj
    rw [getD_of_lt ts j hj]
    exact hiff j hj
  unfold normalize_start
  by_cases h0 : sids.length = 0
  · rw [if_pos h0]
    have hsnil : sids = [] := List.length_eq_zero.mp h0
    have hwlt : (choice 0 (szsub ts.length 1) rng).1 < ts.length :=
      choice_zero_lt ts.length rng hlen hlen64
    apply countP_eq_one_of_unique gene_is_start _ (choice 0 (szsub ts.length 1) rng).1
      (by simpa using hwlt)
    intro j hj
    simp only [List.length_set] at hj
    by_cases hjw : j = (choice 0 (szsub ts.length 1) rng).1
    · subst hjw
      rw [getD_set_self _ _ _ hwlt]
      have hnot : gene_is_start (ts.getD (choice 0 (szsub ts.length 1) rng).1 default)
          = false := by
        have := hiffD _ hwlt
        rw [hsnil] at this
        simp only [List.not_mem_nil, iff_false] at this
        exact Bool.eq_false_iff.mpr this
      rw [gene_is_start_flag]
      simp only [start_bit_xor_start]
      rw [gene_is_start_flag] at hnot
      rw [hnot]
      simp
    · rw [getD_set_ne _ _ _ _ (fun he => hjw he.symm)]
      have := hiffD j hj
      rw [hsnil] at this
      simp only [List.not_mem_nil, iff_false] at this
      constructor
      · intro hx; exact absurd hx this
      · intro hx; exact absurd hx hjw
  · rw [if_neg h0]
    by_cases h1 : sids.length > 1
    · rw [if_pos h1]
      have hslen64 : sids.length ≤ 2 ^ 64 :=
        le_trans (nodup_bounded_length sids ts.length hnodup hbound) hlen64
      have hdlt : (choice 0 (szsub sids.length 1) rng).1 < sids.length :=
        choice_zero_lt sids.length rng (by omega) hslen64
      have hwmem : sids.getD (choice 0 (szsub sids.length 1) rng).1 0 ∈ sids := by
        rw [getD_of_lt sids _ hdlt]
        exact List.getElem_mem hdlt
      have hwlt : sids.getD (choice 0 (szsub sids.length 1) rng).1 0 < ts.length :=
        hbound _ hwmem
      apply countP_eq_one_of_unique gene_is_start _
        (sids.getD (choice 0 (szsub sids.length 1) rng).1 0)
        (by rw [clear_fold_len]; exact hwlt)
      intro j hj
      rw [clear_fold_len] at hj
      rw [clear_fold_getD _ sids ts hnodup j hj]
      by_cases hjw : j = sids.getD (choice 0 (szsub sids.length 1) rng).1 0
      · rw [if_neg (fun hc => hc.2 hjw)]
        rw [hiffD j hj]
        exact ⟨fun _ => hjw, fun _ => hjw ▸ hwmem⟩
      · by_cases hjs : j ∈ sids
        · rw [if_pos ⟨hjs, hjw⟩, gene_is_start_flag]
          simp only [start_bit_clear]
          constructor
          · intro hx; simp at hx
          · intro hx; exact absurd hx hjw
        · rw [if_neg (fun hc => hjs hc.1)]
          have := hiffD j hj
          constructor
          · intro hx; exact absurd (this.mp hx) hjs
          · intro hx; exact absurd hx hjw
    · rw [if_neg h1]
      have hone : sids.length = 1 := by omega
      obtain ⟨i, hi⟩ := List.length_eq_one.mp hone
      have himem : i ∈ sids := by rw [hi]; exact List.mem_singleton.mpr rfl
      apply countP_eq_one_of_unique gene_is_start ts i (hbound i himem)
      intro j hj
      rw [hiffD j hj, hi, List.mem_singleton]

theorem normalize_final_eq (ts : List state_gene) (n : Nat) (r : Rng) :
    normalize_final ts n r = (ts, r) := rfl

theorem normalize_start_len (ts : List state_gene) (sids : List Nat) (rng : Rng) :
    ((normalize_start ts sids rng).1).length = ts.length := by
  unfold normalize_start
  split_ifs with h0 h1
  · simp
  · exact clear_fold_len _ sids ts
  · rfl

theorem lookup_id_mem (m : List (Nat × Nat)) (k v : Nat) (h : lookup_id m k = some v) :
    ∃ p ∈ m, p.2 = v := by
  unfold lookup_id at h
  cases hf : m.find? (fun p => p.1 = k) with
  | none => rw [hf] at h; simp at h
  | some p =>
    rw [hf] at h
    simp only [Option.map_some'] at h
    exact ⟨p, List.mem_of_find?_eq_some hf, by injection h⟩

theorem remap_transitions_facts (g : fsm_genome) (removed : List Nat)
    (idmap : List (Nat × Nat)) (N : Nat) (hmap : ∀ p ∈ idmap, p.2 < N) :
    ∀ t ∈ remap_transitions g removed idmap,
      (t.state_from < N ∧ t.state_to < N) ∧
      ∃ t0 ∈ g.transitions, t.symbol_read = t0.symbol_read ∧
        t.symbol_write = t0.symbol_write := by
  intro t ht
  rw [remap_transitions, List.mem_filterMap] at ht
  obtain ⟨t0, ht0, hsome⟩ := ht
  unfold remap_one at hsome
  split_ifs at hsome with hrem hf1 hf2
  injection hsome with hte
  subst hte
  refine ⟨⟨?_, ?_⟩, t0, ht0, rfl, rfl⟩
  · cases h1 : lookup_id idmap t0.state_from with
    | none => rw [h1] at hf1; simp at hf1
    | some v =>
      obtain ⟨p, hp, hpv⟩ := lookup_id_mem idmap t0.state_from v h1
      exact hpv ▸ hmap p hp
  · cases h2 : lookup_id idmap t0.state_to with
    | none => rw [h2] at hf2; simp at hf2
    | some v =>
      obtain ⟨p, hp, hpv⟩ := lookup_id_mem idmap t0.state_to v h2
      exact hpv ▸ hmap p hp

theorem ite_fst_lt {c : Prop} [Decidable c] (A B : Nat × Rng) (n : Nat)
    (hA : A.1 < n) (hB : B.1 < n) : (if c then A else B).1 < n := by
  split_ifs <;> assumption

theorem mutate_transitions_step_ends (mr : mutation_rates) (alphabet : basic_alphabet)
    (nstates : Nat) (hn : 1 ≤ nstates) (hn64 : nstates ≤ 2 ^ 64)
    (acc : List transition_gene × Rng) (t : transition_gene)
    (ht : t.state_from < nstates ∧ t.state_to < nstates)
    (hacc : ∀ x ∈ acc.1, x.state_from < nstates ∧ x.state_to < nstates) :
    ∀ x ∈ (mutate_transitions_step mr alphabet nstates acc t).1,
      x.state_from < nstates ∧ x.state_to < nstates := by
  unfold mutate_transitions_step
  by_cases hd : (unif_random acc.2).1 < mr.drop_transition
  · rw [if_pos hd]
    exact hacc
  · rw [if_neg hd]
    intro x hx
    rcases List.mem_append.mp hx with hx | hx
    · exact hacc x hx
    · have hx' := List.mem_singleton.mp hx
      subst hx'
      exact ⟨ite_fst_lt _ _ _ (choice_zero_lt nstates _ hn hn64) ht.1,
             ite_fst_lt _ _ _ (choice_zero_lt nstates _ hn hn64) ht.2⟩

theorem mutate_transitions_fold_ends (mr : mutation_rates) (alphabet : basic_alphabet)
    (nstates : Nat) (hn : 1 ≤ nstates) (hn64 : nstates ≤ 2 ^ 64) :
    ∀ (l : List transition_gene) (acc : List transition_gene × Rng),
      (∀ t ∈ l, t.state_from < nstates ∧ t.state_to < nstates) →
      (∀ x ∈ acc.1, x.state_from < nstates ∧ x.state_to < nstates) →
      ∀ x ∈ (l.foldl (mutate_transitions_step mr alphabet nstates) acc).1,
        x.state_from < nstates ∧ x.state_to < nstates := by
  intro l
  induction l with
  | nil => intro acc _ hacc; exact hacc
  | cons t l ih =>
    intro acc hl hacc
    rw [List.foldl_cons]
    exact ih _ (fun y hy => hl y (List.mem_cons_of_mem _ hy))
      (mutate_transitions_step_ends mr alphabet nstates hn hn64 acc t
        (hl t (List.mem_cons_self _ _)) hacc)

theorem mutate_transitions_spawn_ends (mr : mutation_rates) (alphabet : basic_alphabet)
    (nstates : Nat) (hn : 1 ≤ nstates) (hn64 : nstates ≤ 2 ^ 64)
    (acc : List transition_gene × Rng)
    (hacc : ∀ x ∈ acc.1, x.state_from < nstates ∧ x.state_to < nstates) :
    ∀ x ∈ (mutate_transitions_spawn mr alphabet nstates acc).1,
      x.state_from < nstates ∧ x.state_to < nstates := by
  intro x hx
  simp only [mutate_transitions_spawn] at hx
  split_ifs at hx with hd hmem
  · exact hacc x hx
  · rcases List.mem_append.mp hx with hx | hx
    · exact hacc x hx
    · have hx' := List.mem_singleton.mp hx
      subst hx'
      exact ⟨choice_zero_lt nstates _ hn hn64, choice_zero_lt nstates _ hn hn64⟩
  · exact hacc x hx

theorem mutate_transitions_ends (mr : mutation_rates) (alphabet : basic_alphabet)
    (nstates : Nat) (rng : Rng) (hn : 1 ≤ nstates) (hn64 : nstates ≤ 2 ^ 64)
    (origin : List transition_gene)
    (horig : ∀ t ∈ origin, t.state_from < nstates ∧ t.state_to < nstates) :
    ∀ x ∈ (mutate_transitions origin mr alphabet nstates rng).1,
      x.state_from < nstates ∧ x.state_to < nstates := by
  unfold mutate_transitions
  exact mutate_transitions_spawn_ends mr alphabet nstates hn hn64 _
    (mutate_transitions_fold_ends mr alphabet nstates hn hn64 origin ([], rng) horig
      (by intro x hx; simp at hx))

theorem mutate_transitions_step_syms (mr : mutation_rates) (alphabet : basic_alphabet)
    (nstates : Nat) (hi : 1 ≤ alphabet.n_input_symbols)
    (hi64 : alphabet.n_input_symbols ≤ 2 ^ 64)
    (acc : List transition_gene × Rng) (t : transition_gene)
    (ht : t.symbol_read < alphabet.n_input_symbols ∧
      t.symbol_write < alphabet.n_input_symbols)
    (hacc : ∀ x ∈ acc.1, x.symbol_read < alphabet.n_input_symbols ∧
      x.symbol_write < alphabet.n_input_symbols) :
    ∀ x ∈ (mutate_transitions_step mr alphabet nstates acc t).1,
      x.symbol_read < alphabet.n_input_symbols ∧
      x.symbol_write < alphabet.n_input_symbols := by
  unfold mutate_transitions_step
  by_cases hd : (unif_random acc.2).1 < mr.drop_transition
  · rw [if_pos hd]
    exact hacc
  · rw [if_neg hd]
    intro x hx
    rcases List.mem_append.mp hx with hx | hx
    · exact hacc x hx
    · have hx' := List.mem_singleton.mp hx
      subst hx'
      exact ⟨ite_fst_lt _ _ _ (choice_zero_lt alphabet.n_input_symbols _ hi hi64) ht.1,
             ite_fst_lt _ _ _ (choice_zero_lt alphabet.n_input_symbols _ hi hi64) ht.2⟩

theorem mutate_transitions_fold_syms (mr : mutation_rates) (alphabet : basic_alphabet)
    (nstates : Nat) (hi : 1 ≤ alphabet.n_input_symbols)
    (hi64 : alphabet.n_input_symbols ≤ 2 ^ 64) :
    ∀ (l : List transition_gene) (acc : List transition_gene × Rng),
      (∀ t ∈ l, t.symbol_read < alphabet.n_input_symbols ∧
        t.symbol_write < alphabet.n_input_symbols) →
      (∀ x ∈ acc.1, x.symbol_read < alphabet.n_input_symbols ∧
        x.symbol_write < alphabet.n_input_symbols) →
      ∀ x ∈ (l.foldl (mutate_transitions_step mr alphabet nstates) acc).1,
        x.symbol_read < alphabet.n_input_symbols ∧
        x.symbol_write < alphabet.n_input_symbols := by
  intro l
  induction l with
  | nil => intro acc _ hacc; exact hacc
  | cons t l ih =>
    intro acc hl hacc
    rw [List.foldl_cons]
    exact ih _ (fun y hy => hl y (List.mem_cons_of_mem _ hy))
      (mutate_transitions_step_syms mr alphabet nstates hi hi64 acc t
        (hl t (List.mem_cons_self _ _)) hacc)

theorem mutate_transitions_spawn_syms (mr : mutation_rates) (alphabet : basic_alphabet)
    (nstates : Nat) (hi : 1 ≤ alphabet.n_input_symbols)
    (hi64 : alphabet.n_input_symbols ≤ 2 ^ 64)
    (acc : List transition_gene × Rng)
    (hacc : ∀ x ∈ acc.1, x.symbol_read < alphabet.n_input_symbols ∧
      x.symbol_write < alphabet.n_input_symbols) :
    ∀ x ∈ (mutate_transitions_spawn mr alphabet nstates acc).1,
      x.symbol_read < alphabet.n_input_symbols ∧
      x.symbol_write < alphabet.n_input_symbols := by
  intro x hx
  simp only [mutate_transitions_spawn] at hx
  split_ifs at hx with hd hmem
  · exact hacc x hx
  · rcases List.mem_append.mp hx with hx | hx
    · exact hacc x hx
    · have hx' := List.mem_singleton.mp hx
      subst hx'
      exact ⟨choice_zero_lt alphabet.n_input_symbols _ hi hi64,
             choice_zero_lt alphabet.n_input_symbols _ hi hi64⟩
  · exact hacc x hx

theorem mutate_transitions_syms (mr : mutation_rates) (alphabet : basic_alphabet)
    (nstates : Nat) (rng : Rng) (hi : 1 ≤ alphabet.n_input_symbols)
    (hi64 : alphabet.n_input_symbols ≤ 2 ^ 64)
    (origin : List transition_gene)
    (horig : ∀ t ∈ origin, t.symbol_read < alphabet.n_input_symbols ∧
      t.symbol_write < alphabet.n_input_symbols) :
    ∀ x ∈ (mutate_transitions origin mr alphabet nstates rng).1,
      x.symbol_read < alphabet.n_input_symbols ∧
      x.symbol_write < alphabet.n_input_symbols := by
  unfold mutate_transitions
  exact mutate_transitions_spawn_syms mr alphabet nstates hi hi64 _
    (mutate_transitions_fold_syms mr alphabet nstates hi hi64 origin ([], rng) horig
      (by intro x hx; simp at hx))

theorem mutate_states_fst (g : fsm_genome) (mr : mutation_rates) (rng : Rng) (m : Nat) :
    (mutate_states g mr rng m).1 =
      (normalize_start (mstates_acc2 g mr rng m).target_states
        (mstates_acc2 g mr rng m).start_ids (mstates_acc2 g mr rng m).rng).1 := rfl

theorem mutate_states_snd (g : fsm_genome) (mr : mutation_rates) (rng : Rng) (m : Nat) :
    (mutate_states g mr rng m).2.1 =
      remap_transitions g (mstates_acc2 g mr rng m).removed_states
        (mstates_acc2 g mr rng m).state_id_map := rfl

theorem mstates_acc2_inv (g : fsm_genome) (mr : mutation_rates) (rng : Rng) (m : Nat) :
    post_create_inv (mstates_acc2 g mr rng m) :=
  mutate_states_create_inv _ _ _ (phase1_fold mr _ _ phase1_init)

theorem mstates_acc2_len_pos (g : fsm_genome) (mr : mutation_rates) (rng : Rng) (m : Nat)
    (hmax : 1 ≤ m) : 1 ≤ (mstates_acc2 g mr rng m).target_states.length :=
  create_len_pos _ _ _ hmax

theorem mstates_acc2_len_le (g : fsm_genome) (mr : mutation_rates) (rng : Rng) (m : Nat)
    (hsize : g.states.length < 2 ^ 64) :
    (mstates_acc2 g mr rng m).target_states.length ≤ 2 ^ 64 := by
  have h1 : (g.states.enum.foldl (mutate_states_step mr)
      { target_states := [], removed_states := [], state_id_map := [], start_ids := [],
        n_accepting_states := 0, state_counter := 0, rng := rng }).target_states.length
      ≤ 0 + g.states.enum.length := fold_step_len mr _ _
  have h2 : (mstates_acc2 g mr rng m).target_states.length
      ≤ (g.states.enum.foldl (mutate_states_step mr)
        { target_states := [], removed_states := [], state_id_map := [], start_ids := [],
          n_accepting_states := 0, state_counter := 0, rng := rng }).target_states.length + 1 :=
    (create_len_bounds mr m _).2
  rw [List.enum_length] at h1
  omega

theorem mutate_states_fst_len (g : fsm_genome) (mr : mutation_rates) (rng : Rng) (m : Nat) :
    ((mutate_states g mr rng m).1).length
      = (mstates_acc2 g mr rng m).target_states.length := by
  rw [mutate_states_fst g mr rng m]
  exact normalize_start_len _ _ _

theorem countP_map_enumFrom (l : List state_gene) :
    ∀ n : Nat,
      ((List.enumFrom n l).map
        (fun p => { p.2 with label := natLabel p.1 })).countP gene_is_start
      = l.countP gene_is_start := by
  induction l with
  | nil => intro n; rfl
  | cons s l ih =>
    intro n
    rw [List.enumFrom_cons, List.map_cons, List.countP_cons, List.countP_cons, ih (n + 1)]
    rfl

theorem mutate_genome_states (g : fsm_genome) (mr : mutation_rates)
    (alphabet : basic_alphabet) (rng : Rng) (m : Nat) :
    (mutate_genome g mr alphabet rng m).states =
      ((mutate_states g mr rng m).1).enum.map
        (fun p => { p.2 with label := natLabel p.1 }) := rfl

theorem mutate_genome_trans_mem (g : fsm_genome) (mr : mutation_rates)
    (alphabet : basic_alphabet) (rng : Rng) (m : Nat) (t : transition_gene) :
    t ∈ (mutate_genome g mr alphabet rng m).transitions ↔
      t ∈ (mutate_transitions (mutate_states g mr rng m).2.1 mr alphabet
        ((mutate_states g mr rng m).1).length (mutate_states g mr rng m).2.2).1 := by
  have h : (mutate_genome g mr alphabet rng m).transitions =
      ((mutate_transitions (mutate_states g mr rng m).2.1 mr alphabet
        ((mutate_states g mr rng m).1).length (mutate_states g mr rng m).2.2).1).mergeSort
        (fun x y => !tg_lt y x) := rfl
  rw [h]
  exact List.Perm.mem_iff (List.mergeSort_perm _ _)

theorem mutate_genome_states_len (g : fsm_genome) (mr : mutation_rates)
    (alphabet : basic_alphabet) (rng : Rng) (m : Nat) :
    (mutate_genome g mr alphabet rng m).states.length
      = ((mutate_states g mr rng m).1).length := by
  rw [mutate_genome_states g mr alphabet rng m, List.length_map, List.enum_length]

/-- C2, counterexample to the unconditional claim: mutating the empty genome
over the empty alphabet (`n_input_symbols = 0`) with rates that always spawn
a transition yields a transition whose drawn `symbol_read` is not below
`n_input_symbols` — the `size_t` expression `n_input_symbols - 1` wraps to
`2^64 - 1`, so the symbol draw ranges over all of `[0, 2^64)`. -/
theorem c2_symbol_draw_counterexample :
    ∃ t ∈ (mutate_genome empty_genome spawn_only_rates empty_alphabet zero_rng 1).transitions,
      ¬ t.symbol_read < empty_alphabet.n_input_symbols := by
  have hlist : (mutate_transitions (mutate_states empty_genome spawn_only_rates zero_rng 1).2.1
      spawn_only_rates empty_alphabet
      ((mutate_states empty_genome spawn_only_rates zero_rng 1).1).length
      (mutate_states empty_genome spawn_only_rates zero_rng 1).2.2).1
      = [{ state_from := 0, symbol_read := 0, state_to := 0, symbol_write := 0 }] := by
    norm_num [mutate_transitions, mutate_transitions_spawn, mutate_transitions_step,
      mutate_states, mutate_states_step, mutate_states_create, remap_transitions, remap_one,
      normalize_start, normalize_final, unif_random, choice, rng_next, szsub,
      spawn_only_rates, empty_genome, empty_alphabet, zero_rng, lookup_id,
      DFA_ALLOW_EMPTY_FINAL_STATE_SET, natLabel, natToStr, IS_START, IS_FINAL]
  refine ⟨{ state_from := 0, symbol_read := 0, state_to := 0, symbol_write := 0 }, ?_,
    by decide⟩
  rw [mutate_genome_trans_mem, hlist]
  exact List.mem_singleton.mpr rfl

/-- C2, amended: for every genome with fewer than `2^64` states, any rates,
alphabet, generator and `max_nstates ≥ 1`, the genome returned by
`mutate_genome` has exactly one state with `IS_START` set; and provided the
alphabet has between `1` and `2^64` input symbols, every drawn transition
symbol stays below `n_input_symbols`, so a genome whose transition symbols
are all in range mutates to one whose transition symbols are all in range.
(The original claim fails only at `n_input_symbols = 0`, where the `size_t`
wrap-around lets the draw range over `[0, 2^64)`.) -/
theorem c2_mutate_genome_start_and_symbols (genome : fsm_genome) (mr : mutation_rates)
    (alphabet : basic_alphabet) (rng : Rng) (max_nstates : Nat)
    (hmax : 1 ≤ max_nstates) (hsize : genome.states.length < 2 ^ 64) :
    ((mutate_genome genome mr alphabet rng max_nstates).states).countP gene_is_start = 1 ∧
    (1 ≤ alphabet.n_input_symbols → alphabet.n_input_symbols ≤ 2 ^ 64 →
      (∀ t ∈ genome.transitions, t.symbol_read < alphabet.n_input_symbols ∧
        t.symbol_write < alphabet.n_input_symbols) →
      ∀ t ∈ (mutate_genome genome mr alphabet rng max_nstates).transitions,
        t.symbol_read < alphabet.n_input_symbols ∧
        t.symbol_write < alphabet.n_input_symbols) := by
  constructor
  · rw [mutate_genome_states genome mr alphabet rng max_nstates]
    have he : ((mutate_states genome mr rng max_nstates).1).enum
        = List.enumFrom 0 ((mutate_states genome mr rng max_nstates).1) := rfl
    rw [he, countP_map_enumFrom ((mutate_states genome mr rng max_nstates).1) 0]
    rw [mutate_states_fst genome mr rng max_nstates]
    exact normalize_start_count _ _ _ (mstates_acc2_inv genome mr rng max_nstates).1
      (mstates_acc2_len_pos genome mr rng max_nstates hmax)
      (mstates_acc2_len_le genome mr rng max_nstates hsize)
  · intro hi hi64 hsym t ht
    rw [mutate_genome_trans_mem genome mr alphabet rng max_nstates t] at ht
    refine mutate_transitions_syms mr alphabet
      ((mutate_states genome mr rng max_nstates).1).length
      (mutate_states genome mr rng max_nstates).2.2 hi hi64
      (mutate_states genome mr rng max_nstates).2.1 ?_ t ht
    rw [mutate_states_snd genome mr rng max_nstates]
    intro x hx
    obtain ⟨_, t0, ht0, hr, hw⟩ := remap_transitions_facts genome _ _
      (mstates_acc2 genome mr rng max_nstates).target_states.length
      (mstates_acc2_inv genome mr rng max_nstates).2 x hx
    exact ⟨hr ▸ (hsym t0 ht0).1, hw ▸ (hsym t0 ht0).2⟩

theorem c2_mutate_genome_start_and_symbols_witness :
    ((mutate_genome c1_genome spawn_only_rates binary_alphabet zero_rng 3).states).countP
        gene_is_start = 1 ∧
    (∀ t ∈ (mutate_genome c1_genome spawn_only_rates binary_alphabet zero_rng 3).transitions,
      t.symbol_read < binary_alphabet.n_input_symbols ∧
      t.symbol_write < binary_alphabet.n_input_symbols) :=
  ⟨(c2_mutate_genome_start_and_symbols c1_genome spawn_only_rates binary_alphabet zero_rng 3
      (by decide) (by decide)).1,
   (c2_mutate_genome_start_and_symbols c1_genome spawn_only_rates binary_alphabet zero_rng 3
      (by decide) (by decide)).2 (by decide) (by decide) (by decide)⟩

/-- C9, confirmed: for every genome with fewer than `2^64` states, any rates,
alphabet, generator and `max_nstates ≥ 1`, every transition of the mutated
genome has both endpoints below the number of states of the mutated genome —
transitions whose endpoints were removed or unknown are dropped by the remap,
the surviving ones are rewritten through the id map, and redrawn or spawned
endpoints are sampled from `[0, n_states)`. -/
theorem c9_mutated_endpoints_in_range (genome : fsm_genome) (mr : mutation_rates)
    (alphabet : basic_alphabet) (rng : Rng) (max_nstates : Nat)
    (hmax : 1 ≤ max_nstates) (hsize : genome.states.length < 2 ^ 64) :
    ∀ t ∈ (mutate_genome genome mr alphabet rng max_nstates).transitions,
      t.state_from < (mutate_genome genome mr alphabet rng max_nstates).states.length ∧
      t.state_to < (mutate_genome genome mr alphabet rng max_nstates).states.length := by
  intro t ht
  rw [mutate_genome_trans_mem genome mr alphabet rng max_nstates t] at ht
  rw [mutate_genome_states_len genome mr alphabet rng max_nstates]
  have hn : 1 ≤ ((mutate_states genome mr rng max_nstates).1).length := by
    rw [mutate_states_fst_len genome mr rng max_nstates]
    exact mstates_acc2_len_pos genome mr rng max_nstates hmax
  have hn64 : ((mutate_states genome mr rng max_nstates).1).length ≤ 2 ^ 64 := by
    rw [mutate_states_fst_len genome mr rng max_nstates]
    exact mstates_acc2_len_le genome mr rng max_nstates hsize
  refine mutate_transitions_ends mr alphabet _ _ hn hn64 _ ?_ t ht
  rw [mutate_states_snd genome mr rng max_nstates]
  have hmap : ∀ p ∈ (mstates_acc2 genome mr rng max_nstates).state_id_map,
      p.2 < ((mutate_states genome mr rng max_nstates).1).length := by
    rw [mutate_states_fst_len genome mr rng max_nstates]
    exact (mstates_acc2_inv genome mr rng max_nstates).2
  exact fun x hx => (remap_transitions_facts genome _ _ _ hmap x hx).1

theorem c9_mutated_endpoints_in_range_witness :
    ({ state_from := 0, symbol_read := 0, state_to := 0, symbol_write := 0 }
        : transition_gene).state_from
      < (mutate_genome empty_genome spawn_only_rates empty_alphabet zero_rng 1).states.length ∧
    ({ state_from := 0, symbol_read := 0, state_to := 0, symbol_write := 0 }
        : transition_gene).state_to
      < (mutate_genome empty_genome spawn_only_rates empty_alphabet zero_rng 1).states.length :=
  c9_mutated_endpoints_in_range empty_genome spawn_only_rates empty_alphabet zero_rng 1
    (by decide) (by decide)
    { state_from := 0, symbol_read := 0, state_to := 0, symbol_write := 0 }
    (by
      rw [mutate_genome_trans_mem]
      have hlist : (mutate_transitions
          (mutate_states empty_genome spawn_only_rates zero_rng 1).2.1
          spawn_only_rates empty_alphabet
          ((mutate_states empty_genome spawn_only_rates zero_rng 1).1).length
          (mutate_states empty_genome spawn_only_rates zero_rng 1).2.2).1
          = [{ state_from := 0, symbol_read := 0, state_to := 0, symbol_write := 0 }] := by
        norm_num [mutate_transitions, mutate_transitions_spawn, mutate_transitions_step,
          mutate_states, mutate_states_step, mutate_states_create, remap_transitions,
          remap_one, normalize_start, normalize_final, unif_random, choice, rng_next, szsub,
          spawn_only_rates, empty_genome, empty_alphabet, zero_rng, lookup_id,
          DFA_ALLOW_EMPTY_FINAL_STATE_SET, natLabel, natToStr, IS_START, IS_FINAL]
      rw [hlist]
      exact List.mem_singleton.mpr rfl)

theorem getD_append_left {α : Type} {d : α} (l l2 : List α) (s : Nat) (hs : s < l.length) :
    (l ++ l2).getD s d = l.getD s d := by
  rw [getD_of_lt _ s (by rw [List.length_append]; omega), getD_of_lt _ s hs,
      List.getElem_append_left hs]

theorem getD_concat_self {α : Type} {d : α} (l : List α) (a : α) :
    (l ++ [a]).getD l.length d = a := by
  rw [getD_of_lt _ _ (by simp), List.getElem_concat_length _ _ _ rfl]

theorem headD_mem {α : Type} (l : List α) (d : α) (h : l ≠ []) : l.headD d ∈ l := by
  cases l with
  | nil => exact absurd rfl h
  | cons a l => exact List.mem_cons_self _ _

theorem not_processed_lt (s : Nat) : ¬ DFA_STATE_NOT_PROCESSED = (s : Int) := by
  simp only [DFA_STATE_NOT_PROCESSED]
  omega

theorem covered_subset (n : Nat) (st : List (List Nat) × List Int) (q : Nat)
    (h : stInv n st) (hq : q < n)
    (hcov : 0 ≤ st.2.getD q DFA_STATE_NOT_PROCESSED) :
    (st.2.getD q DFA_STATE_NOT_PROCESSED).toNat < st.1.length ∧
    q ∈ st.1.getD (st.2.getD q DFA_STATE_NOT_PROCESSED).toNat [] := by
  rcases h.2.2 q hq with hc | ⟨s, hs, hm⟩
  · rw [hc] at hcov
    simp [DFA_STATE_NOT_PROCESSED] at hcov
  · have hmap := ((h.2.1 s hs).2.2 q hm).2
    rw [hmap]
    exact ⟨by omega, hm⟩

theorem stInv_create (n : Nat) (st : List (List Nat) × List Int) (q : Nat)
    (h : stInv n st) (hq : q < n)
    (hfresh : st.2.getD q DFA_STATE_NOT_PROCESSED = DFA_STATE_NOT_PROCESSED) :
    stInv n (st.1 ++ [[q]], st.2.set q (st.1.length : Int)) := by
  obtain ⟨hlen, hsub, hcov⟩ := h
  refine ⟨by simpa using hlen, ?_, ?_⟩
  · intro s hs
    simp only [List.length_append, List.length_singleton] at hs
    by_cases hlt : s < st.1.length
    · rw [getD_append_left _ _ s hlt]
      obtain ⟨hne, hnd, hmem⟩ := hsub s hlt
      refine ⟨hne, hnd, ?_⟩
      intro x hx
      obtain ⟨hxn, hxm⟩ := hmem x hx
      have hxq : x ≠ q := by
        intro he
        subst he
        rw [hfresh] at hxm
        exact not_processed_lt s hxm
      rw [getD_set_ne _ _ _ _ (fun he => hxq he.symm)]
      exact ⟨hxn, hxm⟩
    · have hse : s = st.1.length := by omega
      subst hse
      rw [getD_concat_self]
      refine ⟨by simp, by simp, ?_⟩
      intro x hx
      have hxq := List.mem_singleton.mp hx
      subst hxq
      refine ⟨hq, ?_⟩
      rw [getD_set_self _ _ _ (by omega)]
  · intro x hxn
    by_cases hxq : x = q
    · subst hxq
      right
      exact ⟨st.1.length, by simp, by rw [getD_concat_self]; exact List.mem_singleton.mpr rfl⟩
    · rcases hcov x hxn with hc | ⟨s, hs, hm⟩
      · left
        rw [getD_set_ne _ _ _ _ (fun he => hxq he.symm)]
        exact hc
      · right
        refine ⟨s, by simp; omega, ?_⟩
        rw [getD_append_left _ _ s hs]
        exact hm

theorem stInv_insert (n : Nat) (st : List (List Nat) × List Int) (q_j subs : Nat)
    (h : stInv n st) (hqj : q_j < n)
    (hfresh : st.2.getD q_j DFA_STATE_NOT_PROCESSED = DFA_STATE_NOT_PROCESSED)
    (hsubs : subs < st.1.length) :
    stInv n (st.1.set subs (st.1.getD subs [] ++ [q_j]), st.2.set q_j (subs : Int)) := by
  obtain ⟨hlen, hsub, hcov⟩ := h
  have hnotmem : q_j ∉ st.1.getD subs [] := by
    intro hm
    have := ((hsub subs hsubs).2.2 q_j hm).2
    rw [hfresh] at this
    exact not_processed_lt subs this
  refine ⟨by simpa using hlen, ?_, ?_⟩
  · intro s hs
    rw [List.length_set] at hs
    by_cases hse : s = subs
    · subst hse
      rw [getD_set_self _ _ _ hsubs]
      obtain ⟨hne, hnd, hmem⟩ := hsub s hs
      have hndapp : (st.1.getD s [] ++ [q_j]).Nodup := by
        rw [List.nodup_append]
        refine ⟨hnd, List.nodup_singleton _, ?_⟩
        intro a ha hb
        rw [List.mem_singleton] at hb
        exact hnotmem (hb ▸ ha)
      refine ⟨by simp, hndapp, ?_⟩
      intro x hx
      rcases List.mem_append.mp hx with hx | hx
      · obtain ⟨hxn, hxm⟩ := hmem x hx
        have hxj : x ≠ q_j := fun he => hnotmem (he ▸ hx)
        rw [getD_set_ne _ _ _ _ (fun he => hxj he.symm)]
        exact ⟨hxn, hxm⟩
      · have hxj := List.mem_singleton.mp hx
        subst hxj
        rw [getD_set_self _ _ _ (by omega)]
        exact ⟨hqj, rfl⟩
    · rw [getD_set_ne _ _ _ _ (fun he => hse he.symm)]
      obtain ⟨hne, hnd, hmem⟩ := hsub s hs
      refine ⟨hne, hnd, ?_⟩
      intro x hx
      obtain ⟨hxn, hxm⟩ := hmem x hx
      have hxj : x ≠ q_j := by
        intro he
        subst he
        rw [hfresh] at hxm
        exact not_processed_lt s hxm
      rw [getD_set_ne _ _ _ _ (fun he => hxj he.symm)]
      exact ⟨hxn, hxm⟩
  · intro x hxn
    by_cases hxj : x = q_j
    · subst hxj
      right
      refine ⟨subs, by simpa using hsubs, ?_⟩
      rw [getD_set_self _ _ _ hsubs]
      exact List.mem_append.mpr (Or.inr (List.mem_singleton.mpr rfl))
    · rcases hcov x hxn with hc | ⟨s, hs, hm⟩
      · left
        rw [getD_set_ne _ _ _ _ (fun he => hxj he.symm)]
        exact hc
      · right
        refine ⟨s, by simpa using hs, ?_⟩
        by_cases hse : s = subs
        · subst hse
          rw [getD_set_self _ _ _ hsubs]
          exact List.mem_append.mpr (Or.inl hm)
        · rw [getD_set_ne _ _ _ _ (fun he => hse he.symm)]
          exact hm

theorem uncovered_fresh (n : Nat) (st : List (List Nat) × List Int) (q : Nat)
    (h : stInv n st) (hq : q < n)
    (hnc : ¬ 0 ≤ st.2.getD q DFA_STATE_NOT_PROCESSED) :
    st.2.getD q DFA_STATE_NOT_PROCESSED = DFA_STATE_NOT_PROCESSED := by
  rcases h.2.2 q hq with hc | ⟨s, hs, hm⟩
  · exact hc
  · exact absurd (by rw [((h.2.1 s hs).2.2 q hm).2]; exact Int.natCast_nonneg s) hnc

theorem refine_pairs_post (n : Nat) (e_all : List Nat) (dist : Nat → Nat → Bool) (q_i : Nat)
    (st0 : List (List Nat) × List Int) (hst0 : stInv n st0)
    (hfreshall : ∀ q ∈ e_all, q < n ∧
      st0.2.getD q DFA_STATE_NOT_PROCESSED = DFA_STATE_NOT_PROCESSED)
    (hqi : q_i ∈ e_all) :
    ∀ (rest : List Nat) (st : List (List Nat) × List Int),
      scanPost n e_all st0 st →
      (∀ q ∈ rest, q ∈ e_all) →
      0 ≤ st.2.getD q_i DFA_STATE_NOT_PROCESSED →
      scanPost n e_all st0 (refine_pairs dist q_i rest st) ∧
      (∀ q, q < n → 0 ≤ st.2.getD q DFA_STATE_NOT_PROCESSED →
        (refine_pairs dist q_i rest st).2.getD q DFA_STATE_NOT_PROCESSED
          = st.2.getD q DFA_STATE_NOT_PROCESSED) ∧
      (refine_pairs dist q_i rest st).1.length = st.1.length := by
  intro rest
  induction rest with
  | nil =>
    intro st hpost _ _
    exact ⟨hpost, fun q _ _ => rfl, rfl⟩
  | cons q_j rest ih =>
    intro st hpost hrest hqicov
    by_cases hc1 : 0 ≤ st.2.getD q_j DFA_STATE_NOT_PROCESSED
    · have heq : refine_pairs dist q_i (q_j :: rest) st = refine_pairs dist q_i rest st := by
        simp only [refine_pairs, List.foldl_cons, if_pos hc1]
      rw [heq]
      exact ih st hpost (fun q hq => hrest q (List.mem_cons_of_mem _ hq)) hqicov
    · by_cases hc2 : dist q_i q_j = true
      · have heq : refine_pairs dist q_i (q_j :: rest) st = refine_pairs dist q_i rest st := by
          simp only [refine_pairs, List.foldl_cons, if_neg hc1, if_pos hc2]
        rw [heq]
        exact ih st hpost (fun q hq => hrest q (List.mem_cons_of_mem _ hq)) hqicov
      · have hqj_in : q_j ∈ e_all := hrest q_j (List.mem_cons_self _ _)
        have hqjn : q_j < n := (hfreshall q_j hqj_in).1
        have hqin : q_i < n := (hfreshall q_i hqi).1
        have hfreshj : st.2.getD q_j DFA_STATE_NOT_PROCESSED = DFA_STATE_NOT_PROCESSED :=
          uncovered_fresh n st q_j hpost.1 hqjn hc1
        obtain ⟨hsubs_lt, hqi_mem⟩ := covered_subset n st q_i hpost.1 hqin hqicov
        have hqij : q_i ≠ q_j := by
          intro he
          rw [he, hfreshj] at hqicov
          simp [DFA_STATE_NOT_PROCESSED] at hqicov
        have hsubs_ge : st0.1.length ≤ (st.2.getD q_i DFA_STATE_NOT_PROCESSED).toNat := by
          by_contra hlt
          push_neg at hlt
          rw [hpost.2.2.1 _ hlt] at hqi_mem
          have := ((hst0.2.1 _ (by omega)).2.2 q_i hqi_mem).2
          rw [(hfreshall q_i hqi).2] at this
          exact not_processed_lt _ this
        have hinv2 := stInv_insert n st q_j (st.2.getD q_i DFA_STATE_NOT_PROCESSED).toNat
          hpost.1 hqjn hfreshj hsubs_lt
        have heq : refine_pairs dist q_i (q_j :: rest) st
            = refine_pairs dist q_i rest
              (st.1.set (st.2.getD q_i DFA_STATE_NOT_PROCESSED).toNat
                 (st.1.getD (st.2.getD q_i DFA_STATE_NOT_PROCESSED).toNat [] ++ [q_j]),
               st.2.set q_j ((st.2.getD q_i DFA_STATE_NOT_PROCESSED).toNat : Int)) := by
          simp only [refine_pairs, List.foldl_cons, if_neg hc1, if_neg hc2]
        rw [heq]
        have hpost2 : scanPost n e_all st0
            (st.1.set (st.2.getD q_i DFA_STATE_NOT_PROCESSED).toNat
               (st.1.getD (st.2.getD q_i DFA_STATE_NOT_PROCESSED).toNat [] ++ [q_j]),
             st.2.set q_j ((st.2.getD q_i DFA_STATE_NOT_PROCESSED).toNat : Int)) := by
          refine ⟨hinv2, by simpa using hpost.2.1, ?_, ?_, ?_⟩
          · intro s hs
            show (st.1.set _ _).getD s [] = _
            rw [getD_set_ne _ _ _ _ (by omega)]
            exact hpost.2.2.1 s hs
          · intro s hs1 hs2 q hq
            rw [List.length_set] at hs2
            by_cases hse : (st.2.getD q_i DFA_STATE_NOT_PROCESSED).toNat = s
            · subst hse
              rw [getD_set_self _ _ _ hsubs_lt] at hq
              rcases List.mem_append.mp hq with hq | hq
              · exact hpost.2.2.2.1 _ hs1 hsubs_lt q hq
              · rw [List.mem_singleton.mp hq]
                exact hqj_in
            · rw [getD_set_ne _ _ _ _ hse] at hq
              exact hpost.2.2.2.1 s hs1 hs2 q hq
          · intro q hqn hqe
            show (st.2.set _ _).getD q _ = _
            rw [getD_set_ne _ _ _ _ (by intro he; exact hqe (he ▸ hqj_in))]
            exact hpost.2.2.2.2 q hqn hqe
        have hqicov2 : 0 ≤ (st.2.set q_j
            ((st.2.getD q_i DFA_STATE_NOT_PROCESSED).toNat : Int)).getD q_i
              DFA_STATE_NOT_PROCESSED := by
          rw [getD_set_ne _ _ _ _ (Ne.symm hqij)]
          exact hqicov
        obtain ⟨hP, hM, hL⟩ := ih _ hpost2 (fun q hq => hrest q (List.mem_cons_of_mem _ hq))
          hqicov2
        refine ⟨hP, ?_, by simpa using hL⟩
        intro q hqn hqcov
        have hqnej : q ≠ q_j := by
          intro he
          rw [he, hfreshj] at hqcov
          simp [DFA_STATE_NOT_PROCESSED] at hqcov
        have hpres : (st.2.set q_j
            ((st.2.getD q_i DFA_STATE_NOT_PROCESSED).toNat : Int)).getD q
              DFA_STATE_NOT_PROCESSED = st.2.getD q DFA_STATE_NOT_PROCESSED :=
          getD_set_ne _ _ _ _ (fun he => hqnej he.symm)
        rw [hM q hqn (by rw [hpres]; exact hqcov), hpres]

theorem refine_scan_cons (dist : Nat → Nat → Bool) (q_i : Nat) (rest : List Nat)
    (st : List (List Nat) × List Int) :
    refine_scan dist (q_i :: rest) st =
      refine_scan dist rest (refine_pairs dist q_i rest
        (if st.2.getD q_i DFA_STATE_NOT_PROCESSED < 0
         then (st.1 ++ [[q_i]], st.2.set q_i (st.1.length : Int))
         else st)) := rfl

theorem refine_scan_post (n : Nat) (e_all : List Nat) (dist : Nat → Nat → Bool)
    (st0 : List (List Nat) × List Int) (hst0 : stInv n st0)
    (hfreshall : ∀ q ∈ e_all, q < n ∧
      st0.2.getD q DFA_STATE_NOT_PROCESSED = DFA_STATE_NOT_PROCESSED) :
    ∀ (e : List Nat) (st : List (List Nat) × List Int),
      scanPost n e_all st0 st → (∀ q ∈ e, q ∈ e_all) →
      scanPost n e_all st0 (refine_scan dist e st) ∧
      st.1.length ≤ (refine_scan dist e st).1.length ∧
      (∀ q, q < n → 0 ≤ st.2.getD q DFA_STATE_NOT_PROCESSED →
        (refine_scan dist e st).2.getD q DFA_STATE_NOT_PROCESSED
          = st.2.getD q DFA_STATE_NOT_PROCESSED) ∧
      (∀ q ∈ e, 0 ≤ (refine_scan dist e st).2.getD q DFA_STATE_NOT_PROCESSED) := by
  intro e
  induction e with
  | nil =>
    intro st hpost _
    exact ⟨hpost, Nat.le_refl _, fun q _ _ => rfl, fun q hq => absurd hq (List.not_mem_nil q)⟩
  | cons q_i rest ih =>
    intro st hpost he
    rw [refine_scan_cons]
    have hqiA : q_i ∈ e_all := he q_i (List.mem_cons_self _ _)
    have hqin : q_i < n := (hfreshall q_i hqiA).1
    have hrestA : ∀ q ∈ rest, q ∈ e_all := fun q hq => he q (List.mem_cons_of_mem _ hq)
    by_cases hcov : st.2.getD q_i DFA_STATE_NOT_PROCESSED < 0
    · rw [if_pos hcov]
      have hfresh_i : st.2.getD q_i DFA_STATE_NOT_PROCESSED = DFA_STATE_NOT_PROCESSED :=
        uncovered_fresh n st q_i hpost.1 hqin (by omega)
      have hpost1 : scanPost n e_all st0
          (st.1 ++ [[q_i]], st.2.set q_i (st.1.length : Int)) := by
        refine ⟨stInv_create n st q_i hpost.1 hqin hfresh_i, ?_, ?_, ?_, ?_⟩
        · have := hpost.2.1
          simp only [List.length_append, List.length_singleton]
          omega
        · intro s hs
          show (st.1 ++ [[q_i]]).getD s [] = _
          rw [getD_append_left _ _ s (by have := hpost.2.1; omega)]
          exact hpost.2.2.1 s hs
        · intro s hs1 hs2 q hq
          simp only [List.length_append, List.length_singleton] at hs2
          by_cases hlt : s < st.1.length
          · rw [getD_append_left _ _ s hlt] at hq
            exact hpost.2.2.2.1 s hs1 hlt q hq
          · have hse : s = st.1.length := by omega
            subst hse
            rw [getD_concat_self] at hq
            rw [List.mem_singleton.mp hq]
            exact hqiA
        · intro q hqn hqe
          show (st.2.set _ _).getD q _ = _
          rw [getD_set_ne _ _ _ _ (by intro hh; exact hqe (hh ▸ hqiA))]
          exact hpost.2.2.2.2 q hqn hqe
      have hqicov1 : 0 ≤ (st.2.set q_i (st.1.length : Int)).getD q_i
          DFA_STATE_NOT_PROCESSED := by
        rw [getD_set_self _ _ _ (by have := hpost.1.1; omega)]
        exact Int.natCast_nonneg _
      obtain ⟨hPp, hMp, hLp⟩ := refine_pairs_post n e_all dist q_i st0 hst0 hfreshall hqiA
        rest (st.1 ++ [[q_i]], st.2.set q_i (st.1.length : Int)) hpost1 hrestA hqicov1
      obtain ⟨hPr, hLr, hMr, hCr⟩ := ih _ hPp hrestA
      refine ⟨hPr, ?_, ?_, ?_⟩
      · have hL1 : ((st.1 ++ [[q_i]], st.2.set q_i (st.1.length : Int))).1.length
            = st.1.length + 1 := by simp
        omega
      · intro q hqn hqc
        have hqne : q ≠ q_i := by
          intro hh
          rw [hh, hfresh_i] at hqc
          simp [DFA_STATE_NOT_PROCESSED] at hqc
        have hp1 : (st.2.set q_i (st.1.length : Int)).getD q DFA_STATE_NOT_PROCESSED
            = st.2.getD q DFA_STATE_NOT_PROCESSED :=
          getD_set_ne _ _ _ _ (fun hh => hqne hh.symm)
        have hq1 : 0 ≤ (st.2.set q_i (st.1.length : Int)).getD q DFA_STATE_NOT_PROCESSED := by
          rw [hp1]; exact hqc
        rw [hMr q hqn (by rw [hMp q hqn hq1]; exact hq1), hMp q hqn hq1, hp1]
      · intro q hq
        rcases List.mem_cons.mp hq with hh | hh
        · rw [hh]
          have hq2 : 0 ≤ (refine_pairs dist q_i rest
              (st.1 ++ [[q_i]], st.2.set q_i (st.1.length : Int))).2.getD q_i
                DFA_STATE_NOT_PROCESSED := by
            rw [hMp q_i hqin hqicov1]; exact hqicov1
          rw [hMr q_i hqin hq2]
          exact hq2
        · exact hCr q hh
    · rw [if_neg hcov]
      push_neg at hcov
      obtain ⟨hPp, hMp, hLp⟩ := refine_pairs_post n e_all dist q_i st0 hst0 hfreshall hqiA
        rest st hpost hrestA hcov
      obtain ⟨hPr, hLr, hMr, hCr⟩ := ih _ hPp hrestA
      refine ⟨hPr, by omega, ?_, ?_⟩
      · intro q hqn hqc
        rw [hMr q hqn (by rw [hMp q hqn hqc]; exact hqc), hMp q hqn hqc]
      · intro q hq
        rcases List.mem_cons.mp hq with hh | hh
        · rw [hh]
          have hq2 : 0 ≤ (refine_pairs dist q_i rest st).2.getD q_i
              DFA_STATE_NOT_PROCESSED := by
            rw [hMp q_i hqin hcov]; exact hcov
          rw [hMr q_i hqin hq2]
          exact hq2
        · exact hCr q hh

theorem scanPost_refl (n : Nat) (e_all : List Nat) (st0 : List (List Nat) × List Int)
    (hst0 : stInv n st0) : scanPost n e_all st0 st0 :=
  ⟨hst0, Nat.le_refl _, fun _ _ => rfl, fun s hs1 hs2 => absurd hs2 (by omega),
   fun _ _ _ => rfl⟩

theorem covered_new_idx (n : Nat) (e_all : List Nat)
    (st0 st : List (List Nat) × List Int)
    (hst0 : stInv n st0) (hpost : scanPost n e_all st0 st) (q : Nat) (hq : q < n)
    (hfresh0 : st0.2.getD q DFA_STATE_NOT_PROCESSED = DFA_STATE_NOT_PROCESSED)
    (hcov : 0 ≤ st.2.getD q DFA_STATE_NOT_PROCESSED) :
    st0.1.length ≤ (st.2.getD q DFA_STATE_NOT_PROCESSED).toNat ∧
    (st.2.getD q DFA_STATE_NOT_PROCESSED).toNat < st.1.length ∧
    q ∈ st.1.getD (st.2.getD q DFA_STATE_NOT_PROCESSED).toNat [] := by
  obtain ⟨hsub, hmem⟩ := covered_subset n st q hpost.1 hq hcov
  by_cases hlt : (st.2.getD q DFA_STATE_NOT_PROCESSED).toNat < st0.1.length
  · exfalso
    rw [hpost.2.2.1 _ hlt] at hmem
    have := ((hst0.2.1 _ (by omega)).2.2 q hmem).2
    rw [hfresh0] at this
    exact not_processed_lt _ this
  · exact ⟨by omega, hsub, hmem⟩

theorem refine_dispatch_post (n : Nat) (dist : Nat → Nat → Bool)
    (st0 : List (List Nat) × List Int) (e : List Nat)
    (hst0 : stInv n st0)
    (hfresh : ∀ q ∈ e, q < n ∧
      st0.2.getD q DFA_STATE_NOT_PROCESSED = DFA_STATE_NOT_PROCESSED) :
    scanPost n e st0 (refine_dispatch dist st0 e) ∧
    (e ≠ [] → st0.1.length + 1 ≤ (refine_dispatch dist st0 e).1.length) ∧
    (∀ q ∈ e, 0 ≤ (refine_dispatch dist st0 e).2.getD q DFA_STATE_NOT_PROCESSED) ∧
    (e = [] → refine_dispatch dist st0 e = st0) := by
  by_cases h0 : e.length = 0
  · have he : e = [] := List.length_eq_zero.mp h0
    subst he
    have hd : refine_dispatch dist st0 [] = st0 := rfl
    rw [hd]
    exact ⟨scanPost_refl n [] st0 hst0, fun hne => absurd rfl hne,
      fun q hq => absurd hq (List.not_mem_nil q), fun _ => rfl⟩
  · by_cases h1 : e.length = 1
    · obtain ⟨q, he⟩ := List.length_eq_one.mp h1
      subst he
      have hd : refine_dispatch dist st0 [q]
          = (st0.1 ++ [[q]], st0.2.set q (st0.1.length : Int)) := rfl
      rw [hd]
      have hqn : q < n := (hfresh q (List.mem_singleton.mpr rfl)).1
      have hqf : st0.2.getD q DFA_STATE_NOT_PROCESSED = DFA_STATE_NOT_PROCESSED :=
        (hfresh q (List.mem_singleton.mpr rfl)).2
      refine ⟨⟨stInv_create n st0 q hst0 hqn hqf, by simp, ?_, ?_, ?_⟩, ?_, ?_, ?_⟩
      · intro s hs
        show (st0.1 ++ [[q]]).getD s [] = _
        rw [getD_append_left _ _ s hs]
      · intro s hs1 hs2 x hx
        simp only [List.length_append, List.length_singleton] at hs2
        have hse : s = st0.1.length := by omega
        subst hse
        rw [getD_concat_self] at hx
        rw [List.mem_singleton.mp hx]
        exact List.mem_singleton.mpr rfl
      · intro x hxn hxe
        show (st0.2.set _ _).getD x _ = _
        rw [getD_set_ne _ _ _ _
          (by intro hh; exact hxe (hh ▸ List.mem_singleton.mpr rfl))]
      · intro _
        simp
      · intro x hx
        rw [List.mem_singleton.mp hx]
        show 0 ≤ (st0.2.set q _).getD q _
        rw [getD_set_self _ _ _ (by have := hst0.1; omega)]
        exact Int.natCast_nonneg _
      · intro hh
        exact absurd hh (by simp)
    · have hd : refine_dispatch dist st0 e = refine_scan dist e st0 := by
        unfold refine_dispatch
        rw [if_neg h0, if_neg h1]
      rw [hd]
      obtain ⟨hP, hL, hM, hC⟩ := refine_scan_post n e dist st0 hst0 hfresh e st0
        (scanPost_refl n e st0 hst0) (fun q hq => hq)
      refine ⟨hP, ?_, hC, fun hh => absurd (by simp [hh] : e.length = 0) h0⟩
      intro hne
      have hhd : e.headD 0 ∈ e := headD_mem e 0 hne
      obtain ⟨hge, hlt, _⟩ := covered_new_idx n e st0 (refine_scan dist e st0) hst0 hP
        (e.headD 0) (hfresh _ hhd).1 (hfresh _ hhd).2 (hC _ hhd)
      omega

theorem countNE_nil : countNE [] = 0 := rfl

theorem countNE_cons (e : List Nat) (L : List (List Nat)) :
    countNE (e :: L) = countNE L + (if e = [] then 0 else 1) := by
  unfold countNE
  rw [List.countP_cons]
  congr 1
  by_cases he : e = []
  · subst he
    simp
  · rw [if_neg he]
    have hne : (!e.isEmpty) = true := by
      cases e with
      | nil => exact absurd rfl he
      | cons a l => rfl
    rw [hne, if_pos rfl]

theorem refine_fold_post (n : Nat) (dist : Nat → Nat → Bool) :
    ∀ (L : List (List Nat)) (st0 : List (List Nat) × List Int),
      stInv n st0 →
      (∀ e ∈ L, ∀ q ∈ e, q < n ∧
        st0.2.getD q DFA_STATE_NOT_PROCESSED = DFA_STATE_NOT_PROCESSED) →
      List.Pairwise (fun a b => ∀ q, q ∈ a → q ∈ b → False) L →
      stInv n (L.foldl (refine_dispatch dist) st0) ∧
      st0.1.length + countNE L ≤ (L.foldl (refine_dispatch dist) st0).1.length ∧
      (∀ q, q < n → (∀ e ∈ L, q ∉ e) →
        (L.foldl (refine_dispatch dist) st0).2.getD q DFA_STATE_NOT_PROCESSED
          = st0.2.getD q DFA_STATE_NOT_PROCESSED) ∧
      ((L.foldl (refine_dispatch dist) st0).1.length = st0.1.length + countNE L →
        ∀ i, i < L.length → ∀ q ∈ L.getD i [],
          (L.foldl (refine_dispatch dist) st0).2.getD q DFA_STATE_NOT_PROCESSED
            = ((st0.1.length + countNE (L.take i) : Nat) : Int)) := by
  intro L
  induction L with
  | nil =>
    intro st0 hst0 _ _
    refine ⟨hst0, by simp [countNE_nil], fun q _ _ => rfl, ?_⟩
    intro _ i hi
    simp at hi
  | cons e L ih =>
    intro st0 hst0 hfresh hpw
    rw [List.foldl_cons]
    obtain ⟨hpwh, hpwt⟩ := List.pairwise_cons.mp hpw
    obtain ⟨hD, hDlen, hDcov, hDnil⟩ := refine_dispatch_post n dist st0 e hst0
      (hfresh e (List.mem_cons_self _ _))
    have hfresh1 : ∀ e2 ∈ L, ∀ q ∈ e2, q < n ∧
        (refine_dispatch dist st0 e).2.getD q DFA_STATE_NOT_PROCESSED
          = DFA_STATE_NOT_PROCESSED := by
      intro e2 he2 q hq
      have hqn := (hfresh e2 (List.mem_cons_of_mem _ he2) q hq).1
      have hqnine : q ∉ e := fun hm => hpwh e2 he2 q hm hq
      exact ⟨hqn, by
        rw [hD.2.2.2.2 q hqn hqnine]
        exact (hfresh e2 (List.mem_cons_of_mem _ he2) q hq).2⟩
    obtain ⟨hI1, hI2, hI3, hI4⟩ := ih (refine_dispatch dist st0 e) hD.1 hfresh1 hpwt
    have hlen1 : st0.1.length + (if e = [] then 0 else 1)
        ≤ (refine_dispatch dist st0 e).1.length := by
      by_cases he : e = []
      · rw [if_pos he, hDnil he]
        omega
      · rw [if_neg he]
        exact hDlen he
    refine ⟨hI1, ?_, ?_, ?_⟩
    · rw [countNE_cons]
      omega
    · intro q hqn hout
      rw [hI3 q hqn (fun e2 he2 => hout e2 (List.mem_cons_of_mem _ he2))]
      exact hD.2.2.2.2 q hqn (hout e (List.mem_cons_self _ _))
    · intro htotal i hi q hq
      rw [countNE_cons] at htotal
      have hsplit : (refine_dispatch dist st0 e).1.length
            = st0.1.length + (if e = [] then 0 else 1) ∧
          (L.foldl (refine_dispatch dist) (refine_dispatch dist st0 e)).1.length
            = (refine_dispatch dist st0 e).1.length + countNE L := by
        omega
      cases i with
      | zero =>
        have hqe : q ∈ e := by
          have : (e :: L).getD 0 [] = e := rfl
          rw [this] at hq
          exact hq
        have hene : e ≠ [] := fun hh => absurd (hh ▸ hqe) (List.not_mem_nil q)
        have hst1len : (refine_dispatch dist st0 e).1.length = st0.1.length + 1 := by
          rw [hsplit.1, if_neg hene]
        obtain ⟨hge, hlt, _⟩ := covered_new_idx n e st0 (refine_dispatch dist st0 e)
          hst0 hD q (hfresh e (List.mem_cons_self _ _) q hqe).1
          (hfresh e (List.mem_cons_self _ _) q hqe).2 (hDcov q hqe)
        have hval : (refine_dispatch dist st0 e).2.getD q DFA_STATE_NOT_PROCESSED
            = ((st0.1.length : Nat) : Int) := by
          have hc := hDcov q hqe
          omega
        have hqout : ∀ e2 ∈ L, q ∉ e2 := fun e2 he2 hm => hpwh e2 he2 q hqe hm
        rw [hI3 q (hfresh e (List.mem_cons_self _ _) q hqe).1 hqout, hval]
        rw [List.take_zero, countNE_nil]
        omega
      | succ i =>
        have hqL : q ∈ L.getD i [] := by
          have hgd : (e :: L).getD (i + 1) [] = L.getD i [] := rfl
          rw [hgd] at hq
          exact hq
        have hiL : i < L.length := by
          have hlc : (e :: L).length = L.length + 1 := rfl
          omega
        have hv := hI4 (by exact hsplit.2) i hiL q hqL
        rw [hv]
        have hnat : (refine_dispatch dist st0 e).1.length + countNE (L.take i)
            = st0.1.length + countNE ((e :: L).take (i + 1)) := by
          rw [List.take_succ_cons, countNE_cons]
          have hs1 := hsplit.1
          by_cases he : e = []
          · rw [if_pos he] at hs1 ⊢
            omega
          · rw [if_neg he] at hs1 ⊢
            omega
        omega

theorem stInv_init (n : Nat) : stInv n ([], List.replicate n DFA_STATE_NOT_PROCESSED) := by
  refine ⟨by simp, ?_, ?_⟩
  · intro s hs
    simp at hs
  · intro q hq
    left
    rw [getD_of_lt _ q (by simpa using hq)]
    simp

theorem okPart_bounded (n : Nat) (p : partition) (h : okPart n p) :
    ∀ e ∈ p.subsets, ∀ q ∈ e, q < n := by
  intro e he q hq
  obtain ⟨s, hs, hse⟩ := List.mem_iff_getElem.mp he
  have hgd : p.subsets.getD s [] = e := by
    rw [getD_of_lt _ s hs]
    exact hse
  exact ((h.2.1 s hs).2.2 q (hgd ▸ hq)).1

theorem okPart_nonempty (n : Nat) (p : partition) (h : okPart n p) :
    ∀ e ∈ p.subsets, e ≠ [] := by
  intro e he
  obtain ⟨s, hs, hse⟩ := List.mem_iff_getElem.mp he
  have h1 := (h.2.1 s hs).1
  rw [getD_of_lt _ s hs, hse] at h1
  exact h1

theorem okPart_pairwise (n : Nat) (p : partition) (h : okPart n p) :
    List.Pairwise (fun a b => ∀ q, q ∈ a → q ∈ b → False) p.subsets := by
  rw [List.pairwise_iff_getElem]
  intro i j hi hj hij q hqi hqj
  have h1 := ((h.2.1 i hi).2.2 q (by rw [getD_of_lt _ i hi]; exact hqi)).2
  have h2 := ((h.2.1 j hj).2.2 q (by rw [getD_of_lt _ j hj]; exact hqj)).2
  omega

theorem replicate_fresh (n : Nat) (q : Nat) (hq : q < n) :
    (List.replicate n DFA_STATE_NOT_PROCESSED).getD q DFA_STATE_NOT_PROCESSED
      = DFA_STATE_NOT_PROCESSED := by
  rw [getD_of_lt _ q (by simpa using hq)]
  simp

theorem refine_step_okPart (dist : partition → Nat → Nat → Bool) (n : Nat) (cur : partition)
    (hb : ∀ e ∈ cur.subsets, ∀ q ∈ e, q < n)
    (hdis : List.Pairwise (fun a b => ∀ q, q ∈ a → q ∈ b → False) cur.subsets) :
    okPart n (refine_step dist n cur) :=
  (refine_fold_post n (dist cur) cur.subsets ([], List.replicate n DFA_STATE_NOT_PROCESSED)
    (stInv_init n)
    (fun e he q hq => ⟨hb e he q hq, replicate_fresh n q (hb e he q hq)⟩) hdis).1

theorem countNE_eq_length_of_nonempty (L : List (List Nat)) (hall : ∀ e ∈ L, e ≠ []) :
    countNE L = L.length := by
  unfold countNE
  rw [List.countP_eq_length]
  intro e he
  cases e with
  | nil => exact absurd rfl (hall [] he)
  | cons a l => rfl

theorem countNE_take (L : List (List Nat)) (hall : ∀ e ∈ L, e ≠ []) (s : Nat)
    (hs : s ≤ L.length) : countNE (L.take s) = s := by
  have h1 := countNE_eq_length_of_nonempty (L.take s)
    (fun e he => hall e (List.mem_of_mem_take he))
  rw [h1, List.length_take]
  omega

theorem refine_step_count_ge (dist : partition → Nat → Nat → Bool) (n : Nat)
    (cur : partition) (h : okPart n cur) :
    cur.subsets.length ≤ (refine_step dist n cur).subsets.length := by
  have hfold := refine_fold_post n (dist cur) cur.subsets
    ([], List.replicate n DFA_STATE_NOT_PROCESSED) (stInv_init n)
    (fun e he q hq => ⟨okPart_bounded n cur h e he q hq,
      replicate_fresh n q (okPart_bounded n cur h e he q hq)⟩)
    (okPart_pairwise n cur h)
  have hne := countNE_eq_length_of_nonempty cur.subsets (okPart_nonempty n cur h)
  have h1 : (([], List.replicate n DFA_STATE_NOT_PROCESSED)
      : List (List Nat) × List Int).1.length = 0 := rfl
  have h2 : (refine_step dist n cur).subsets.length
      = (cur.subsets.foldl (refine_dispatch (dist cur))
        ([], List.replicate n DFA_STATE_NOT_PROCESSED)).1.length := rfl
  have h3 := hfold.2.1
  omega

theorem refine_step_map_eq_of_count (dist : partition → Nat → Nat → Bool) (n : Nat)
    (cur : partition) (h : okPart n cur)
    (hc : (refine_step dist n cur).subsets.length = cur.subsets.length) :
    (refine_step dist n cur).subset_map = cur.subset_map := by
  have hfold := refine_fold_post n (dist cur) cur.subsets
    ([], List.replicate n DFA_STATE_NOT_PROCESSED) (stInv_init n)
    (fun e he q hq => ⟨okPart_bounded n cur h e he q hq,
      replicate_fresh n q (okPart_bounded n cur h e he q hq)⟩)
    (okPart_pairwise n cur h)
  have hne := countNE_eq_length_of_nonempty cur.subsets (okPart_nonempty n cur h)
  have h2 : (refine_step dist n cur).subsets.length
      = (cur.subsets.foldl (refine_dispatch (dist cur))
        ([], List.replicate n DFA_STATE_NOT_PROCESSED)).1.length := rfl
  have htot : (cur.subsets.foldl (refine_dispatch (dist cur))
      ([], List.replicate n DFA_STATE_NOT_PROCESSED)).1.length
      = (([], List.replicate n DFA_STATE_NOT_PROCESSED)
        : List (List Nat) × List Int).1.length + countNE cur.subsets := by
    have h1 : (([], List.replicate n DFA_STATE_NOT_PROCESSED)
        : List (List Nat) × List Int).1.length = 0 := rfl
    omega
  have hlen1 : (refine_step dist n cur).subset_map.length = n := hfold.1.1
  have hlen2 : cur.subset_map.length = n := h.1
  apply List.ext_getElem (by omega)
  intro j hj1 hj2
  have hjn : j < n := by omega
  have hstep : (refine_step dist n cur).subset_map.getD j DFA_STATE_NOT_PROCESSED
      = (refine_step dist n cur).subset_map[j] := getD_of_lt _ j hj1
  have hcur : cur.subset_map.getD j DFA_STATE_NOT_PROCESSED = cur.subset_map[j] :=
    getD_of_lt _ j hj2
  rcases h.2.2 j hjn with huncov | ⟨s, hs, hm⟩
  · have hout : ∀ e ∈ cur.subsets, j ∉ e := by
      intro e he hmem
      obtain ⟨s, hs, hse⟩ := List.mem_iff_getElem.mp he
      have hgd : cur.subsets.getD s [] = e := by
        rw [getD_of_lt _ s hs]
        exact hse
      have := ((h.2.1 s hs).2.2 j (hgd ▸ hmem)).2
      rw [huncov] at this
      exact not_processed_lt s this
    have hval := hfold.2.2.1 j hjn hout
    rw [replicate_fresh n j hjn] at hval
    have hmapeq : (refine_step dist n cur).subset_map
        = (cur.subsets.foldl (refine_dispatch (dist cur))
          ([], List.replicate n DFA_STATE_NOT_PROCESSED)).2 := rfl
    rw [← hstep, ← hcur, hmapeq, hval]
    exact huncov.symm
  · have hval := hfold.2.2.2 htot s hs j hm
    have htke : countNE (cur.subsets.take s) = s :=
      countNE_take cur.subsets (okPart_nonempty n cur h) s
        (by
          have hd : ((cur.subsets, cur.subset_map)
              : List (List Nat) × List Int).1.length = cur.subsets.length := rfl
          omega)
    have hcurval := ((h.2.1 s hs).2.2 j hm).2
    have hmapeq : (refine_step dist n cur).subset_map
        = (cur.subsets.foldl (refine_dispatch (dist cur))
          ([], List.replicate n DFA_STATE_NOT_PROCESSED)).2 := rfl
    rw [← hstep, ← hcur, hmapeq, hval, htke]
    rw [show cur.subset_map.getD j DFA_STATE_NOT_PROCESSED = ((s : Nat) : Int) from hcurval]
    have h1 : (([], List.replicate n DFA_STATE_NOT_PROCESSED)
        : List (List Nat) × List Int).1.length = 0 := rfl
    omega

theorem are_equal_of_map_eq (l r : partition) (h : l.subset_map = r.subset_map) :
    are_equal_partitions l r = true := by
  unfold are_equal_partitions
  rw [if_neg (not_not_intro (by rw [h]))]
  rw [List.all_eq_true]
  intro i _
  rw [h]
  exact beq_self_eq_true _

theorem okPart_count_le (n : Nat) (p : partition) (h : okPart n p) :
    p.subsets.length ≤ n := by
  have hmain : ∀ s, s < p.subsets.length → (p.subsets.getD s []).headD 0 < n ∧
      p.subset_map.getD ((p.subsets.getD s []).headD 0) DFA_STATE_NOT_PROCESSED
        = (s : Int) := by
    intro s hs
    obtain ⟨hne, hnd, hmem⟩ := h.2.1 s hs
    exact hmem _ (headD_mem _ 0 hne)
  have hcard := Finset.card_le_card_of_injOn
    (fun s => (p.subsets.getD s []).headD 0)
    (fun a ha => Finset.mem_range.mpr (hmain a (Finset.mem_range.mp ha)).1)
    (by
      intro a ha b hb hab
      simp only [Finset.coe_range, Set.mem_Iio] at ha hb
      simp only at hab
      have h1 := (hmain a ha).2
      have h2 := (hmain b hb).2
      rw [hab] at h1
      omega)
  simpa using hcard

theorem refine_converges (dist : partition → Nat → Nat → Bool) (n : Nat) (p0 : partition)
    (hlen0 : p0.subset_map.length = n)
    (hb0 : ∀ e ∈ p0.subsets, ∀ q ∈ e, q < n)
    (hdis0 : List.Pairwise (fun a b => ∀ q, q ∈ a → q ∈ b → False) p0.subsets) :
    ∃ k ≤ n, are_equal_partitions (refine_iter dist n p0 k)
      (refine_iter dist n p0 (k + 1)) = true := by
  have hok : ∀ k, okPart n (refine_iter dist n p0 (k + 1)) := by
    intro k
    induction k with
    | zero => exact refine_step_okPart dist n p0 hb0 hdis0
    | succ k ihk =>
      exact refine_step_okPart dist n _ (okPart_bounded n _ ihk) (okPart_pairwise n _ ihk)
  by_contra hcon
  push_neg at hcon
  rcases Nat.eq_zero_or_pos n with hn0 | hn1
  · have hm0 : (refine_iter dist n p0 0).subset_map = [] :=
      List.length_eq_zero.mp (by rw [show (refine_iter dist n p0 0).subset_map
        = p0.subset_map from rfl, hlen0, hn0])
    have hm1 : (refine_iter dist n p0 1).subset_map = [] :=
      List.length_eq_zero.mp (by rw [(hok 0).1, hn0])
    exact absurd (are_equal_of_map_eq (refine_iter dist n p0 0) (refine_iter dist n p0 1)
        (by rw [hm0, hm1]))
      (hcon 0 (Nat.zero_le n))
  · have hstrict : ∀ k, k + 1 ≤ n →
        (refine_iter dist n p0 (k + 1)).subsets.length + 1
          ≤ (refine_iter dist n p0 (k + 2)).subsets.length := by
      intro k hk
      have hge := refine_step_count_ge dist n _ (hok k)
      by_contra hlt
      push_neg at hlt
      have hh : refine_iter dist n p0 (k + 2)
          = refine_step dist n (refine_iter dist n p0 (k + 1)) := rfl
      rw [hh] at hlt
      have heqc : (refine_step dist n (refine_iter dist n p0 (k + 1))).subsets.length
          = (refine_iter dist n p0 (k + 1)).subsets.length := by omega
      exact absurd (are_equal_of_map_eq (refine_iter dist n p0 (k + 1))
          (refine_iter dist n p0 (k + 2))
          (refine_step_map_eq_of_count dist n _ (hok k) heqc).symm)
        (hcon (k + 1) (by omega))
    have hchain : ∀ k, k ≤ n →
        (refine_iter dist n p0 1).subsets.length + k
          ≤ (refine_iter dist n p0 (k + 1)).subsets.length := by
      intro k
      induction k with
      | zero =>
        intro _
        rw [Nat.zero_add]
        omega
      | succ k ihk =>
        intro hk1
        have h1 := ihk (by omega)
        have h2 := hstrict k hk1
        show (refine_iter dist n p0 1).subsets.length + (k + 1)
          ≤ (refine_iter dist n p0 (k + 2)).subsets.length
        omega
    have hcap := okPart_count_le n _ (hok n)
    have hch := hchain n (Nat.le_refl n)
    have hc0 : (refine_iter dist n p0 1).subsets.length = 0 := by omega
    have hempty : (refine_iter dist n p0 1).subsets = [] := List.length_eq_zero.mp hc0
    have hm2 : (refine_iter dist n p0 2).subset_map
        = List.replicate n DFA_STATE_NOT_PROCESSED := by
      have hh : (refine_iter dist n p0 2).subset_map
          = ((refine_iter dist n p0 1).subsets.foldl
            (refine_dispatch (dist (refine_iter dist n p0 1)))
            ([], List.replicate n DFA_STATE_NOT_PROCESSED)).2 := rfl
      rw [hh, hempty]
      rfl
    have hm1 : (refine_iter dist n p0 1).subset_map
        = List.replicate n DFA_STATE_NOT_PROCESSED := by
      apply List.ext_getElem (by rw [(hok 0).1]; simp)
      intro j hj1 hj2
      have hjn : j < n := by
        rw [(hok 0).1] at hj1
        exact hj1
      rcases (hok 0).2.2 j hjn with hc | ⟨s, hs, _⟩
      · have hgd : (refine_iter dist n p0 1).subset_map.getD j DFA_STATE_NOT_PROCESSED
            = (refine_iter dist n p0 1).subset_map[j] := getD_of_lt _ j hj1
        have hrep : (List.replicate n DFA_STATE_NOT_PROCESSED)[j]
            = DFA_STATE_NOT_PROCESSED := by simp
        rw [hrep, ← hgd]
        exact hc
      · exfalso
        have hz : ((refine_iter dist n p0 (0 + 1)).subsets,
            (refine_iter dist n p0 (0 + 1)).subset_map).1.length = 0 := by
          show (refine_iter dist n p0 1).subsets.length = 0
          exact hc0
        omega
    exact absurd (are_equal_of_map_eq (refine_iter dist n p0 1) (refine_iter dist n p0 2)
        (by rw [hm1, hm2]))
      (hcon 1 (by omega))

theorem dfa_initial_step_eq (states : List state) (p : partition) (j : Nat) :
    dfa_initial_step states p j
      = { subsets := p.subsets.set (if (states.getD j default).is_final then 1 else 0)
            (p.subsets.getD (if (states.getD j default).is_final then 1 else 0) [] ++ [j]),
          subset_map := p.subset_map.set j
            ((if (states.getD j default).is_final then (1 : Nat) else 0 : Nat) : Int) } := rfl

theorem dfa_init_fold (states : List state) :
    ∀ (l : List Nat) (p : partition),
      p.subsets.length = 2 →
      p.subset_map.length = states.length →
      (∀ e ∈ p.subsets, ∀ q ∈ e, q < states.length ∧ q ∉ l) →
      (∀ q, q ∈ p.subsets.getD 0 [] → q ∈ p.subsets.getD 1 [] → False) →
      (∀ j ∈ l, j < states.length) →
      l.Nodup →
      (l.foldl (dfa_initial_step states) p).subsets.length = 2 ∧
      (l.foldl (dfa_initial_step states) p).subset_map.length = states.length ∧
      (∀ e ∈ (l.foldl (dfa_initial_step states) p).subsets, ∀ q ∈ e, q < states.length) ∧
      (∀ q, q ∈ (l.foldl (dfa_initial_step states) p).subsets.getD 0 [] →
        q ∈ (l.foldl (dfa_initial_step states) p).subsets.getD 1 [] → False) := by
  intro l
  induction l with
  | nil =>
    intro p h2 hm hel hdisj _ _
    exact ⟨h2, hm, fun e he q hq => (hel e he q hq).1, hdisj⟩
  | cons j l ih =>
    intro p h2 hm hel hdisj hl hnd
    rw [List.foldl_cons]
    have hS2 : (if (states.getD j default).is_final then (1 : Nat) else 0) < 2 := by
      split_ifs <;> omega
    rw [dfa_initial_step_eq]
    apply ih
    · show (p.subsets.set _ _).length = 2
      rw [List.length_set]
      exact h2
    · show (p.subset_map.set _ _).length = states.length
      rw [List.length_set]
      exact hm
    · intro e he q hq
      rcases List.mem_or_eq_of_mem_set he with he2 | he2
      · have hold := hel e he2 q hq
        exact ⟨hold.1, fun hm2 => hold.2 (List.mem_cons_of_mem _ hm2)⟩
      · subst he2
        rcases List.mem_append.mp hq with hq2 | hq2
        · have hmemS : p.subsets.getD
              (if (states.getD j default).is_final then 1 else 0) [] ∈ p.subsets := by
            rw [getD_of_lt _ _ (by omega)]
            exact List.getElem_mem _
          have hold := hel _ hmemS q hq2
          exact ⟨hold.1, fun hm2 => hold.2 (List.mem_cons_of_mem _ hm2)⟩
        · rw [List.mem_singleton.mp hq2]
          exact ⟨hl j (List.mem_cons_self _ _), (List.nodup_cons.mp hnd).1⟩
    · intro q hq0 hq1
      by_cases hf : (states.getD j default).is_final
      · rw [if_pos hf] at hq0 hq1
        rw [getD_set_ne _ _ _ _ (by omega)] at hq0
        rw [getD_set_self _ _ _ (by omega)] at hq1
        rcases List.mem_append.mp hq1 with hq1 | hq1
        · exact hdisj q hq0 hq1
        · have hmem0 : p.subsets.getD 0 [] ∈ p.subsets := by
            rw [getD_of_lt _ 0 (by omega)]
            exact List.getElem_mem _
          exact (hel _ hmem0 q hq0).2
            (by rw [List.mem_singleton.mp hq1]; exact List.mem_cons_self _ _)
      · rw [if_neg hf] at hq0 hq1
        rw [getD_set_self _ _ _ (by omega)] at hq0
        rw [getD_set_ne _ _ _ _ (by omega)] at hq1
        rcases List.mem_append.mp hq0 with hq0 | hq0
        · exact hdisj q hq0 hq1
        · have hmem1 : p.subsets.getD 1 [] ∈ p.subsets := by
            rw [getD_of_lt _ 1 (by omega)]
            exact List.getElem_mem _
          exact (hel _ hmem1 q hq1).2
            (by rw [List.mem_singleton.mp hq0]; exact List.mem_cons_self _ _)
    · exact fun j2 hj2 => hl j2 (List.mem_cons_of_mem _ hj2)
    · exact (List.nodup_cons.mp hnd).2

theorem dfa_initial_partition_facts (states : List state) :
    (dfa_initial_partition states).subset_map.length = states.length ∧
    (∀ e ∈ (dfa_initial_partition states).subsets, ∀ q ∈ e, q < states.length) ∧
    List.Pairwise (fun a b => ∀ q, q ∈ a → q ∈ b → False)
      (dfa_initial_partition states).subsets := by
  obtain ⟨h2, hm, hel, hdisj⟩ := dfa_init_fold states (List.range states.length)
    { subsets := [[], []], subset_map := List.replicate states.length 0 }
    rfl (by simp)
    (by
      intro e he q hq
      rcases List.mem_cons.mp he with he2 | he2
      · rw [he2] at hq
        exact absurd hq (List.not_mem_nil q)
      · rcases List.mem_cons.mp he2 with he3 | he3
        · rw [he3] at hq
          exact absurd hq (List.not_mem_nil q)
        · exact absurd he3 (List.not_mem_nil e))
    (by
      intro q hq0 _
      exact absurd hq0 (List.not_mem_nil q))
    (fun j hj => List.mem_range.mp hj) (List.nodup_range _)
  have hd : dfa_initial_partition states
      = (List.range states.length).foldl (dfa_initial_step states)
        { subsets := [[], []], subset_map := List.replicate states.length 0 } := rfl
  rw [hd]
  refine ⟨hm, hel, ?_⟩
  rw [List.pairwise_iff_getElem]
  intro a b ha hb hab q hqa hqb
  rw [h2] at ha hb
  have ha0 : a = 0 := by omega
  have hb1 : b = 1 := by omega
  subst ha0
  subst hb1
  apply hdisj q
  · rw [getD_of_lt _ 0 (by omega)]
    exact hqa
  · rw [getD_of_lt _ 1 (by omega)]
    exact hqb

/-- C4, confirmed: for every alphabet and every finite vector of states and
transitions, the partition-refinement loop of `dfa_compute_equivalence_sets`
reaches its convergence condition — the newly computed `subset_map` equals
the previous one — within at most `n_states` refinements: some iterate
`k ≤ n_states` of the loop body is already map-equal to its successor, so
the do-while terminates after at most `n_states` map-changing iterations. -/
theorem c4_equivalence_refinement_converges (alphabet : basic_alphabet)
    (states : List state) (transitions : List transition) :
    ∃ k ≤ states.length,
      are_equal_partitions
        (refine_iter (dfa_dist alphabet states transitions) states.length
          (dfa_initial_partition states) k)
        (refine_iter (dfa_dist alphabet states transitions) states.length
          (dfa_initial_partition states) (k + 1)) = true := by
  obtain ⟨hm, hel, hpw⟩ := dfa_initial_partition_facts states
  exact refine_converges (dfa_dist alphabet states transitions) states.length
    (dfa_initial_partition states) hm hel hpw

end NcrAutomata
